import Mathlib

/-!
# SPSC ring-buffer queues: `chan.h`, `chan_soft_array.h`, `chan_fence.h`

Shallow embedding of the three single-producer/single-consumer queue classes.

Modelling conventions.

* A C++ `int` is an `Int`; the result of an `int` addition or subtraction is
  passed through `wrapInt32` (two's complement, 32 bits).  A `size_t` is a `Nat`
  below `2^64`; a conversion to `size_t` is `toSizeT`.
* The element storage `buf_` is a map from slot index to slot content:
  `some v` for a constructed element `v`, `none` for raw (never constructed or
  already destructed) storage.  Placement-new at `&buf_[i]` stores `some v` at
  `i`; the destructor call `buf_[i].~T()` stores `none` at `i`.  The map follows
  the elements that `push` constructs and `pop` destructs.  In `chan_fence.h` the
  storage is a member array `T buf_[Capacity]`, which the constructor and the
  destructor of the queue object also construct and destruct; those events are
  kept apart, in `member_init` and in the `member` events of `destroy`.
* A pointer `T*` returned by `front()` is modelled by the slot index it points
  to (`none` for `nullptr`); dereferencing it reads `buf_`.
* The busy-wait loop of `push` re-reads `tail_` on every iteration.  The model
  is at the granularity of whole calls, so nothing changes `tail_` while a
  `push` spins; the loop is given a `fuel` (number of iterations it may run)
  and `push` yields `none` when the loop has not exited within `fuel`
  iterations.  "The push does not complete" is `∀ fuel, push fuel q v = none`.
* Next to the whole calls, `push`, `front` and `pop` are also given step by step
  (`push_step`, `front_step`, `pop_step`: one access to a shared cursor or slot per
  step), and a producer thread and a consumer thread run these steps in any order
  on one shared state (`TwoThreads.exec`): sequentially consistent memory, no
  reordering of the accesses of a thread.
* The allocation functions the classes call are the throwing ones and their
  callers are `noexcept`: a call that allocates ends by returning or in
  `std::terminate()` (`Allocation`, `Noexcept`).
-/

namespace Spsc

/-- Value of a 32-bit two's-complement `int` holding the mathematical result `x`. -/
def wrapInt32 (x : Int) : Int := (x + 2147483648) % 4294967296 - 2147483648

/-- Conversion of an integer value to the 64-bit unsigned `size_t`. -/
def toSizeT (x : Int) : Nat := (x % 18446744073709551616).toNat

/-! ## `chan.h`: `SPSCQueue<T>` (separately allocated buffer) -/

/-- Fields of `SPSCQueue<T>`: `cap_`, `head_`, `tail_`, `buf_`. -/
structure SPSCQueue (α : Type) where
  cap_ : Int
  head_ : Int
  tail_ : Int
  buf_ : Int → Option α

/-- Constructor `SPSCQueue(const int cap)`: `cap_(std::max<int>(cap + 1, 4))`,
`head_{0}`, `tail_{0}`, and a freshly allocated raw buffer. -/
def SPSCQueue.construct {α : Type} (cap : Int) : SPSCQueue α :=
  { cap_ := max (wrapInt32 (cap + 1)) 4
    head_ := 0
    tail_ := 0
    buf_ := fun _ => none }

/-- The loop `while (next_head == tail_.load(acquire)) {}` of `SPSCQueue::push`,
run for at most `fuel` iterations; `true` when the loop has exited. -/
def SPSCQueue.push_wait {α : Type} (q : SPSCQueue α) (next_head : Int) : Nat → Bool
  | 0 => false
  | fuel + 1 => if next_head = q.tail_ then SPSCQueue.push_wait q next_head fuel else true

/-- Method `SPSCQueue::push`. -/
def SPSCQueue.push {α : Type} (fuel : Nat) (q : SPSCQueue α) (v : α) :
    Option (Bool × SPSCQueue α) :=
  let head := q.head_
  let next_head := wrapInt32 (head + 1)
  let next_head := if next_head = q.cap_ then 0 else next_head
  if SPSCQueue.push_wait q next_head fuel then
    some (true,
      { q with
        buf_ := fun i => if i = head then some v else q.buf_ i
        head_ := next_head })
  else none

/-- Method `SPSCQueue::front`: `nullptr` (here `none`) or `&buf_[tail]`. -/
def SPSCQueue.front {α : Type} (q : SPSCQueue α) : Option Int :=
  let tail := q.tail_
  if q.head_ = tail then none else some tail

/-- Method `SPSCQueue::pop`. -/
def SPSCQueue.pop {α : Type} (q : SPSCQueue α) : SPSCQueue α :=
  let tail := q.tail_
  let next_tail := wrapInt32 (tail + 1)
  let next_tail := if next_tail = q.cap_ then 0 else next_tail
  { q with
    buf_ := fun i => if i = tail then none else q.buf_ i
    tail_ := next_tail }

/-- Method `SPSCQueue::size`.  The local `diff` is declared `size_t`: the `int`
difference `head - tail` is converted to unsigned on initialisation, and the
test `diff < 0` compares an unsigned value with zero. -/
def SPSCQueue.size {α : Type} (q : SPSCQueue α) : Nat :=
  let diff : Nat := toSizeT (wrapInt32 (q.head_ - q.tail_))
  let diff : Nat := if diff < 0 then toSizeT ((diff : Int) + toSizeT q.cap_) else diff
  diff

/-! ## `chan_soft_array.h`: `SPSCQueueSoftArray<T, kCacheLineSize>` -/

/-- Fields of `SPSCQueueSoftArray`: `cap_`, `head_`, `tail_` and the trailing
flexible array `buf_`. -/
structure SPSCQueueSoftArray (α : Type) where
  cap_ : Int
  head_ : Int
  tail_ : Int
  buf_ : Int → Option α

/-- Private constructor `SPSCQueueSoftArray(const int cap) : cap_(cap)`, with the
default member initialisers `head_{0}`, `tail_{0}`. -/
def SPSCQueueSoftArray.construct {α : Type} (cap : Int) : SPSCQueueSoftArray α :=
  { cap_ := cap
    head_ := 0
    tail_ := 0
    buf_ := fun _ => none }

/-- Static method `SPSCQueueSoftArray::create`.  `raw_memory` is what
`operator new(total_size, align)` handed back: `some a` for the address `a` of the
block, `none` for a null pointer. -/
def SPSCQueueSoftArray.create {α : Type} (raw_memory : Option Nat) (cap : Int) :
    Option (SPSCQueueSoftArray α) :=
  let actual_cap := max (wrapInt32 (cap + 1)) 4
  match raw_memory with
  | none => none
  | some _ => some (SPSCQueueSoftArray.construct actual_cap)

/-- The loop `while (next_head == tail_.load(acquire)) {}` of
`SPSCQueueSoftArray::push`, run for at most `fuel` iterations. -/
def SPSCQueueSoftArray.push_wait {α : Type} (q : SPSCQueueSoftArray α) (next_head : Int) :
    Nat → Bool
  | 0 => false
  | fuel + 1 =>
    if next_head = q.tail_ then SPSCQueueSoftArray.push_wait q next_head fuel else true

/-- Method `SPSCQueueSoftArray::push`. -/
def SPSCQueueSoftArray.push {α : Type} (fuel : Nat) (q : SPSCQueueSoftArray α) (v : α) :
    Option (Bool × SPSCQueueSoftArray α) :=
  let head := q.head_
  let next_head := wrapInt32 (head + 1)
  let next_head := if next_head = q.cap_ then 0 else next_head
  if SPSCQueueSoftArray.push_wait q next_head fuel then
    some (true,
      { q with
        buf_ := fun i => if i = head then some v else q.buf_ i
        head_ := next_head })
  else none

/-- Method `SPSCQueueSoftArray::front`. -/
def SPSCQueueSoftArray.front {α : Type} (q : SPSCQueueSoftArray α) : Option Int :=
  let tail := q.tail_
  if q.head_ = tail then none else some tail

/-- Method `SPSCQueueSoftArray::pop`. -/
def SPSCQueueSoftArray.pop {α : Type} (q : SPSCQueueSoftArray α) : SPSCQueueSoftArray α :=
  let tail := q.tail_
  let next_tail := wrapInt32 (tail + 1)
  let next_tail := if next_tail = q.cap_ then 0 else next_tail
  { q with
    buf_ := fun i => if i = tail then none else q.buf_ i
    tail_ := next_tail }

/-- Method `SPSCQueueSoftArray::size`: here `diff` is an `int`. -/
def SPSCQueueSoftArray.size {α : Type} (q : SPSCQueueSoftArray α) : Nat :=
  let head := q.head_
  let tail := q.tail_
  let diff := wrapInt32 (head - tail)
  let diff := if diff < 0 then wrapInt32 (diff + q.cap_) else diff
  toSizeT diff

/-- Method `SPSCQueueSoftArray::capacity`. -/
def SPSCQueueSoftArray.capacity {α : Type} (q : SPSCQueueSoftArray α) : Int :=
  q.cap_

/-! ## `chan_fence.h`: `SPSCQueueFence<T, Capacity, kCacheLineSize>` -/

/-- Fields of `SPSCQueueFence`: the raw `volatile int` cursors and the inline
array `buf_[Capacity]`.  `Capacity` is the `uint32_t` template argument. -/
structure SPSCQueueFence (α : Type) (Capacity : Nat) where
  head_ : Int
  tail_ : Int
  buf_ : Int → Option α

/-- Private constructor `SPSCQueueFence() : head_(0), tail_(0)`. -/
def SPSCQueueFence.construct {α : Type} {Capacity : Nat} : SPSCQueueFence α Capacity :=
  { head_ := 0
    tail_ := 0
    buf_ := fun _ => none }

/-- Static method `SPSCQueueFence::create`. -/
def SPSCQueueFence.create {α : Type} {Capacity : Nat} (raw_memory : Option Nat) :
    Option (SPSCQueueFence α Capacity) :=
  match raw_memory with
  | none => none
  | some _ => some SPSCQueueFence.construct

/-- The `do { lfence; current_tail = tail_; if (next_head != current_tail) break;
compiler_fence; } while (true)` loop of `SPSCQueueFence::push`, run for at most
`fuel` iterations; the value of `current_tail` at the `break`, if reached. -/
def SPSCQueueFence.push_wait {α : Type} {Capacity : Nat} (q : SPSCQueueFence α Capacity)
    (next_head : Int) : Nat → Option Int
  | 0 => none
  | fuel + 1 =>
    let current_tail := q.tail_
    if next_head ≠ current_tail then some current_tail
    else SPSCQueueFence.push_wait q next_head fuel

/-- Method `SPSCQueueFence::push`. -/
def SPSCQueueFence.push {α : Type} {Capacity : Nat} (fuel : Nat)
    (q : SPSCQueueFence α Capacity) (v : α) : Option (Bool × SPSCQueueFence α Capacity) :=
  let head := q.head_
  let next_head := wrapInt32 (head + 1)
  let next_head := if next_head = wrapInt32 Capacity then 0 else next_head
  match SPSCQueueFence.push_wait q next_head fuel with
  | none => none
  | some _ =>
    some (true,
      { q with
        buf_ := fun i => if i = head then some v else q.buf_ i
        head_ := next_head })

/-- Method `SPSCQueueFence::front`. -/
def SPSCQueueFence.front {α : Type} {Capacity : Nat} (q : SPSCQueueFence α Capacity) :
    Option Int :=
  let tail := q.tail_
  let head := q.head_
  if head = tail then none else some tail

/-- Method `SPSCQueueFence::pop`. -/
def SPSCQueueFence.pop {α : Type} {Capacity : Nat} (q : SPSCQueueFence α Capacity) :
    SPSCQueueFence α Capacity :=
  let tail := q.tail_
  let next_tail := wrapInt32 (tail + 1)
  let next_tail := if next_tail = wrapInt32 Capacity then 0 else next_tail
  { q with
    buf_ := fun i => if i = tail then none else q.buf_ i
    tail_ := next_tail }

/-- Method `SPSCQueueFence::size`. -/
def SPSCQueueFence.size {α : Type} {Capacity : Nat} (q : SPSCQueueFence α Capacity) : Nat :=
  let head := q.head_
  let tail := q.tail_
  let diff := wrapInt32 (head - tail)
  let diff := if diff < 0 then wrapInt32 (diff + wrapInt32 Capacity) else diff
  toSizeT diff

/-- Method `SPSCQueueFence::capacity`: `static_cast<int>(Capacity)`. -/
def SPSCQueueFence.capacity {α : Type} {Capacity : Nat} (_q : SPSCQueueFence α Capacity) :
    Int :=
  wrapInt32 Capacity

/-! ## The three variants behind one interface -/

/-- The public operations of one queue variant, with its state type.  `cap` is the
internal capacity `C` (the field `cap_`, or the template argument converted by
`static_cast<int>`); `slot` reads the element storage; `head` and `tail` read the
two cursors. -/
structure Variant (α : Type) where
  State : Type
  cap : State → Int
  head : State → Int
  tail : State → Int
  slot : State → Int → Option α
  push : Nat → State → α → Option (Bool × State)
  front : State → Option Int
  pop : State → State
  size : State → Nat

/-- The separate-allocation queue of `chan.h`. -/
@[reducible] def SPSCQueue.variant (α : Type) : Variant α :=
  { State := SPSCQueue α
    cap := fun q => q.cap_
    head := fun q => q.head_
    tail := fun q => q.tail_
    slot := fun q => q.buf_
    push := SPSCQueue.push
    front := SPSCQueue.front
    pop := SPSCQueue.pop
    size := SPSCQueue.size }

/-- The co-located queue of `chan_soft_array.h`. -/
@[reducible] def SPSCQueueSoftArray.variant (α : Type) : Variant α :=
  { State := SPSCQueueSoftArray α
    cap := SPSCQueueSoftArray.capacity
    head := fun q => q.head_
    tail := fun q => q.tail_
    slot := fun q => q.buf_
    push := SPSCQueueSoftArray.push
    front := SPSCQueueSoftArray.front
    pop := SPSCQueueSoftArray.pop
    size := SPSCQueueSoftArray.size }

/-- The fence-based queue of `chan_fence.h` with template argument `Capacity`. -/
@[reducible] def SPSCQueueFence.variant (α : Type) (Capacity : Nat) : Variant α :=
  { State := SPSCQueueFence α Capacity
    cap := SPSCQueueFence.capacity
    head := fun q => q.head_
    tail := fun q => q.tail_
    slot := fun q => q.buf_
    push := SPSCQueueFence.push
    front := SPSCQueueFence.front
    pop := SPSCQueueFence.pop
    size := SPSCQueueFence.size }

/-- A freshly created queue of one of the three variants.  The fence variant takes
its capacity from the template argument, which has to be a positive array bound
that `static_cast<int>` leaves unchanged. -/
inductive Fresh {α : Type} : (V : Variant α) → V.State → Prop
  | separate (cap : Int) : Fresh (SPSCQueue.variant α) (SPSCQueue.construct cap)
  | softArray (cap : Int) (raw : Nat) (q : SPSCQueueSoftArray α)
      (h : SPSCQueueSoftArray.create (some raw) cap = some q) :
      Fresh (SPSCQueueSoftArray.variant α) q
  | fence (Capacity : Nat) (raw : Nat) (q : SPSCQueueFence α Capacity)
      (hpos : 0 < Capacity) (hint : Capacity ≤ 2147483647)
      (h : SPSCQueueFence.create (some raw) = some q) :
      Fresh (SPSCQueueFence.variant α Capacity) q

/-- A freshly created queue of the co-located or of the fence variant. -/
inductive FreshColocatedOrFence {α : Type} : (V : Variant α) → V.State → Prop
  | softArray (cap : Int) (raw : Nat) (q : SPSCQueueSoftArray α)
      (h : SPSCQueueSoftArray.create (some raw) cap = some q) :
      FreshColocatedOrFence (SPSCQueueSoftArray.variant α) q
  | fence (Capacity : Nat) (raw : Nat) (q : SPSCQueueFence α Capacity)
      (hpos : 0 < Capacity) (hint : Capacity ≤ 2147483647)
      (h : SPSCQueueFence.create (some raw) = some q) :
      FreshColocatedOrFence (SPSCQueueFence.variant α Capacity) q

/-- One call made on the queue.  `push v` is a producer call that has to complete;
`front` is a consumer peek whose result is not used; `pop` is the consumer step of
`main.cc`: `front()` returned a non-null pointer, the element behind it is read,
then `pop()` is called. -/
inductive Op (α : Type) where
  | push (v : α)
  | front
  | pop

/-- Values handed to `push`, in call order. -/
def pushed {α : Type} : List (Op α) → List α
  | [] => []
  | Op.push v :: ops => v :: pushed ops
  | Op.front :: ops => pushed ops
  | Op.pop :: ops => pushed ops

/-- Number of `pop` calls. -/
def pops {α : Type} : List (Op α) → Nat
  | [] => 0
  | Op.push _ :: ops => pops ops
  | Op.front :: ops => pops ops
  | Op.pop :: ops => pops ops + 1

/-- Runs a sequence of calls.  The result is `none` when some `push` does not
complete within `fuel` loop iterations or when some `pop` is issued although
`front()` is null; otherwise it is the list of slot contents read through the
non-null `front()` pointers, in order, and the final state. -/
def run {α : Type} (V : Variant α) (fuel : Nat) :
    V.State → List (Op α) → Option (List (Option α) × V.State)
  | s, [] => some ([], s)
  | s, Op.push v :: ops =>
    match V.push fuel s v with
    | none => none
    | some (_, s') => run V fuel s' ops
  | s, Op.front :: ops => run V fuel s ops
  | s, Op.pop :: ops =>
    match V.front s with
    | none => none
    | some p =>
      match run V fuel (V.pop s) ops with
      | none => none
      | some (obs, s') => some (V.slot s p :: obs, s')

/-- Number of constructed elements held in the slots `0 .. cap - 1`. -/
def liveCount {α : Type} (V : Variant α) (s : V.State) : Nat :=
  ((List.range (V.cap s).toNat).filter (fun (i : Nat) => (V.slot s (i : Int)).isSome)).length

/-- The variant `V` is one of the three queue classes. -/
inductive IsVariant {α : Type} : Variant α → Prop
  | separate : IsVariant (SPSCQueue.variant α)
  | softArray : IsVariant (SPSCQueueSoftArray.variant α)
  | fence (Capacity : Nat) : IsVariant (SPSCQueueFence.variant α Capacity)

/-! ## Representation invariant -/

/-- Distance, walking forward around the ring of `cap` slots, from slot `tail` to
slot `j`. -/
def ringOff (cap tail j : Int) : Nat :=
  (if tail ≤ j then j - tail else j - tail + cap).toNat

/-- The queue state `q` holds exactly the elements `l`, oldest first: the cursors
are inside `[0, cap_)`, `cap_` is an `int`, the number of slots from `tail_` to
`head_` is the length of `l`, slot `tail_ + i` (around the ring) holds `l[i]`, and
every other slot is raw storage. -/
def Rep {α : Type} (q : SPSCQueueSoftArray α) (l : List α) : Prop :=
  q.cap_ ≤ 2147483647 ∧
  (0 ≤ q.head_ ∧ q.head_ < q.cap_) ∧
  (0 ≤ q.tail_ ∧ q.tail_ < q.cap_) ∧
  ((l.length : Int) =
    if q.head_ < q.tail_ then q.head_ - q.tail_ + q.cap_ else q.head_ - q.tail_) ∧
  ∀ j : Int, q.buf_ j =
    if 0 ≤ j ∧ j < q.cap_ then l[ringOff q.cap_ q.tail_ j]? else none

/-- State of the separate-allocation queue read as a co-located queue state. -/
def SPSCQueue.toSoft {α : Type} (q : SPSCQueue α) : SPSCQueueSoftArray α :=
  { cap_ := q.cap_
    head_ := q.head_
    tail_ := q.tail_
    buf_ := q.buf_ }

/-- State of the fence queue read as a co-located queue state. -/
def SPSCQueueFence.toSoft {α : Type} {Capacity : Nat} (q : SPSCQueueFence α Capacity) :
    SPSCQueueSoftArray α :=
  { cap_ := wrapInt32 Capacity
    head_ := q.head_
    tail_ := q.tail_
    buf_ := q.buf_ }

/-- The variant `V` performs, through the state reading `abs`, the same `push`,
`front` and `pop` as the co-located queue. -/
structure Sim {α : Type} (V : Variant α) (abs : V.State → SPSCQueueSoftArray α) : Prop where
  cap_eq : ∀ s, V.cap s = (abs s).cap_
  head_eq : ∀ s, V.head s = (abs s).head_
  tail_eq : ∀ s, V.tail s = (abs s).tail_
  slot_eq : ∀ s, V.slot s = (abs s).buf_
  push_eq : ∀ fuel s v,
    (V.push fuel s v).map (fun r => (r.1, abs r.2)) = SPSCQueueSoftArray.push fuel (abs s) v
  front_eq : ∀ s, V.front s = SPSCQueueSoftArray.front (abs s)
  pop_eq : ∀ s, abs (V.pop s) = SPSCQueueSoftArray.pop (abs s)

/-! ## `push` as a sequence of memory steps -/

/-- Program points of `push`.  `load_head`: before `head_` is read and `next_head`
computed (the read of the immutable `cap_`, or of the template constant, belongs to
this step); `load_tail head next_head`: at the test of the wait loop, about to read
`tail_`; `construct head next_head`: the loop has been left, about to
placement-new at `&buf_[head]`; `store_head head next_head`: the element is
constructed, about to store `next_head` into `head_`; `ret`: `return true`. -/
inductive PushPc where
  | load_head
  | load_tail (head next_head : Int)
  | construct (head next_head : Int)
  | store_head (head next_head : Int)
  | ret
  deriving DecidableEq

/-- One step of `SPSCQueue::push(v)` on the shared state. -/
def SPSCQueue.push_step {α : Type} (v : α) : PushPc × SPSCQueue α → PushPc × SPSCQueue α
  | (PushPc.load_head, q) =>
    let head := q.head_
    let next_head := wrapInt32 (head + 1)
    let next_head := if next_head = q.cap_ then 0 else next_head
    (PushPc.load_tail head next_head, q)
  | (PushPc.load_tail head next_head, q) =>
    if next_head = q.tail_ then (PushPc.load_tail head next_head, q)
    else (PushPc.construct head next_head, q)
  | (PushPc.construct head next_head, q) =>
    (PushPc.store_head head next_head,
      { q with buf_ := fun i => if i = head then some v else q.buf_ i })
  | (PushPc.store_head _ next_head, q) => (PushPc.ret, { q with head_ := next_head })
  | (PushPc.ret, q) => (PushPc.ret, q)

/-- One step of `SPSCQueueSoftArray::push(v)` on the shared state. -/
def SPSCQueueSoftArray.push_step {α : Type} (v : α) :
    PushPc × SPSCQueueSoftArray α → PushPc × SPSCQueueSoftArray α
  | (PushPc.load_head, q) =>
    let head := q.head_
    let next_head := wrapInt32 (head + 1)
    let next_head := if next_head = q.cap_ then 0 else next_head
    (PushPc.load_tail head next_head, q)
  | (PushPc.load_tail head next_head, q) =>
    if next_head = q.tail_ then (PushPc.load_tail head next_head, q)
    else (PushPc.construct head next_head, q)
  | (PushPc.construct head next_head, q) =>
    (PushPc.store_head head next_head,
      { q with buf_ := fun i => if i = head then some v else q.buf_ i })
  | (PushPc.store_head _ next_head, q) => (PushPc.ret, { q with head_ := next_head })
  | (PushPc.ret, q) => (PushPc.ret, q)

/-- One step of `SPSCQueueFence::push(v)` on the shared state.  The loop test is
`lfence; current_tail = tail_; if (next_head != current_tail) break;`, and the
store of `head_` follows the `sfence`. -/
def SPSCQueueFence.push_step {α : Type} {Capacity : Nat} (v : α) :
    PushPc × SPSCQueueFence α Capacity → PushPc × SPSCQueueFence α Capacity
  | (PushPc.load_head, q) =>
    let head := q.head_
    let next_head := wrapInt32 (head + 1)
    let next_head := if next_head = wrapInt32 Capacity then 0 else next_head
    (PushPc.load_tail head next_head, q)
  | (PushPc.load_tail head next_head, q) =>
    let current_tail := q.tail_
    if next_head ≠ current_tail then (PushPc.construct head next_head, q)
    else (PushPc.load_tail head next_head, q)
  | (PushPc.construct head next_head, q) =>
    (PushPc.store_head head next_head,
      { q with buf_ := fun i => if i = head then some v else q.buf_ i })
  | (PushPc.store_head _ next_head, q) => (PushPc.ret, { q with head_ := next_head })
  | (PushPc.ret, q) => (PushPc.ret, q)

/-- A queue variant together with the step function of its `push`. -/
structure PushMachine (α : Type) where
  V : Variant α
  step : α → PushPc × V.State → PushPc × V.State

/-- The three step functions, each with its variant. -/
inductive IsPushMachine {α : Type} : PushMachine α → Prop
  | separate : IsPushMachine ⟨SPSCQueue.variant α, SPSCQueue.push_step⟩
  | softArray : IsPushMachine ⟨SPSCQueueSoftArray.variant α, SPSCQueueSoftArray.push_step⟩
  | fence (Capacity : Nat) :
      IsPushMachine ⟨SPSCQueueFence.variant α Capacity, SPSCQueueFence.push_step⟩

/-- Steps of `push(v)` interleaved with the rest of the program: before each step
of `push` the next element of `env` (what the other thread did meanwhile) is
applied to the shared state. -/
def pushExec {α : Type} (M : PushMachine α) (v : α) :
    List (M.V.State → M.V.State) → PushPc × M.V.State → PushPc × M.V.State
  | [], c => c
  | e :: es, c => pushExec M v es (M.step v (c.1, e c.2))

/-! ## Calls and their results -/

/-- A call of one of the five public operations. -/
inductive Call (α : Type) where
  | push (v : α)
  | front
  | pop
  | size
  | capacity
  deriving DecidableEq

/-- What a completed call hands back.  For `front()` it is `none` for a null
pointer and otherwise the index of the slot pointed to together with what is read
through the pointer. -/
inductive Result (α : Type) where
  | push (ok : Bool)
  | front (r : Option (Int × Option α))
  | pop
  | size (n : Nat)
  | capacity (c : Int)
  deriving DecidableEq

/-- One call on a variant: its result and the state it leaves, `none` when the call
does not complete (a `push` whose wait loop does not exit within `fuel` tests).
`front`, `size` and `capacity` only load; `pop` is run as the code runs it, with no
test of its precondition.  For the separate-allocation queue, which has no
`capacity()` method, `capacity` reads the field `cap_`. -/
def exec {α : Type} (V : Variant α) (fuel : Nat) :
    Call α → V.State → Option (Result α × V.State)
  | Call.push v, s =>
    match V.push fuel s v with
    | none => none
    | some (ok, s') => some (Result.push ok, s')
  | Call.front, s =>
    match V.front s with
    | none => some (Result.front none, s)
    | some p => some (Result.front (some (p, V.slot s p)), s)
  | Call.pop, s => some (Result.pop, V.pop s)
  | Call.size, s => some (Result.size (V.size s), s)
  | Call.capacity, s => some (Result.capacity (V.cap s), s)

/-- Results of a sequence of calls made one after the other: `some r` for a call
that completes with result `r`; a call that does not complete ends the list with
`none`, as the calling thread never gets past it. -/
def trace {α : Type} (V : Variant α) (fuel : Nat) :
    V.State → List (Call α) → List (Option (Result α))
  | _, [] => []
  | s, c :: cs =>
    match exec V fuel c s with
    | none => [none]
    | some (r, s') => some r :: trace V fuel s' cs

/-- The call is one of `push`, `front`, `pop`. -/
def Call.isPushFrontPop {α : Type} : Call α → Bool
  | Call.push _ => true
  | Call.front => true
  | Call.pop => true
  | Call.size => false
  | Call.capacity => false

/-- Both cursors of the state are inside `[0, C)`. -/
def CursorsInRange {α : Type} (V : Variant α) (s : V.State) : Prop :=
  (0 ≤ V.head s ∧ V.head s < V.cap s) ∧ (0 ≤ V.tail s ∧ V.tail s < V.cap s)

/-- Index `i` lies in the half-open cyclic interval `[tail, head)` of the ring of
`C` slots: walking forward from `tail`, `i` comes before `head`. -/
def inLive (C tail head i : Int) : Prop :=
  (0 ≤ i ∧ i < C) ∧ (i - tail) % C < (head - tail) % C

/-! ## Construction and destruction of elements

The element type `T` of the claims on lifetimes has a constructor and a destructor
that do something (a live-instance counter, say); for an `int` or a `uint64_t` the
events below happen at the same places and do nothing. -/

/-- A lifetime event of a slot: a constructor of `T` run at `&buf_[i]`, or the
destructor of `T` run on `buf_[i]`. -/
inductive LifeEvent where
  | construct (i : Int)
  | destruct (i : Int)
  deriving DecidableEq

/-- The lifetime events of a run, in order: a completed `push` constructs at the
index it read from `head_`, a `pop` (made after a non-null `front()`) destructs at
the index it reads from `tail_`.  The list stops where `run` stops. -/
def lifeLog {α : Type} (V : Variant α) (fuel : Nat) :
    V.State → List (Op α) → List LifeEvent
  | _, [] => []
  | s, Op.push v :: ops =>
    match V.push fuel s v with
    | none => []
    | some (_, s') => LifeEvent.construct (V.head s) :: lifeLog V fuel s' ops
  | s, Op.front :: ops => lifeLog V fuel s ops
  | s, Op.pop :: ops =>
    match V.front s with
    | none => []
    | some _ => LifeEvent.destruct (V.tail s) :: lifeLog V fuel (V.pop s) ops

/-- Lifetime discipline of a list of events, given which slots hold an element at
the start: every `construct` hits a slot holding no element, every `destruct` a
slot holding one. -/
def lifeOk : List LifeEvent → (Int → Bool) → Bool
  | [], _ => true
  | LifeEvent.construct i :: es, live =>
    !live i && lifeOk es (fun j => if j = i then true else live j)
  | LifeEvent.destruct i :: es, live =>
    live i && lifeOk es (fun j => if j = i then false else live j)

/-- The slots holding an element after a list of lifetime events. -/
def lifeAfter : List LifeEvent → (Int → Bool) → Int → Bool
  | [], live => live
  | LifeEvent.construct i :: es, live => lifeAfter es (fun j => if j = i then true else live j)
  | LifeEvent.destruct i :: es, live => lifeAfter es (fun j => if j = i then false else live j)

/-- Lifetime events of the constructor `SPSCQueueSoftArray(cap)`: the member
`T buf_[0]` has no element, so none. -/
def SPSCQueueSoftArray.member_init : List LifeEvent := []

/-- Lifetime events of the constructor `SPSCQueueFence()`: `buf_` is the member
array `T buf_[Capacity]`, it is not named in the initialiser list, so each of its
`Capacity` elements is default-initialised, in index order. -/
def SPSCQueueFence.member_init (Capacity : Nat) : List LifeEvent :=
  (List.range Capacity).map (fun (i : Nat) => LifeEvent.construct (i : Int))

/-! ## Teardown -/

/-- What teardown does, in order: a call of `front()` with its result; a call of
`pop()` with the slot index it destructs and the pushed element that slot held; the
call of the queue object's own destructor; the destructor of `T` run on element `i`
of the member array by the queue object's destructor; the release of the
storage. -/
inductive DestroyEvent (α : Type) where
  | front (p : Option Int)
  | pop (i : Int) (elem : Option α)
  | destructor
  | member (i : Int)
  | deallocate
  deriving DecidableEq

/-- The loop `while (front()) { pop(); }` of the three teardown functions, run for
at most `fuel` tests; its events and the state it leaves. -/
def drain {α : Type} (V : Variant α) :
    Nat → V.State → Option (List (DestroyEvent α) × V.State)
  | 0, _ => none
  | fuel + 1, s =>
    match V.front s with
    | none => some ([DestroyEvent.front none], s)
    | some p =>
      match drain V fuel (V.pop s) with
      | none => none
      | some (log, s') =>
        some (DestroyEvent.front (some p)
          :: DestroyEvent.pop (V.tail s) (V.slot s (V.tail s)) :: log, s')

/-- Destructor `~SPSCQueue()`: the drain loop, then `operator delete[](buf_)`.
The member `buf_` is a pointer, the destructor runs on no element. -/
def SPSCQueue.destructor {α : Type} (fuel : Nat) (q : SPSCQueue α) :
    Option (List (DestroyEvent α)) :=
  match drain (SPSCQueue.variant α) fuel q with
  | none => none
  | some (log, _) => some (log ++ [DestroyEvent.deallocate])

/-- Static method `SPSCQueueSoftArray::destroy`; `queue` is `none` for a null
pointer.  `queue->~SPSCQueueSoftArray()` is the defaulted destructor; the member
`T buf_[0]` has no element for it to destroy. -/
def SPSCQueueSoftArray.destroy {α : Type} (fuel : Nat) (queue : Option (SPSCQueueSoftArray α)) :
    Option (List (DestroyEvent α)) :=
  match queue with
  | none => some []
  | some q =>
    match drain (SPSCQueueSoftArray.variant α) fuel q with
    | none => none
    | some (log, _) => some (log ++ [DestroyEvent.destructor, DestroyEvent.deallocate])

/-- Static method `SPSCQueueFence::destroy`; `queue` is `none` for a null pointer.
`queue->~SPSCQueueFence()` is the defaulted destructor: it destroys the member
array `T buf_[Capacity]`, element by element from the last to the first. -/
def SPSCQueueFence.destroy {α : Type} {Capacity : Nat} (fuel : Nat)
    (queue : Option (SPSCQueueFence α Capacity)) : Option (List (DestroyEvent α)) :=
  match queue with
  | none => some []
  | some q =>
    match drain (SPSCQueueFence.variant α Capacity) fuel q with
    | none => none
    | some (log, _) =>
      some (log ++ [DestroyEvent.destructor]
        ++ (List.range Capacity).reverse.map (fun (i : Nat) => DestroyEvent.member (i : Int))
        ++ [DestroyEvent.deallocate])

/-- Pushed elements destructed by the `pop()` calls of a teardown, in order. -/
def destructed {α : Type} : List (DestroyEvent α) → List (Option α)
  | [] => []
  | DestroyEvent.pop _ elem :: es => elem :: destructed es
  | DestroyEvent.front _ :: es => destructed es
  | DestroyEvent.destructor :: es => destructed es
  | DestroyEvent.member _ :: es => destructed es
  | DestroyEvent.deallocate :: es => destructed es

/-- Lifetime events of a teardown: one destruction per `pop()` and one per element
of the member array destroyed by the queue object's destructor. -/
def teardownLife {α : Type} : List (DestroyEvent α) → List LifeEvent
  | [] => []
  | DestroyEvent.pop i _ :: es => LifeEvent.destruct i :: teardownLife es
  | DestroyEvent.member i :: es => LifeEvent.destruct i :: teardownLife es
  | DestroyEvent.front _ :: es => teardownLife es
  | DestroyEvent.destructor :: es => teardownLife es
  | DestroyEvent.deallocate :: es => teardownLife es

/-- The variant `V` is the co-located queue class or the fence queue class. -/
inductive IsColocatedOrFence {α : Type} : Variant α → Prop
  | softArray : IsColocatedOrFence (SPSCQueueSoftArray.variant α)
  | fence (Capacity : Nat) : IsColocatedOrFence (SPSCQueueFence.variant α Capacity)

/-! ## The single-threaded loop of `cacheline_performance_test.cc` -/

/-- The loop of `latency_test`, one round for each element of the list (the test
makes the rounds `i = 0, …, 999`): `queue->push(i); auto* item = queue->front();
if (item) { queue->pop(); }`.  The timing around each round is left out.  `none`
when a `push` does not complete within `fuel` tests of its wait loop; otherwise what
each `front()` handed back (`none` for a null pointer, else the slot index and what
the slot holds) and the final state. -/
def latency_test {α : Type} (V : Variant α) (fuel : Nat) :
    List α → V.State → Option (List (Option (Int × Option α)) × V.State)
  | [], s => some ([], s)
  | i :: is, s =>
    match V.push fuel s i with
    | none => none
    | some (_, s1) =>
      let item := V.front s1
      let s2 := match item with
        | some _ => V.pop s1
        | none => s1
      match latency_test V fuel is s2 with
      | none => none
      | some (items, s') => some (item.map (fun p => (p, V.slot s1 p)) :: items, s')

/-! ## A producer thread and a consumer thread on one queue

`front()` and `pop()` as sequences of memory steps, like `push` above, and the two
thread bodies of `main.cc` (`producer`, `consumer`) and of
`cacheline_performance_test.cc` stepping in any order on the shared queue: memory
is sequentially consistent, every step makes at most one access to a shared
cursor or slot. -/

/-- Program points of `front()`.  `load_tail`: about to read `tail_`;
`load_head tail`: about to read `head_` and compare it with `tail`; `ret p`: at the
`return`, `p` being `none` for `nullptr` and `some tail` for `&buf_[tail]`. -/
inductive FrontPc where
  | load_tail
  | load_head (tail : Int)
  | ret (p : Option Int)
  deriving DecidableEq

/-- Program points of `pop()`.  `load_tail`: about to read `tail_` and compute
`next_tail` (the read of the immutable `cap_`, or of the template constant, belongs
to this step); `destruct tail next_tail`: about to run `buf_[tail].~T()`;
`store_tail tail next_tail`: about to store `next_tail` into `tail_`; `ret`: at the
end of the function. -/
inductive PopPc where
  | load_tail
  | destruct (tail next_tail : Int)
  | store_tail (tail next_tail : Int)
  | ret
  deriving DecidableEq

/-- One step of `SPSCQueue::front()`. -/
def SPSCQueue.front_step {α : Type} : FrontPc × SPSCQueue α → FrontPc × SPSCQueue α
  | (FrontPc.load_tail, q) => (FrontPc.load_head q.tail_, q)
  | (FrontPc.load_head tail, q) =>
    if q.head_ = tail then (FrontPc.ret none, q) else (FrontPc.ret (some tail), q)
  | (FrontPc.ret p, q) => (FrontPc.ret p, q)

/-- One step of `SPSCQueue::pop()`. -/
def SPSCQueue.pop_step {α : Type} : PopPc × SPSCQueue α → PopPc × SPSCQueue α
  | (PopPc.load_tail, q) =>
    let tail := q.tail_
    let next_tail := wrapInt32 (tail + 1)
    let next_tail := if next_tail = q.cap_ then 0 else next_tail
    (PopPc.destruct tail next_tail, q)
  | (PopPc.destruct tail next_tail, q) =>
    (PopPc.store_tail tail next_tail,
      { q with buf_ := fun i => if i = tail then none else q.buf_ i })
  | (PopPc.store_tail _ next_tail, q) => (PopPc.ret, { q with tail_ := next_tail })
  | (PopPc.ret, q) => (PopPc.ret, q)

/-- One step of `SPSCQueueSoftArray::front()`. -/
def SPSCQueueSoftArray.front_step {α : Type} :
    FrontPc × SPSCQueueSoftArray α → FrontPc × SPSCQueueSoftArray α
  | (FrontPc.load_tail, q) => (FrontPc.load_head q.tail_, q)
  | (FrontPc.load_head tail, q) =>
    if q.head_ = tail then (FrontPc.ret none, q) else (FrontPc.ret (some tail), q)
  | (FrontPc.ret p, q) => (FrontPc.ret p, q)

/-- One step of `SPSCQueueSoftArray::pop()`. -/
def SPSCQueueSoftArray.pop_step {α : Type} :
    PopPc × SPSCQueueSoftArray α → PopPc × SPSCQueueSoftArray α
  | (PopPc.load_tail, q) =>
    let tail := q.tail_
    let next_tail := wrapInt32 (tail + 1)
    let next_tail := if next_tail = q.cap_ then 0 else next_tail
    (PopPc.destruct tail next_tail, q)
  | (PopPc.destruct tail next_tail, q) =>
    (PopPc.store_tail tail next_tail,
      { q with buf_ := fun i => if i = tail then none else q.buf_ i })
  | (PopPc.store_tail _ next_tail, q) => (PopPc.ret, { q with tail_ := next_tail })
  | (PopPc.ret, q) => (PopPc.ret, q)

/-- One step of `SPSCQueueFence::front()`: `tail_` is read first, `head_` after the
`lfence`. -/
def SPSCQueueFence.front_step {α : Type} {Capacity : Nat} :
    FrontPc × SPSCQueueFence α Capacity → FrontPc × SPSCQueueFence α Capacity
  | (FrontPc.load_tail, q) => (FrontPc.load_head q.tail_, q)
  | (FrontPc.load_head tail, q) =>
    let head := q.head_
    if head = tail then (FrontPc.ret none, q) else (FrontPc.ret (some tail), q)
  | (FrontPc.ret p, q) => (FrontPc.ret p, q)

/-- One step of `SPSCQueueFence::pop()`: the store of `tail_` follows the
`sfence`. -/
def SPSCQueueFence.pop_step {α : Type} {Capacity : Nat} :
    PopPc × SPSCQueueFence α Capacity → PopPc × SPSCQueueFence α Capacity
  | (PopPc.load_tail, q) =>
    let tail := q.tail_
    let next_tail := wrapInt32 (tail + 1)
    let next_tail := if next_tail = wrapInt32 Capacity then 0 else next_tail
    (PopPc.destruct tail next_tail, q)
  | (PopPc.destruct tail next_tail, q) =>
    (PopPc.store_tail tail next_tail,
      { q with buf_ := fun i => if i = tail then none else q.buf_ i })
  | (PopPc.store_tail _ next_tail, q) => (PopPc.ret, { q with tail_ := next_tail })
  | (PopPc.ret, q) => (PopPc.ret, q)

/-- A queue variant with the step functions of its `push`, `front` and `pop`. -/
structure TwoThreads (α : Type) where
  M : PushMachine α
  front_step : FrontPc × M.V.State → FrontPc × M.V.State
  pop_step : PopPc × M.V.State → PopPc × M.V.State

/-- The step functions of the three queue classes, each with its variant. -/
inductive IsTwoThreads {α : Type} : TwoThreads α → Prop
  | separate :
      IsTwoThreads ⟨⟨SPSCQueue.variant α, SPSCQueue.push_step⟩,
        SPSCQueue.front_step, SPSCQueue.pop_step⟩
  | softArray :
      IsTwoThreads ⟨⟨SPSCQueueSoftArray.variant α, SPSCQueueSoftArray.push_step⟩,
        SPSCQueueSoftArray.front_step, SPSCQueueSoftArray.pop_step⟩
  | fence (Capacity : Nat) :
      IsTwoThreads ⟨⟨SPSCQueueFence.variant α Capacity, SPSCQueueFence.push_step⟩,
        SPSCQueueFence.front_step, SPSCQueueFence.pop_step⟩

/-- Program points of the consumer thread (`consumer` in `main.cc`): inside
`queue.front()`; `data != nullptr` has been found and `*data` is about to be read;
inside `queue.pop()`. -/
inductive ConsumerPc where
  | in_front (pc : FrontPc)
  | read (data : Int)
  | in_pop (pc : PopPc)
  deriving DecidableEq

/-- The two threads and the queue they share: where the producer is inside
`push`, the values it still has to push (the first one is the argument of the call
under way), where the consumer is, what the consumer has read through `*data` so
far (the content of the slot `data` pointed to, at each read), and the queue. -/
structure Config (α : Type) (S : Type) where
  ppc : PushPc
  todo : List α
  cpc : ConsumerPc
  got : List (Option α)
  q : S

/-- One step of the producer thread (`producer` in `main.cc`:
`for (i …) queue.push(i);`): the next step of the `push` under way, or, at its
`return`, the move to the next call.  With nothing left to push the thread has
ended. -/
def TwoThreads.producer {α : Type} (T : TwoThreads α) (c : Config α T.M.V.State) :
    Config α T.M.V.State :=
  match c.todo with
  | [] => c
  | v :: rest =>
    match c.ppc with
    | PushPc.ret => { c with ppc := PushPc.load_head, todo := rest }
    | pc =>
      let r := T.M.step v (pc, c.q)
      { c with ppc := r.1, q := r.2 }

/-- One step of the consumer thread (`consumer` in `main.cc`:
`data = queue.front(); if (data != nullptr) { … *data …; queue.pop(); }`, in a
loop): a step of the call under way; at the `return` of `front()` the test of
`data`, back to `front()` when it is null; the read of `*data`, which reads the slot
`data` points to, followed by the call of `pop()`; at the end of `pop()` back to
`front()`. -/
def TwoThreads.consumer {α : Type} (T : TwoThreads α) (c : Config α T.M.V.State) :
    Config α T.M.V.State :=
  match c.cpc with
  | ConsumerPc.in_front (FrontPc.ret none) =>
    { c with cpc := ConsumerPc.in_front FrontPc.load_tail }
  | ConsumerPc.in_front (FrontPc.ret (some data)) => { c with cpc := ConsumerPc.read data }
  | ConsumerPc.in_front pc =>
    let r := T.front_step (pc, c.q)
    { c with cpc := ConsumerPc.in_front r.1, q := r.2 }
  | ConsumerPc.read data =>
    { c with
      cpc := ConsumerPc.in_pop PopPc.load_tail
      got := c.got ++ [T.M.V.slot c.q data] }
  | ConsumerPc.in_pop PopPc.ret => { c with cpc := ConsumerPc.in_front FrontPc.load_tail }
  | ConsumerPc.in_pop pc =>
    let r := T.pop_step (pc, c.q)
    { c with cpc := ConsumerPc.in_pop r.1, q := r.2 }

/-- The thread that makes the next step. -/
inductive Thread where
  | producer
  | consumer
  deriving DecidableEq

/-- One step of the thread chosen. -/
def TwoThreads.step {α : Type} (T : TwoThreads α) :
    Thread → Config α T.M.V.State → Config α T.M.V.State
  | Thread.producer, c => T.producer c
  | Thread.consumer, c => T.consumer c

/-- The steps of an interleaving, given as the list of the threads that move. -/
def TwoThreads.exec {α : Type} (T : TwoThreads α) :
    List Thread → Config α T.M.V.State → Config α T.M.V.State
  | [], c => c
  | t :: ts, c => T.exec ts (T.step t c)

/-- Both threads at the start of their first call, on the queue `q0`; the producer
is to push the values `vs`. -/
def TwoThreads.init {α : Type} (T : TwoThreads α) (vs : List α) (q0 : T.M.V.State) :
    Config α T.M.V.State :=
  { ppc := PushPc.load_head
    todo := vs
    cpc := ConsumerPc.in_front FrontPc.load_tail
    got := []
    q := q0 }

/-- Index after `i` in the ring of `C` slots. -/
def nextIndex (C i : Int) : Int := if i + 1 = C then 0 else i + 1

/-- What the producer knows at each point of `push`, in terms of the current
cursors: the `head` it read is still `head_` (nobody else writes it), `next_head`
is the index after it, and past the wait loop `next_head` differs from `tail_`. -/
def ProducerInv (C head tail : Int) : PushPc → Prop
  | PushPc.load_head => True
  | PushPc.load_tail h nh => h = head ∧ nh = nextIndex C head
  | PushPc.construct h nh => h = head ∧ nh = nextIndex C head ∧ nh ≠ tail
  | PushPc.store_head h nh => h = head ∧ nh = nextIndex C head ∧ nh ≠ tail
  | PushPc.ret => True

/-- What the consumer knows at each of its points: the `tail` it read is still
`tail_`, and from a non-null `front()` until the store in `pop()` the queue is not
empty. -/
def ConsumerInv (C head tail : Int) : ConsumerPc → Prop
  | ConsumerPc.in_front FrontPc.load_tail => True
  | ConsumerPc.in_front (FrontPc.load_head t) => t = tail
  | ConsumerPc.in_front (FrontPc.ret none) => True
  | ConsumerPc.in_front (FrontPc.ret (some p)) => p = tail ∧ head ≠ tail
  | ConsumerPc.read p => p = tail ∧ head ≠ tail
  | ConsumerPc.in_pop PopPc.load_tail => head ≠ tail
  | ConsumerPc.in_pop (PopPc.destruct t nt) => t = tail ∧ nt = nextIndex C tail ∧ head ≠ tail
  | ConsumerPc.in_pop (PopPc.store_tail t nt) =>
    t = tail ∧ nt = nextIndex C tail ∧ head ≠ tail
  | ConsumerPc.in_pop PopPc.ret => True

/-- Invariant of the two threads: `C` is an `int`, both cursors are inside
`[0, C)`, each thread knows what `ProducerInv` and `ConsumerInv` say, and a producer
that is past the first step of a `push` has the argument of that call at the front
of the values to push. -/
def ThreadsInv {α : Type} (T : TwoThreads α) (c : Config α T.M.V.State) : Prop :=
  T.M.V.cap c.q ≤ 2147483647 ∧ CursorsInRange T.M.V c.q ∧
  ProducerInv (T.M.V.cap c.q) (T.M.V.head c.q) (T.M.V.tail c.q) c.ppc ∧
  ConsumerInv (T.M.V.cap c.q) (T.M.V.head c.q) (T.M.V.tail c.q) c.cpc ∧
  (c.ppc = PushPc.load_head ∨ c.todo ≠ [])

/-! ## Allocation failure

The three classes get their storage from the throwing allocation functions
(`operator new(total_size, std::align_val_t(kCacheLineSize))` in the two `create`
functions, `operator new[](sizeof(T) * cap_)` in the constructor of `SPSCQueue`;
none is the `std::nothrow` form), inside functions declared `noexcept`. -/

/-- What a call of a throwing allocation function does: it hands back the address
of a block, which is never a null pointer, or it throws `std::bad_alloc`. -/
inductive Allocation where
  | block (addr : Nat)
  | bad_alloc
  deriving DecidableEq

/-- How a call of a function declared `noexcept` ends: it returns a value, or an
exception reaches its boundary and `std::terminate()` ends the program. -/
inductive Noexcept (β : Type) where
  | returns (r : β)
  | terminate

/-- The call `SPSCQueueSoftArray::create(cap)`, allocation included: the test
`if (!raw_memory)` and what follows it are reached with the address of the block
when `operator new` returns; when it throws, the exception leaves `create`. -/
def SPSCQueueSoftArray.create_call {α : Type} (a : Allocation) (cap : Int) :
    Noexcept (Option (SPSCQueueSoftArray α)) :=
  match a with
  | Allocation.bad_alloc => Noexcept.terminate
  | Allocation.block addr => Noexcept.returns (SPSCQueueSoftArray.create (some addr) cap)

/-- The call `SPSCQueueFence::create()`, allocation included. -/
def SPSCQueueFence.create_call {α : Type} {Capacity : Nat} (a : Allocation) :
    Noexcept (Option (SPSCQueueFence α Capacity)) :=
  match a with
  | Allocation.bad_alloc => Noexcept.terminate
  | Allocation.block addr => Noexcept.returns (SPSCQueueFence.create (some addr))

/-- The constructor call `SPSCQueue(cap)`, allocation included: the body is
`buf_ = (T *)(operator new[](sizeof(T) * cap_));`, with no test of the pointer; a
constructor hands back no handle, the caller has the object itself. -/
def SPSCQueue.construct_call {α : Type} (a : Allocation) (cap : Int) :
    Noexcept (SPSCQueue α) :=
  match a with
  | Allocation.bad_alloc => Noexcept.terminate
  | Allocation.block _ => Noexcept.returns (SPSCQueue.construct cap)

/-! ## Arithmetic helpers -/

theorem wrapInt32_of_range (x : Int) (h1 : -2147483648 ≤ x) (h2 : x ≤ 2147483647) :
    wrapInt32 x = x := by
  unfold wrapInt32
  omega

theorem toSizeT_of_nonneg (x : Int) (h1 : 0 ≤ x) (h2 : x ≤ 2147483647) :
    (toSizeT x : Int) = x := by
  unfold toSizeT
  omega

theorem count_ring (a b c N : Nat) (hca : c ≤ a) :
    ((List.range N).filter (fun j => decide ((a ≤ j ∧ j < b) ∨ j < c))).length
      = (min b N - min a N) + min c N := by
  induction N with
  | zero => simp
  | succ n ih =>
    rw [List.range_succ, List.filter_append, List.length_append, ih]
    by_cases h : (a ≤ n ∧ n < b) ∨ n < c
    · have : List.filter (fun j => decide ((a ≤ j ∧ j < b) ∨ j < c)) [n] = [n] := by
        simp [List.filter, h]
      rw [this]
      simp only [List.length_singleton]
      omega
    · have : List.filter (fun j => decide ((a ≤ j ∧ j < b) ∨ j < c)) [n] = [] := by
        simp [List.filter, h]
      rw [this]
      simp only [List.length_nil]
      omega

/-! ## The representation invariant is kept by the co-located queue -/

theorem push_wait_exit {α : Type} (q : SPSCQueueSoftArray α) (nh : Int) (h : nh ≠ q.tail_)
    (fuel : Nat) (hf : 0 < fuel) : SPSCQueueSoftArray.push_wait q nh fuel = true := by
  cases fuel with
  | zero => omega
  | succ n => simp [SPSCQueueSoftArray.push_wait, h]

theorem push_wait_spin {α : Type} (q : SPSCQueueSoftArray α) (nh : Int) (h : nh = q.tail_)
    (fuel : Nat) : SPSCQueueSoftArray.push_wait q nh fuel = false := by
  induction fuel with
  | zero => rfl
  | succ n ih => simp [SPSCQueueSoftArray.push_wait, h] at ih ⊢; exact ih

theorem rep_fresh {α : Type} (cap : Int) (h0 : 0 < cap) (hc : cap ≤ 2147483647) :
    Rep (SPSCQueueSoftArray.construct cap : SPSCQueueSoftArray α) [] := by
  refine ⟨hc, ⟨le_refl _, h0⟩, ⟨le_refl _, h0⟩, ?_, ?_⟩
  · simp [SPSCQueueSoftArray.construct]
  · intro j
    simp [SPSCQueueSoftArray.construct]

theorem rep_length_lt {α : Type} {q : SPSCQueueSoftArray α} {l : List α} (h : Rep q l) :
    (l.length : Int) + 1 ≤ q.cap_ := by
  obtain ⟨_, ⟨_, _⟩, ⟨_, _⟩, hlen, _⟩ := h
  split_ifs at hlen <;> omega

theorem rep_front {α : Type} {q : SPSCQueueSoftArray α} {l : List α} (h : Rep q l) :
    SPSCQueueSoftArray.front q = if l.length = 0 then none else some q.tail_ := by
  obtain ⟨_, ⟨_, _⟩, ⟨_, _⟩, hlen, _⟩ := h
  unfold SPSCQueueSoftArray.front
  simp only []
  split_ifs at hlen ⊢ <;> first | rfl | omega

theorem rep_size {α : Type} {q : SPSCQueueSoftArray α} {l : List α} (h : Rep q l) :
    SPSCQueueSoftArray.size q = l.length := by
  obtain ⟨_, ⟨_, _⟩, ⟨_, _⟩, hlen, _⟩ := h
  unfold SPSCQueueSoftArray.size
  simp only []
  rw [wrapInt32_of_range (q.head_ - q.tail_) (by omega) (by omega)]
  have key : ∀ x : Int, x = (l.length : Int) → toSizeT x = l.length := by
    intro x hx
    have := toSizeT_of_nonneg x (by omega) (by split_ifs at hlen <;> omega)
    omega
  split_ifs at hlen ⊢
  · rw [wrapInt32_of_range _ (by omega) (by omega)]
    exact key _ (by omega)
  · omega
  · omega
  · exact key _ (by omega)

theorem rep_head_slot {α : Type} {q : SPSCQueueSoftArray α} {l : List α} (h : Rep q l) :
    ringOff q.cap_ q.tail_ q.head_ = l.length := by
  obtain ⟨_, ⟨_, _⟩, ⟨_, _⟩, hlen, _⟩ := h
  unfold ringOff
  split_ifs at hlen ⊢ <;> omega

theorem rep_tail_slot {α : Type} {q : SPSCQueueSoftArray α} {a : α} {l : List α}
    (h : Rep q (a :: l)) : q.buf_ q.tail_ = some a := by
  obtain ⟨_, ⟨_, _⟩, ⟨h3, h4⟩, _, hbuf⟩ := h
  rw [hbuf q.tail_]
  simp [ringOff, h3, h4]

theorem rep_push {α : Type} {q : SPSCQueueSoftArray α} {l : List α} (h : Rep q l)
    (hroom : (l.length : Int) + 1 < q.cap_) (fuel : Nat) (hf : 0 < fuel) (v : α) :
    ∃ q', SPSCQueueSoftArray.push fuel q v = some (true, q') ∧ Rep q' (l ++ [v]) ∧
      q'.cap_ = q.cap_ ∧ q'.tail_ = q.tail_ ∧ q'.head_ = (q.head_ + 1) % q.cap_ ∧
      q'.buf_ q.head_ = some v ∧ ∀ j, j ≠ q.head_ → q'.buf_ j = q.buf_ j := by
  have hoff := rep_head_slot h
  obtain ⟨hc, ⟨h1, h2⟩, ⟨h3, h4⟩, hlen, hbuf⟩ := h
  have hw : wrapInt32 (q.head_ + 1) = q.head_ + 1 :=
    wrapInt32_of_range _ (by omega) (by omega)
  have hne : (if q.head_ + 1 = q.cap_ then 0 else q.head_ + 1) ≠ q.tail_ := by
    split_ifs at hlen ⊢ <;> omega
  have hmod : (if q.head_ + 1 = q.cap_ then 0 else q.head_ + 1) = (q.head_ + 1) % q.cap_ := by
    split_ifs with hx
    · rw [hx]; simp
    · rw [Int.emod_eq_of_lt (by omega) (by omega)]
  refine ⟨{ q with
      buf_ := fun i => if i = q.head_ then some v else q.buf_ i
      head_ := if q.head_ + 1 = q.cap_ then 0 else q.head_ + 1 }, ?_, ?_, rfl, rfl, hmod, ?_, ?_⟩
  · unfold SPSCQueueSoftArray.push
    simp only [hw]
    rw [if_pos (push_wait_exit q _ hne fuel hf)]
  · refine ⟨hc, ?_, ⟨h3, h4⟩, ?_, ?_⟩
    · dsimp only
      split_ifs <;> omega
    · dsimp only
      simp only [List.length_append, List.length_singleton]
      push_cast
      split_ifs at hlen ⊢ <;> omega
    · intro j
      dsimp only
      by_cases hj : j = q.head_
      · subst hj
        rw [if_pos rfl, if_pos ⟨h1, h2⟩, hoff]
        simp
      · rw [if_neg hj, hbuf j]
        by_cases hr : 0 ≤ j ∧ j < q.cap_
        · rw [if_pos hr, if_pos hr]
          have hjo : ringOff q.cap_ q.tail_ j ≠ l.length := by
            unfold ringOff at hoff ⊢
            obtain ⟨hr1, hr2⟩ := hr
            split_ifs at hoff ⊢ <;> omega
          rcases Nat.lt_or_gt_of_ne hjo with hlt | hgt
          · rw [List.getElem?_append_left hlt]
          · rw [List.getElem?_eq_none (by omega), List.getElem?_eq_none (by simp; omega)]
        · rw [if_neg hr, if_neg hr]
  · simp
  · intro j hj
    simp [hj]

theorem rep_push_full {α : Type} {q : SPSCQueueSoftArray α} {l : List α} (h : Rep q l)
    (hfull : (l.length : Int) + 1 = q.cap_) (fuel : Nat) (v : α) :
    SPSCQueueSoftArray.push fuel q v = none := by
  obtain ⟨hc, ⟨h1, h2⟩, ⟨h3, h4⟩, hlen, _⟩ := h
  have hw : wrapInt32 (q.head_ + 1) = q.head_ + 1 :=
    wrapInt32_of_range _ (by omega) (by omega)
  have heq : (if q.head_ + 1 = q.cap_ then 0 else q.head_ + 1) = q.tail_ := by
    split_ifs at hlen ⊢ <;> omega
  unfold SPSCQueueSoftArray.push
  simp only [hw]
  rw [push_wait_spin q _ heq fuel]
  rfl

theorem rep_pop {α : Type} {q : SPSCQueueSoftArray α} {a : α} {l : List α}
    (h : Rep q (a :: l)) :
    Rep (SPSCQueueSoftArray.pop q) l ∧
      (SPSCQueueSoftArray.pop q).tail_ = (q.tail_ + 1) % q.cap_ := by
  have hlt := rep_length_lt h
  obtain ⟨hc, ⟨h1, h2⟩, ⟨h3, h4⟩, hlen, hbuf⟩ := h
  simp only [List.length_cons] at hlen hlt
  push_cast at hlen hlt
  have hw : wrapInt32 (q.tail_ + 1) = q.tail_ + 1 :=
    wrapInt32_of_range _ (by omega) (by omega)
  have hmod : (if q.tail_ + 1 = q.cap_ then 0 else q.tail_ + 1) = (q.tail_ + 1) % q.cap_ := by
    split_ifs with hx
    · rw [hx]; simp
    · rw [Int.emod_eq_of_lt (by omega) (by omega)]
  unfold SPSCQueueSoftArray.pop
  simp only [hw]
  refine ⟨⟨hc, ⟨h1, h2⟩, ?_, ?_, ?_⟩, hmod⟩
  · dsimp only
    split_ifs <;> omega
  · dsimp only
    split_ifs at hlen ⊢ <;> omega
  · intro j
    dsimp only
    by_cases hj : j = q.tail_
    · subst hj
      rw [if_pos rfl, if_pos ⟨h3, h4⟩, List.getElem?_eq_none]
      unfold ringOff
      split_ifs <;> omega
    · rw [if_neg hj, hbuf j]
      by_cases hr : 0 ≤ j ∧ j < q.cap_
      · rw [if_pos hr, if_pos hr]
        obtain ⟨hr1, hr2⟩ := hr
        have hoff : ringOff q.cap_ q.tail_ j
            = ringOff q.cap_ (if q.tail_ + 1 = q.cap_ then 0 else q.tail_ + 1) j + 1 := by
          unfold ringOff
          split_ifs <;> omega
        rw [hoff, List.getElem?_cons_succ]
      · rw [if_neg hr, if_neg hr]

theorem rep_liveCount {α : Type} {q : SPSCQueueSoftArray α} {l : List α} (h : Rep q l) :
    liveCount (SPSCQueueSoftArray.variant α) q = l.length := by
  have hlt := rep_length_lt h
  obtain ⟨hc, ⟨h1, h2⟩, ⟨h3, h4⟩, hlen, hbuf⟩ := h
  unfold liveCount
  have hcongr : (List.range (q.cap_).toNat).filter (fun (i : Nat) => (q.buf_ (i : Int)).isSome)
      = (List.range (q.cap_).toNat).filter (fun j => decide
          (((q.tail_).toNat ≤ j ∧ j < (q.tail_).toNat + l.length)
            ∨ j < (q.tail_).toNat + l.length - (q.cap_).toNat)) := by
    apply List.filter_congr
    intro i hi
    rw [List.mem_range] at hi
    rw [hbuf i, if_pos ⟨by omega, by omega⟩]
    by_cases hk : ringOff q.cap_ q.tail_ i < l.length
    · rw [List.getElem?_eq_getElem hk]
      simp only [Option.isSome_some]
      symm
      rw [decide_eq_true_iff]
      unfold ringOff at hk
      split_ifs at hk <;> omega
    · rw [List.getElem?_eq_none (by omega)]
      simp only [Option.isSome_none]
      symm
      rw [decide_eq_false_iff_not]
      unfold ringOff at hk
      split_ifs at hk <;> omega
  show ((List.range (q.cap_).toNat).filter (fun (i : Nat) => (q.buf_ (i : Int)).isSome)).length = _
  rw [hcongr, count_ring _ _ _ _ (by omega)]
  omega

/-! ## The other two variants simulate the co-located queue -/

theorem sim_softArray (α : Type) : Sim (SPSCQueueSoftArray.variant α) (fun q => q) where
  cap_eq := fun _ => rfl
  head_eq := fun _ => rfl
  tail_eq := fun _ => rfl
  slot_eq := fun _ => rfl
  push_eq := by
    intro fuel s v
    cases h : SPSCQueueSoftArray.push fuel s v <;> simp [h]
  front_eq := fun _ => rfl
  pop_eq := fun _ => rfl

theorem separate_push_wait {α : Type} (q : SPSCQueue α) (nh : Int) (fuel : Nat) :
    SPSCQueue.push_wait q nh fuel = SPSCQueueSoftArray.push_wait (SPSCQueue.toSoft q) nh fuel := by
  induction fuel with
  | zero => rfl
  | succ n ih =>
    simp only [SPSCQueue.push_wait, SPSCQueueSoftArray.push_wait, ih]
    rfl

theorem sim_separate (α : Type) : Sim (SPSCQueue.variant α) SPSCQueue.toSoft where
  cap_eq := fun _ => rfl
  head_eq := fun _ => rfl
  tail_eq := fun _ => rfl
  slot_eq := fun _ => rfl
  push_eq := by
    intro fuel s v
    show (SPSCQueue.push fuel s v).map _ = _
    unfold SPSCQueue.push SPSCQueueSoftArray.push
    simp only [separate_push_wait]
    cases hc : SPSCQueueSoftArray.push_wait (SPSCQueue.toSoft s)
      (if wrapInt32 (s.head_ + 1) = s.cap_ then 0 else wrapInt32 (s.head_ + 1)) fuel
    · simp only [SPSCQueue.toSoft] at hc ⊢
      simp [hc]
    · simp only [SPSCQueue.toSoft] at hc ⊢
      simp [hc]
  front_eq := fun _ => rfl
  pop_eq := fun _ => rfl

theorem fence_push_wait {α : Type} {Capacity : Nat} (q : SPSCQueueFence α Capacity)
    (nh : Int) (fuel : Nat) :
    (SPSCQueueFence.push_wait q nh fuel).isSome
      = SPSCQueueSoftArray.push_wait (SPSCQueueFence.toSoft q) nh fuel := by
  induction fuel with
  | zero => rfl
  | succ n ih =>
    simp only [SPSCQueueFence.push_wait, SPSCQueueSoftArray.push_wait]
    by_cases hx : nh = q.tail_
    · have hx2 : nh = (SPSCQueueFence.toSoft q).tail_ := hx
      rw [if_pos hx2, ← ih]
      simp [hx]
    · have hx2 : ¬ nh = (SPSCQueueFence.toSoft q).tail_ := hx
      rw [if_neg hx2]
      simp [hx]

theorem sim_fence (α : Type) (Capacity : Nat) :
    Sim (SPSCQueueFence.variant α Capacity) SPSCQueueFence.toSoft where
  cap_eq := fun _ => rfl
  head_eq := fun _ => rfl
  tail_eq := fun _ => rfl
  slot_eq := fun _ => rfl
  push_eq := by
    intro fuel s v
    show (SPSCQueueFence.push fuel s v).map _ = _
    unfold SPSCQueueFence.push SPSCQueueSoftArray.push
    have hw := fence_push_wait s
      (if wrapInt32 (s.head_ + 1) = wrapInt32 Capacity then 0 else wrapInt32 (s.head_ + 1)) fuel
    simp only
    cases hc : SPSCQueueFence.push_wait s
      (if wrapInt32 (s.head_ + 1) = wrapInt32 Capacity then 0 else wrapInt32 (s.head_ + 1)) fuel
    · rw [hc] at hw
      simp only [Option.isSome_none, SPSCQueueFence.toSoft] at hw ⊢
      simp [← hw]
    · rw [hc] at hw
      simp only [Option.isSome_some, SPSCQueueFence.toSoft] at hw ⊢
      simp [← hw]
  front_eq := fun _ => rfl
  pop_eq := fun _ => rfl

/-! ## Runs of calls -/

theorem run_sim {α : Type} {V : Variant α} {abs : V.State → SPSCQueueSoftArray α}
    (hs : Sim V abs) (fuel : Nat) (ops : List (Op α)) (s : V.State) :
    (run V fuel s ops).map (fun r => (r.1, abs r.2))
      = run (SPSCQueueSoftArray.variant α) fuel (abs s) ops := by
  induction ops generalizing s with
  | nil => rfl
  | cons op ops ih =>
    cases op with
    | push v =>
      have hp := hs.push_eq fuel s v
      simp only [run]
      cases hv : V.push fuel s v with
      | none =>
        rw [hv] at hp
        simp only [Option.map_none'] at hp
        simp [← hp]
      | some r =>
        obtain ⟨b, s'⟩ := r
        rw [hv] at hp
        simp only [Option.map_some'] at hp
        simp only [← hp]
        exact ih s'
    | front =>
      simp only [run]
      exact ih s
    | pop =>
      simp only [run]
      rw [hs.front_eq s]
      cases hf : SPSCQueueSoftArray.front (abs s) with
      | none => rfl
      | some p =>
        simp only []
        have hi := ih (V.pop s)
        rw [hs.pop_eq s] at hi
        rw [← hi, hs.slot_eq s]
        cases run V fuel (V.pop s) ops with
        | none => rfl
        | some r => rfl

theorem push_no_fuel {α : Type} (q : SPSCQueueSoftArray α) (v : α) :
    SPSCQueueSoftArray.push 0 q v = none := by
  simp [SPSCQueueSoftArray.push, SPSCQueueSoftArray.push_wait]

theorem rep_push_some {α : Type} {q : SPSCQueueSoftArray α} {l : List α} (h : Rep q l)
    {fuel : Nat} {v : α} {b : Bool} {q' : SPSCQueueSoftArray α}
    (hp : SPSCQueueSoftArray.push fuel q v = some (b, q')) :
    b = true ∧ Rep q' (l ++ [v]) ∧ (l.length : Int) + 1 < q.cap_ ∧ 0 < fuel ∧
      q'.cap_ = q.cap_ := by
  have hle := rep_length_lt h
  have hf : 0 < fuel := by
    rcases Nat.eq_zero_or_pos fuel with h0 | h0
    · subst h0
      rw [push_no_fuel] at hp
      cases hp
    · exact h0
  have hroom : (l.length : Int) + 1 < q.cap_ := by
    by_contra hn
    rw [rep_push_full h (by omega) fuel v] at hp
    cases hp
  obtain ⟨q2, hq2, hrep, hcap, -⟩ := rep_push h hroom fuel hf v
  rw [hq2] at hp
  simp only [Option.some.injEq, Prod.mk.injEq] at hp
  obtain ⟨hb, hq⟩ := hp
  subst hq
  exact ⟨hb.symm, hrep, hroom, hf, hcap⟩

theorem run_rep {α : Type} (fuel : Nat) (ops : List (Op α)) :
    ∀ (q : SPSCQueueSoftArray α) (l : List α), Rep q l →
    ∀ (obs : List (Option α)) (q' : SPSCQueueSoftArray α),
      run (SPSCQueueSoftArray.variant α) fuel q ops = some (obs, q') →
      ∃ l', Rep q' l' ∧ obs ++ l'.map some = (l ++ pushed ops).map some ∧
        obs.length = pops ops ∧ q'.cap_ = q.cap_ := by
  induction ops with
  | nil =>
    intro q l h obs q' hr
    simp only [run, Option.some.injEq, Prod.mk.injEq] at hr
    obtain ⟨ho, hq⟩ := hr
    subst ho
    subst hq
    exact ⟨l, h, by simp [pushed], by simp [pops], rfl⟩
  | cons op ops ih =>
    intro q l h obs q' hr
    cases op with
    | push v =>
      simp only [run] at hr
      cases hv : SPSCQueueSoftArray.push fuel q v with
      | none => simp [hv] at hr
      | some r =>
        obtain ⟨b, q1⟩ := r
        simp only [hv] at hr
        obtain ⟨-, hrep, -, -, hcap⟩ := rep_push_some h hv
        obtain ⟨l', h1, h2, h3, h4⟩ := ih q1 (l ++ [v]) hrep obs q' hr
        refine ⟨l', h1, ?_, ?_, by rw [h4, hcap]⟩
        · rw [h2]
          simp [pushed]
        · simpa [pops] using h3
    | front =>
      simp only [run] at hr
      obtain ⟨l', h1, h2, h3, h4⟩ := ih q l h obs q' hr
      exact ⟨l', h1, by simpa [pushed] using h2, by simpa [pops] using h3, h4⟩
    | pop =>
      simp only [run] at hr
      rw [rep_front h] at hr
      cases l with
      | nil => simp at hr
      | cons a l =>
        simp only [List.length_cons, Nat.add_one_ne_zero, if_false] at hr
        cases hrest : run (SPSCQueueSoftArray.variant α) fuel (SPSCQueueSoftArray.pop q) ops with
        | none => simp [hrest] at hr
        | some r =>
          obtain ⟨obs1, q1⟩ := r
          simp only [hrest, Option.some.injEq, Prod.mk.injEq] at hr
          obtain ⟨ho, hq⟩ := hr
          subst ho
          subst hq
          obtain ⟨l', h1, h2, h3, h4⟩ := ih _ l (rep_pop h).1 obs1 q1 hrest
          refine ⟨l', h1, ?_, ?_, ?_⟩
          · rw [rep_tail_slot h]
            simp only [List.cons_append, List.map_cons, pushed]
            rw [h2]
          · simp [pops, h3]
          · rw [h4]
            rfl

theorem run_pushes {α : Type} (fuel : Nat) (hf : 0 < fuel) (vs : List α) :
    ∀ (q : SPSCQueueSoftArray α) (l : List α), Rep q l →
      (l.length : Int) + vs.length + 1 ≤ q.cap_ →
      ∃ q', run (SPSCQueueSoftArray.variant α) fuel q (vs.map Op.push) = some ([], q') ∧
        Rep q' (l ++ vs) ∧ q'.cap_ = q.cap_ := by
  induction vs with
  | nil =>
    intro q l h _
    exact ⟨q, rfl, by simpa using h, rfl⟩
  | cons v vs ih =>
    intro q l h hroom
    simp only [List.length_cons] at hroom
    push_cast at hroom
    obtain ⟨q1, hp, hrep, hcap, -⟩ := rep_push h (by omega) fuel hf v
    obtain ⟨q', hr, hrep', hcap'⟩ := ih q1 (l ++ [v]) hrep (by
      simp only [List.length_append, List.length_singleton]
      push_cast
      omega)
    refine ⟨q', ?_, by simpa using hrep', by rw [hcap', hcap]⟩
    simp only [List.map_cons, run]
    rw [hp]
    exact hr

theorem sim_push_reflect {α : Type} {V : Variant α} {abs : V.State → SPSCQueueSoftArray α}
    (hs : Sim V abs) {fuel : Nat} {s : V.State} {v : α} {b : Bool}
    {q' : SPSCQueueSoftArray α}
    (hp : SPSCQueueSoftArray.push fuel (abs s) v = some (b, q')) :
    ∃ s', V.push fuel s v = some (b, s') ∧ abs s' = q' := by
  have he := hs.push_eq fuel s v
  rw [hp] at he
  cases hv : V.push fuel s v with
  | none => simp [hv] at he
  | some r =>
    obtain ⟨b1, s1⟩ := r
    simp only [hv, Option.map_some', Option.some.injEq, Prod.mk.injEq] at he
    exact ⟨s1, by rw [he.1], he.2⟩

theorem sim_push_none {α : Type} {V : Variant α} {abs : V.State → SPSCQueueSoftArray α}
    (hs : Sim V abs) (fuel : Nat) (s : V.State) (v : α) :
    V.push fuel s v = none ↔ SPSCQueueSoftArray.push fuel (abs s) v = none := by
  have he := hs.push_eq fuel s v
  cases hv : V.push fuel s v with
  | none => simp [hv, ← he]
  | some r => simp [hv, ← he]

theorem sim_liveCount {α : Type} {V : Variant α} {abs : V.State → SPSCQueueSoftArray α}
    (hs : Sim V abs) (s : V.State) :
    liveCount V s = liveCount (SPSCQueueSoftArray.variant α) (abs s) := by
  unfold liveCount
  rw [hs.cap_eq s, hs.slot_eq s]
  rfl

theorem wrapInt32_le (x : Int) : wrapInt32 x ≤ 2147483647 := by
  unfold wrapInt32
  omega

theorem isVariant_sim {α : Type} {V : Variant α} (hV : IsVariant V) :
    ∃ abs : V.State → SPSCQueueSoftArray α, Sim V abs := by
  cases hV with
  | separate => exact ⟨_, sim_separate α⟩
  | softArray => exact ⟨_, sim_softArray α⟩
  | fence Capacity => exact ⟨_, sim_fence α Capacity⟩

theorem fresh_sim {α : Type} {V : Variant α} {q0 : V.State} (h : Fresh V q0) :
    ∃ abs : V.State → SPSCQueueSoftArray α, Sim V abs ∧ Rep (abs q0) [] := by
  cases h with
  | separate cap =>
    refine ⟨_, sim_separate α, ?_⟩
    exact rep_fresh (max (wrapInt32 (cap + 1)) 4) (by omega)
      (by have := wrapInt32_le (cap + 1); omega)
  | softArray cap raw q hq =>
    refine ⟨_, sim_softArray α, ?_⟩
    simp only [SPSCQueueSoftArray.create, Option.some.injEq] at hq
    subst hq
    exact rep_fresh (max (wrapInt32 (cap + 1)) 4) (by omega)
      (by have := wrapInt32_le (cap + 1); omega)
  | fence Capacity raw q hpos hint hq =>
    refine ⟨_, sim_fence α Capacity, ?_⟩
    simp only [SPSCQueueFence.create, Option.some.injEq] at hq
    subst hq
    have hw : wrapInt32 (Capacity : Int) = Capacity :=
      wrapInt32_of_range _ (by omega) (by omega)
    have := rep_fresh (α := α) (wrapInt32 (Capacity : Int)) (by omega) (by omega)
    exact this

theorem run_fresh {α : Type} {V : Variant α} {q0 : V.State} (h : Fresh V q0)
    {fuel : Nat} {ops : List (Op α)} {obs : List (Option α)} {q : V.State}
    (hrun : run V fuel q0 ops = some (obs, q)) :
    ∃ (abs : V.State → SPSCQueueSoftArray α) (l : List α), Sim V abs ∧ Rep (abs q) l ∧
      obs ++ l.map some = (pushed ops).map some ∧ obs.length = pops ops := by
  obtain ⟨abs, hs, hrep⟩ := fresh_sim h
  have hr := run_sim hs fuel ops q0
  rw [hrun] at hr
  simp only [Option.map_some'] at hr
  obtain ⟨l, h1, h2, h3, -⟩ := run_rep fuel ops (abs q0) [] hrep obs (abs q) hr.symm
  exact ⟨abs, l, hs, h1, by simpa using h2, h3⟩

theorem rep_create {α : Type} {raw : Nat} {cap : Int} {q0 : SPSCQueueSoftArray α}
    (hq : SPSCQueueSoftArray.create (some raw) cap = some q0) :
    Rep q0 [] ∧ 4 ≤ q0.cap_ := by
  simp only [SPSCQueueSoftArray.create, Option.some.injEq] at hq
  subst hq
  refine ⟨rep_fresh (max (wrapInt32 (cap + 1)) 4) (by omega)
    (by have := wrapInt32_le (cap + 1); omega), ?_⟩
  show 4 ≤ max (wrapInt32 (cap + 1)) 4
  omega

theorem soft_push_true {α : Type} {n : Nat} {t : SPSCQueueSoftArray α} {w : α} {b : Bool}
    {t' : SPSCQueueSoftArray α} (h : SPSCQueueSoftArray.push n t w = some (b, t')) :
    b = true := by
  unfold SPSCQueueSoftArray.push at h
  simp only at h
  split_ifs at h <;>
    (simp only [Option.some.injEq, Prod.mk.injEq] at h
     exact h.1.symm)

theorem soft_push_post {α : Type} (q : SPSCQueueSoftArray α) (v : α)
    (h0 : 0 ≤ q.head_) (h1 : q.head_ < q.cap_) (hint : q.cap_ ≤ 2147483647)
    (hroom : (q.head_ + 1) % q.cap_ ≠ q.tail_) (fuel : Nat) (hf : 0 < fuel) :
    ∃ q', SPSCQueueSoftArray.push fuel q v = some (true, q') ∧
      q'.buf_ q.head_ = some v ∧ (∀ j, j ≠ q.head_ → q'.buf_ j = q.buf_ j) ∧
      q'.head_ = (q.head_ + 1) % q.cap_ ∧ q'.tail_ = q.tail_ ∧ q'.cap_ = q.cap_ := by
  have hw : wrapInt32 (q.head_ + 1) = q.head_ + 1 :=
    wrapInt32_of_range _ (by omega) (by omega)
  have hmod : (if q.head_ + 1 = q.cap_ then 0 else q.head_ + 1) = (q.head_ + 1) % q.cap_ := by
    split_ifs with hx
    · rw [hx]; simp
    · rw [Int.emod_eq_of_lt (by omega) (by omega)]
  refine ⟨{ q with
      buf_ := fun i => if i = q.head_ then some v else q.buf_ i
      head_ := if q.head_ + 1 = q.cap_ then 0 else q.head_ + 1 }, ?_, ?_, ?_, hmod, rfl, rfl⟩
  · unfold SPSCQueueSoftArray.push
    simp only [hw]
    rw [if_pos (push_wait_exit q _ (by rw [hmod]; exact hroom) fuel hf)]
  · simp
  · intro j hj
    simp [hj]

/-! ## `size` and `pop` on states with cursors in range -/

theorem soft_size_range {α : Type} (q : SPSCQueueSoftArray α)
    (h0 : 0 ≤ q.head_) (h1 : q.head_ < q.cap_) (t0 : 0 ≤ q.tail_) (t1 : q.tail_ < q.cap_)
    (hint : q.cap_ ≤ 2147483647) :
    (SPSCQueueSoftArray.size q : Int) = (q.head_ - q.tail_) % q.cap_ := by
  unfold SPSCQueueSoftArray.size
  simp only []
  rw [wrapInt32_of_range (q.head_ - q.tail_) (by omega) (by omega)]
  by_cases hd : q.head_ - q.tail_ < 0
  · rw [if_pos hd, wrapInt32_of_range _ (by omega) (by omega),
      toSizeT_of_nonneg _ (by omega) (by omega)]
    rw [← Int.add_emod_self, Int.emod_eq_of_lt (by omega) (by omega)]
  · rw [if_neg hd, toSizeT_of_nonneg _ (by omega) (by omega),
      Int.emod_eq_of_lt (by omega) (by omega)]

theorem separate_size_range {α : Type} (q : SPSCQueue α)
    (h0 : 0 ≤ q.head_) (h1 : q.head_ < q.cap_) (t0 : 0 ≤ q.tail_) (t1 : q.tail_ < q.cap_)
    (hint : q.cap_ ≤ 2147483647) :
    (SPSCQueue.size q : Int)
      = if q.head_ < q.tail_ then 18446744073709551616 + q.head_ - q.tail_
        else q.head_ - q.tail_ := by
  unfold SPSCQueue.size
  simp only [Nat.not_lt_zero, if_false]
  rw [wrapInt32_of_range (q.head_ - q.tail_) (by omega) (by omega)]
  unfold toSizeT
  split_ifs <;> omega

theorem soft_pop_post {α : Type} (q : SPSCQueueSoftArray α)
    (t0 : 0 ≤ q.tail_) (t1 : q.tail_ < q.cap_) (hint : q.cap_ ≤ 2147483647) :
    (SPSCQueueSoftArray.pop q).buf_ q.tail_ = none ∧
    (∀ j, j ≠ q.tail_ → (SPSCQueueSoftArray.pop q).buf_ j = q.buf_ j) ∧
    (SPSCQueueSoftArray.pop q).tail_ = (q.tail_ + 1) % q.cap_ ∧
    (SPSCQueueSoftArray.pop q).head_ = q.head_ ∧
    (SPSCQueueSoftArray.pop q).cap_ = q.cap_ := by
  have hw : wrapInt32 (q.tail_ + 1) = q.tail_ + 1 :=
    wrapInt32_of_range _ (by omega) (by omega)
  have hmod : (if q.tail_ + 1 = q.cap_ then 0 else q.tail_ + 1) = (q.tail_ + 1) % q.cap_ := by
    split_ifs with hx
    · rw [hx]; simp
    · rw [Int.emod_eq_of_lt (by omega) (by omega)]
  refine ⟨by simp [SPSCQueueSoftArray.pop], ?_, ?_, rfl, rfl⟩
  · intro j hj
    simp [SPSCQueueSoftArray.pop, hj]
  · rw [← hmod]
    simp only [SPSCQueueSoftArray.pop, hw]

theorem soft_pop_size {α : Type} (q : SPSCQueueSoftArray α)
    (h0 : 0 ≤ q.head_) (h1 : q.head_ < q.cap_) (t0 : 0 ≤ q.tail_) (t1 : q.tail_ < q.cap_)
    (hint : q.cap_ ≤ 2147483647) (hne : q.head_ ≠ q.tail_) :
    SPSCQueueSoftArray.size (SPSCQueueSoftArray.pop q) + 1 = SPSCQueueSoftArray.size q := by
  obtain ⟨-, -, ht, hh, hc⟩ := soft_pop_post q t0 t1 hint
  have hlt : 0 ≤ (q.tail_ + 1) % q.cap_ ∧ (q.tail_ + 1) % q.cap_ < q.cap_ :=
    ⟨Int.emod_nonneg _ (by omega), Int.emod_lt_of_pos _ (by omega)⟩
  have hcases : (q.tail_ + 1) % q.cap_ = if q.tail_ + 1 = q.cap_ then 0 else q.tail_ + 1 := by
    split_ifs with hx
    · rw [hx]; simp
    · rw [Int.emod_eq_of_lt (by omega) (by omega)]
  have s1 := soft_size_range (SPSCQueueSoftArray.pop q) (by rw [hh]; exact h0)
    (by rw [hh, hc]; exact h1) (by rw [ht]; exact hlt.1) (by rw [ht, hc]; exact hlt.2)
    (by rw [hc]; exact hint)
  have s2 := soft_size_range q h0 h1 t0 t1 hint
  rw [hh, ht, hc] at s1
  have e1 : ∀ a : Int, 0 ≤ a → a < q.cap_ → a % q.cap_ = a :=
    fun a ha hb => Int.emod_eq_of_lt ha hb
  have e2 : ∀ a : Int, a < 0 → -q.cap_ ≤ a → a % q.cap_ = a + q.cap_ := by
    intro a ha hb
    rw [← Int.add_emod_self, Int.emod_eq_of_lt (by omega) (by omega)]
  rw [hcases] at s1
  by_cases hwrap : q.tail_ + 1 = q.cap_
  · rw [if_pos hwrap] at s1
    rw [e1 (q.head_ - 0) (by omega) (by omega)] at s1
    rw [e2 (q.head_ - q.tail_) (by omega) (by omega)] at s2
    omega
  · rw [if_neg hwrap] at s1
    by_cases hlt2 : q.head_ < q.tail_
    · rw [e2 (q.head_ - (q.tail_ + 1)) (by omega) (by omega)] at s1
      rw [e2 (q.head_ - q.tail_) (by omega) (by omega)] at s2
      omega
    · rw [e1 (q.head_ - (q.tail_ + 1)) (by omega) (by omega)] at s1
      rw [e1 (q.head_ - q.tail_) (by omega) (by omega)] at s2
      omega

theorem fence_pop_size {α : Type} {Capacity : Nat} (q : SPSCQueueFence α Capacity)
    (h0 : 0 ≤ q.head_) (h1 : q.head_ < wrapInt32 Capacity) (t0 : 0 ≤ q.tail_)
    (t1 : q.tail_ < wrapInt32 Capacity) (hne : q.head_ ≠ q.tail_) :
    SPSCQueueFence.size (SPSCQueueFence.pop q) + 1 = SPSCQueueFence.size q :=
  soft_pop_size (SPSCQueueFence.toSoft q) h0 h1 t0 t1 (wrapInt32_le _) hne

theorem fence_pop_post {α : Type} {Capacity : Nat} (q : SPSCQueueFence α Capacity)
    (t0 : 0 ≤ q.tail_) (t1 : q.tail_ < wrapInt32 Capacity) :
    (SPSCQueueFence.pop q).buf_ q.tail_ = none ∧
    (∀ j, j ≠ q.tail_ → (SPSCQueueFence.pop q).buf_ j = q.buf_ j) ∧
    (SPSCQueueFence.pop q).tail_ = (q.tail_ + 1) % wrapInt32 Capacity ∧
    (SPSCQueueFence.pop q).head_ = q.head_ :=
  have h := soft_pop_post (SPSCQueueFence.toSoft q) t0 t1 (wrapInt32_le _)
  ⟨h.1, h.2.1, h.2.2.1, h.2.2.2.1⟩

theorem separate_pop_post {α : Type} (q : SPSCQueue α)
    (t0 : 0 ≤ q.tail_) (t1 : q.tail_ < q.cap_) (hint : q.cap_ ≤ 2147483647) :
    (SPSCQueue.pop q).buf_ q.tail_ = none ∧
    (∀ j, j ≠ q.tail_ → (SPSCQueue.pop q).buf_ j = q.buf_ j) ∧
    (SPSCQueue.pop q).tail_ = (q.tail_ + 1) % q.cap_ ∧
    (SPSCQueue.pop q).head_ = q.head_ ∧
    (SPSCQueue.pop q).cap_ = q.cap_ :=
  soft_pop_post (SPSCQueue.toSoft q) t0 t1 hint

/-! ## Properties of the queues -/

/-- C1 (FIFO).  For each of the three queue variants, after any sequence of
completed `push` calls and `front`/`pop` calls on a fresh queue (every `pop` issued
after a non-null `front()`), the elements read through the non-null `front()`
pointers are, in order, the first `pops ops` pushed values: no gap, no duplicate,
whatever the number of wrap-arounds.  The consumer never gets ahead of the
producer, `front()` is null exactly when everything pushed has been popped, and
once as many pops as pushes have happened the values read are exactly the values
pushed. -/
theorem fifo_order {α : Type} (V : Variant α) (q0 : V.State) (hfresh : Fresh V q0)
    (fuel : Nat) (ops : List (Op α)) (obs : List (Option α)) (q : V.State)
    (hrun : run V fuel q0 ops = some (obs, q)) :
    obs = ((pushed ops).take (pops ops)).map some ∧
    pops ops ≤ (pushed ops).length ∧
    (V.front q = none ↔ pops ops = (pushed ops).length) ∧
    (pops ops = (pushed ops).length → obs = (pushed ops).map some) := by
  obtain ⟨abs, l, hs, hrep, happ, hlen⟩ := run_fresh hfresh hrun
  have hl : (pushed ops).length = pops ops + l.length := by
    have := congrArg List.length happ
    simpa [hlen] using this.symm
  have hobs : obs = ((pushed ops).take (pops ops)).map some := by
    have := congrArg (List.take (pops ops)) happ
    rw [List.take_left' hlen] at this
    rw [this, List.map_take]
  refine ⟨hobs, by omega, ?_, ?_⟩
  · rw [hs.front_eq q, rep_front hrep]
    by_cases h0 : l.length = 0
    · simp [h0]; omega
    · simp [h0]; omega
  · intro hall
    rw [hobs, hall, List.take_length]

/-- Witness for C1: the co-located queue created with requested capacity 3
(four slots); thirteen calls carry six values through it, the cursors wrapping
around the end of the buffer. -/
theorem fifo_order_witness :
    ∃ q, run (SPSCQueueSoftArray.variant Nat) 1 (SPSCQueueSoftArray.construct 4)
        [Op.push 1, Op.push 2, Op.push 3, Op.pop, Op.pop, Op.push 4, Op.push 5, Op.pop,
          Op.front, Op.pop, Op.pop, Op.push 6, Op.pop]
      = some ([some 1, some 2, some 3, some 4, some 5, some 6], q) ∧
    ([some 1, some 2, some 3, some 4, some 5, some 6]
        = (([1, 2, 3, 4, 5, 6] : List Nat).take 6).map some ∧
      6 ≤ ([1, 2, 3, 4, 5, 6] : List Nat).length ∧
      (SPSCQueueSoftArray.front q = none ↔ 6 = ([1, 2, 3, 4, 5, 6] : List Nat).length) ∧
      (6 = ([1, 2, 3, 4, 5, 6] : List Nat).length →
        [some 1, some 2, some 3, some 4, some 5, some 6]
          = ([1, 2, 3, 4, 5, 6] : List Nat).map some)) :=
  ⟨_, rfl, fifo_order (SPSCQueueSoftArray.variant Nat) (SPSCQueueSoftArray.construct 4)
    (Fresh.softArray 3 4096 _ rfl) 1
    [Op.push 1, Op.push 2, Op.push 3, Op.pop, Op.pop, Op.push 4, Op.push 5, Op.pop,
      Op.front, Op.pop, Op.pop, Op.push 6, Op.pop]
    [some 1, some 2, some 3, some 4, some 5, some 6] _ rfl⟩

/-- C2 (concrete scenario).  `SPSCQueueSoftArray::create(3)` gives internal
capacity 4; the pushes of "a", "b", "c" complete (each on the first test of the
wait loop); a fourth push does not complete, however long it spins, while no pop
happens; after one `pop()` the push of "d" completes; `front()` is then non-null
and the slot it points to holds "b".  The same holds for `SPSCQueue(3)`. -/
theorem scenario_capacity_three :
    (∃ q0 q1 q2 q3 q4 p,
      SPSCQueueSoftArray.create (some 4096) 3 = some q0 ∧
      SPSCQueueSoftArray.capacity q0 = 4 ∧
      SPSCQueueSoftArray.push 1 q0 "a" = some (true, q1) ∧
      SPSCQueueSoftArray.push 1 q1 "b" = some (true, q2) ∧
      SPSCQueueSoftArray.push 1 q2 "c" = some (true, q3) ∧
      (∀ fuel, SPSCQueueSoftArray.push fuel q3 "d" = none) ∧
      SPSCQueueSoftArray.push 1 (SPSCQueueSoftArray.pop q3) "d" = some (true, q4) ∧
      SPSCQueueSoftArray.front q4 = some p ∧ q4.buf_ p = some "b") ∧
    (∃ q1 q2 q3 q4 p,
      (SPSCQueue.construct 3 : SPSCQueue String).cap_ = 4 ∧
      SPSCQueue.push 1 (SPSCQueue.construct 3) "a" = some (true, q1) ∧
      SPSCQueue.push 1 q1 "b" = some (true, q2) ∧
      SPSCQueue.push 1 q2 "c" = some (true, q3) ∧
      (∀ fuel, SPSCQueue.push fuel q3 "d" = none) ∧
      SPSCQueue.push 1 (SPSCQueue.pop q3) "d" = some (true, q4) ∧
      SPSCQueue.front q4 = some p ∧ q4.buf_ p = some "b") := by
  have key : ∀ (V : Variant String) (q0 : V.State), Fresh V q0 → V.cap q0 = 4 →
      ∃ q1 q2 q3 q4 p,
        V.push 1 q0 "a" = some (true, q1) ∧ V.push 1 q1 "b" = some (true, q2) ∧
        V.push 1 q2 "c" = some (true, q3) ∧ (∀ fuel, V.push fuel q3 "d" = none) ∧
        V.push 1 (V.pop q3) "d" = some (true, q4) ∧
        V.front q4 = some p ∧ V.slot q4 p = some "b" := by
    intro V q0 hfresh hcap
    obtain ⟨abs, hs, hrep0⟩ := fresh_sim hfresh
    rw [hs.cap_eq] at hcap
    obtain ⟨a1, hp1, hr1, hc1, -⟩ := rep_push hrep0 (by simp [hcap]) 1 (by decide) "a"
    obtain ⟨q1, hq1, rfl⟩ := sim_push_reflect hs hp1
    obtain ⟨a2, hp2, hr2, hc2, -⟩ :=
      rep_push hr1 (by simp [hcap, hc1]) 1 (by decide) "b"
    obtain ⟨q2, hq2, rfl⟩ := sim_push_reflect hs hp2
    obtain ⟨a3, hp3, hr3, hc3, -⟩ :=
      rep_push hr2 (by simp [hcap, hc1, hc2]) 1 (by decide) "c"
    obtain ⟨q3, hq3, rfl⟩ := sim_push_reflect hs hp3
    have hfull : ∀ fuel, V.push fuel q3 "d" = none := by
      intro fuel
      rw [sim_push_none hs]
      exact rep_push_full hr3 (by simp [hcap, hc1, hc2, hc3]) fuel "d"
    obtain ⟨hr4, -⟩ := rep_pop hr3
    have hc4 : (SPSCQueueSoftArray.pop (abs q3)).cap_ = 4 := by
      show (abs q3).cap_ = 4
      rw [hc3, hc2, hc1, hcap]
    rw [← hs.pop_eq] at hr4 hc4
    obtain ⟨a5, hp5, hr5, -⟩ := rep_push hr4 (by simp [hc4]) 1 (by decide) "d"
    obtain ⟨q4, hq4, rfl⟩ := sim_push_reflect hs hp5
    refine ⟨q1, q2, q3, q4, (abs q4).tail_, hq1, hq2, hq3, hfull, hq4, ?_, ?_⟩
    · rw [hs.front_eq, rep_front hr5]
      simp
    · rw [hs.slot_eq]
      exact rep_tail_slot hr5
  constructor
  · obtain ⟨q1, q2, q3, q4, p, h⟩ := key (SPSCQueueSoftArray.variant String)
      (SPSCQueueSoftArray.construct 4) (Fresh.softArray 3 4096 _ rfl) rfl
    exact ⟨_, q1, q2, q3, q4, p, rfl, rfl, h⟩
  · obtain ⟨q1, q2, q3, q4, p, h⟩ := key (SPSCQueue.variant String)
      (SPSCQueue.construct 3) (Fresh.separate 3) rfl
    exact ⟨q1, q2, q3, q4, p, rfl, h⟩

/-- C3 (occupancy accounting, co-located and fence variants).  After any sequence
of completed pushes and precondition-respecting pops on a fresh queue, with `k`
pushes and `j` pops, `j ≤ k` and `size()` returns exactly `k - j`, wherever the two
cursors stand. -/
theorem size_accounting {α : Type} (V : Variant α) (q0 : V.State)
    (hfresh : FreshColocatedOrFence V q0) (fuel : Nat) (ops : List (Op α))
    (obs : List (Option α)) (q : V.State) (hrun : run V fuel q0 ops = some (obs, q)) :
    pops ops ≤ (pushed ops).length ∧ V.size q = (pushed ops).length - pops ops := by
  have hF : Fresh V q0 ∧ ∀ abs : V.State → SPSCQueueSoftArray α, Sim V abs →
      ∀ s, V.size s = SPSCQueueSoftArray.size (abs s) := by
    cases hfresh with
    | softArray cap raw q0 h =>
      refine ⟨Fresh.softArray cap raw q0 h, ?_⟩
      intro abs hs s
      show SPSCQueueSoftArray.size s = SPSCQueueSoftArray.size (abs s)
      have e1 := hs.cap_eq s
      have e2 := hs.head_eq s
      have e3 := hs.tail_eq s
      simp only [SPSCQueueSoftArray.capacity] at e1 e2 e3
      simp only [SPSCQueueSoftArray.size, e1, e2, e3]
    | fence Capacity raw q0 hpos hint h =>
      refine ⟨Fresh.fence Capacity raw q0 hpos hint h, ?_⟩
      intro abs hs s
      show SPSCQueueFence.size s = SPSCQueueSoftArray.size (abs s)
      have e1 := hs.cap_eq s
      have e2 := hs.head_eq s
      have e3 := hs.tail_eq s
      simp only [SPSCQueueFence.capacity] at e1 e2 e3
      simp only [SPSCQueueFence.size, SPSCQueueSoftArray.size, e1, e2, e3]
  obtain ⟨abs, l, hs, hrep, happ, hlen⟩ := run_fresh hF.1 hrun
  have hl : (pushed ops).length = pops ops + l.length := by
    have := congrArg List.length happ
    simpa [hlen] using this.symm
  rw [hF.2 abs hs, rep_size hrep]
  omega

/-- Witness for C3: the fence queue with `Capacity = 4`; after five pushes and
three pops `head_` is 1 and `tail_` is 3, and `size()` is 2. -/
theorem size_accounting_witness :
    ∃ q, run (SPSCQueueFence.variant Nat 4) 1 SPSCQueueFence.construct
        [Op.push 1, Op.push 2, Op.push 3, Op.pop, Op.pop, Op.push 4, Op.push 5, Op.pop]
      = some ([some 1, some 2, some 3], q) ∧ q.head_ = 1 ∧ q.tail_ = 3 ∧
      (3 ≤ ([1, 2, 3, 4, 5] : List Nat).length ∧
        SPSCQueueFence.size q = ([1, 2, 3, 4, 5] : List Nat).length - 3) :=
  ⟨_, rfl, rfl, rfl, size_accounting (SPSCQueueFence.variant Nat 4) SPSCQueueFence.construct
    (FreshColocatedOrFence.fence 4 4096 _ (by decide) (by decide) rfl) 1
    [Op.push 1, Op.push 2, Op.push 3, Op.pop, Op.pop, Op.push 4, Op.push 5, Op.pop]
    [some 1, some 2, some 3] _ rfl⟩

/-- C4 (occupancy accounting, separate-allocation variant): evaluation at the
claim's own example.  `SPSCQueue(3)` has `cap_ = 4`; after three pushes, three
pops and one more push the cursors are `head_ = 0`, `tail_ = 3`, one element is
held and `(head - tail) mod C` is 1, but `size()` returns `2^64 - 3`: the
difference is stored in a `size_t`, so the test `diff < 0` never fires. -/
theorem separate_size_wraps :
    (run (SPSCQueue.variant Nat) 1 (SPSCQueue.construct 3)
        [Op.push 1, Op.push 2, Op.push 3, Op.pop, Op.pop, Op.pop, Op.push 4]).map
      (fun r => (r.2.cap_, r.2.head_, r.2.tail_, (r.2.head_ - r.2.tail_) % r.2.cap_,
        SPSCQueue.size r.2))
      = some (4, 0, 3, 1, 18446744073709551613) := by
  decide

/-- C5, the claim as stated fails: `create(3)` gives `capacity() == 4`, and four
pushes on the fresh queue with no pop do not all complete, however long the
fourth one spins. -/
theorem full_boundary_counterexample :
    ∃ q0 : SPSCQueueSoftArray Nat,
      SPSCQueueSoftArray.create (some 4096) 3 = some q0 ∧
      SPSCQueueSoftArray.capacity q0 = 4 ∧
      ∀ fuel, run (SPSCQueueSoftArray.variant Nat) fuel q0
        [Op.push 1, Op.push 2, Op.push 3, Op.push 4] = none := by
  refine ⟨SPSCQueueSoftArray.construct 4, rfl, rfl, ?_⟩
  intro fuel
  cases hr : run (SPSCQueueSoftArray.variant Nat) fuel (SPSCQueueSoftArray.construct 4)
      [Op.push 1, Op.push 2, Op.push 3, Op.push 4] with
  | none => rfl
  | some r =>
    exfalso
    obtain ⟨obs, q⟩ := r
    obtain ⟨l, hrep, happ, hlen, hcap⟩ :=
      run_rep fuel _ _ [] (rep_fresh 4 (by decide) (by decide)) obs q hr
    have h0 : obs.length = 0 := by simpa [pops] using hlen
    have hl := congrArg List.length happ
    have hlt := rep_length_lt hrep
    have hcap4 : q.cap_ = 4 := hcap
    simp [pushed, h0] at hl
    omega

/-- C5 as amended.  On a queue freshly made by `create`, with no pop in between,
`capacity() - 1` pushes all complete and bring `size()` to `capacity() - 1`; the
next push does not complete however long it spins; once one `pop()` has been
made, that push completes. -/
theorem full_boundary {α : Type} (raw : Nat) (cap : Int) (q0 : SPSCQueueSoftArray α)
    (hq : SPSCQueueSoftArray.create (some raw) cap = some q0)
    (fuel : Nat) (hf : 0 < fuel) (vs : List α)
    (hlen : (vs.length : Int) = SPSCQueueSoftArray.capacity q0 - 1) (v : α) :
    ∃ q, run (SPSCQueueSoftArray.variant α) fuel q0 (vs.map Op.push) = some ([], q) ∧
      (SPSCQueueSoftArray.size q : Int) = SPSCQueueSoftArray.capacity q0 - 1 ∧
      (∀ n, SPSCQueueSoftArray.push n q v = none) ∧
      ∃ q', SPSCQueueSoftArray.push fuel (SPSCQueueSoftArray.pop q) v = some (true, q') := by
  obtain ⟨hrep0, h4⟩ := rep_create hq
  simp only [SPSCQueueSoftArray.capacity] at hlen ⊢
  obtain ⟨q, hr, hrep, hcap⟩ := run_pushes fuel hf vs q0 [] hrep0 (by simp; omega)
  simp only [List.nil_append] at hrep
  refine ⟨q, hr, ?_, ?_, ?_⟩
  · rw [rep_size hrep, hlen]
  · intro n
    exact rep_push_full hrep (by rw [hcap]; omega) n v
  · cases vs with
    | nil =>
      exfalso
      simp at hlen
      omega
    | cons a vs =>
      obtain ⟨hrep', -⟩ := rep_pop hrep
      have hc' : (SPSCQueueSoftArray.pop q).cap_ = q.cap_ := rfl
      obtain ⟨q', hp, -⟩ := rep_push hrep' (by
        rw [hc', hcap]
        simp only [List.length_cons] at hlen
        push_cast at hlen
        omega) fuel hf v
      exact ⟨q', hp⟩

/-- Witness for the amended C5: requested capacity 3, so `capacity() == 4` and
three pushes. -/
theorem full_boundary_witness :
    ∃ q, run (SPSCQueueSoftArray.variant Nat) 1 (SPSCQueueSoftArray.construct 4)
        ([1, 2, 3].map Op.push) = some ([], q) ∧
      (SPSCQueueSoftArray.size q : Int)
        = SPSCQueueSoftArray.capacity (SPSCQueueSoftArray.construct 4 : SPSCQueueSoftArray Nat) - 1 ∧
      (∀ n, SPSCQueueSoftArray.push n q 4 = none) ∧
      ∃ q', SPSCQueueSoftArray.push 1 (SPSCQueueSoftArray.pop q) 4 = some (true, q') :=
  full_boundary 4096 3 (SPSCQueueSoftArray.construct 4) rfl 1 (by decide) [1, 2, 3] (by decide) 4

/-- C6 (usable capacity is `C - 1`).  In every state reached from a fresh queue by
completed pushes and precondition-respecting pops, the number of constructed
elements in the buffer is the number of pushes minus the number of pops and is at
most `C - 1`; a push is blocked (it never completes, and `(head + 1) mod C` equals
`tail`) exactly when that number is `C - 1`; `head == tail` exactly when it is 0. -/
theorem usable_capacity {α : Type} (V : Variant α) (q0 : V.State) (hfresh : Fresh V q0)
    (fuel : Nat) (ops : List (Op α)) (obs : List (Option α)) (q : V.State)
    (hrun : run V fuel q0 ops = some (obs, q)) (v : α) :
    liveCount V q = (pushed ops).length - pops ops ∧
    (liveCount V q : Int) ≤ V.cap q - 1 ∧
    ((∀ n, V.push n q v = none) ↔ (liveCount V q : Int) = V.cap q - 1) ∧
    ((V.head q + 1) % V.cap q = V.tail q ↔ (liveCount V q : Int) = V.cap q - 1) ∧
    (V.head q = V.tail q ↔ liveCount V q = 0) := by
  obtain ⟨abs, l, hs, hrep, happ, hlen⟩ := run_fresh hfresh hrun
  have hl : (pushed ops).length = pops ops + l.length := by
    have := congrArg List.length happ
    simpa [hlen] using this.symm
  have hlive : liveCount V q = l.length := by
    rw [sim_liveCount hs, rep_liveCount hrep]
  have hlt := rep_length_lt hrep
  rw [hlive, hs.cap_eq, hs.head_eq, hs.tail_eq]
  refine ⟨by omega, by omega, ?_, ?_, ?_⟩
  · constructor
    · intro hblock
      by_contra hne
      obtain ⟨q', hp, -⟩ := rep_push hrep (by omega) 1 (by decide) v
      have := (sim_push_none hs 1 q v).mp (hblock 1)
      rw [hp] at this
      cases this
    · intro hfull n
      rw [sim_push_none hs]
      exact rep_push_full hrep (by omega) n v
  · obtain ⟨hc, ⟨h1, h2⟩, ⟨h3, h4⟩, hx, -⟩ := hrep
    have hmod : (abs q).head_ + 1 = (abs q).cap_ ∨ (abs q).head_ + 1 < (abs q).cap_ := by
      omega
    rcases hmod with hm | hm
    · rw [hm, Int.emod_self]
      split_ifs at hx <;> omega
    · rw [Int.emod_eq_of_lt (by omega) hm]
      split_ifs at hx <;> omega
  · obtain ⟨hc, ⟨h1, h2⟩, ⟨h3, h4⟩, hx, -⟩ := hrep
    split_ifs at hx <;> omega

/-- Witness for C6: the separate-allocation queue `SPSCQueue(3)` after four
pushes and one pop: three live elements in four slots. -/
theorem usable_capacity_witness :
    ∃ q, run (SPSCQueue.variant Nat) 1 (SPSCQueue.construct 3)
        [Op.push 1, Op.push 2, Op.push 3, Op.pop, Op.push 4] = some ([some 1], q) ∧
    (liveCount (SPSCQueue.variant Nat) q = ([1, 2, 3, 4] : List Nat).length - 1 ∧
      (liveCount (SPSCQueue.variant Nat) q : Int) ≤ q.cap_ - 1 ∧
      ((∀ n, SPSCQueue.push n q 5 = none)
        ↔ (liveCount (SPSCQueue.variant Nat) q : Int) = q.cap_ - 1) ∧
      ((q.head_ + 1) % q.cap_ = q.tail_
        ↔ (liveCount (SPSCQueue.variant Nat) q : Int) = q.cap_ - 1) ∧
      (q.head_ = q.tail_ ↔ liveCount (SPSCQueue.variant Nat) q = 0)) :=
  ⟨_, rfl, usable_capacity (SPSCQueue.variant Nat) (SPSCQueue.construct 3) (Fresh.separate 3) 1
    [Op.push 1, Op.push 2, Op.push 3, Op.pop, Op.push 4] [some 1] _ rfl 5⟩

/-- C7 (capacity widening).  For a requested capacity `cap` with
`-2^31 ≤ cap ≤ 2^31 - 2`, a successful `SPSCQueueSoftArray::create(cap)` yields a
queue whose `capacity()` is `max(cap + 1, 4)`, the constructor `SPSCQueue(cap)`
sets `cap_` to the same value, and that value is 4 whenever `cap < 3`. -/
theorem capacity_widening {α : Type} (cap : Int) (hlo : -2147483648 ≤ cap)
    (hhi : cap ≤ 2147483646) (raw : Nat) :
    (∃ q : SPSCQueueSoftArray α, SPSCQueueSoftArray.create (some raw) cap = some q ∧
      SPSCQueueSoftArray.capacity q = max (cap + 1) 4 ∧
      (cap < 3 → SPSCQueueSoftArray.capacity q = 4)) ∧
    (SPSCQueue.construct cap : SPSCQueue α).cap_ = max (cap + 1) 4 ∧
    (cap < 3 → (SPSCQueue.construct cap : SPSCQueue α).cap_ = 4) := by
  have hw : wrapInt32 (cap + 1) = cap + 1 := wrapInt32_of_range _ (by omega) (by omega)
  refine ⟨⟨SPSCQueueSoftArray.construct (max (wrapInt32 (cap + 1)) 4), rfl, ?_, ?_⟩, ?_, ?_⟩
  · show max (wrapInt32 (cap + 1)) 4 = _
    rw [hw]
  · intro h3
    show max (wrapInt32 (cap + 1)) 4 = _
    rw [hw]
    omega
  · show max (wrapInt32 (cap + 1)) 4 = _
    rw [hw]
  · intro h3
    show max (wrapInt32 (cap + 1)) 4 = _
    rw [hw]
    omega

/-- Witness for C7: requested capacity `-7`. -/
theorem capacity_widening_witness :
    (∃ q : SPSCQueueSoftArray Nat, SPSCQueueSoftArray.create (some 4096) (-7) = some q ∧
      SPSCQueueSoftArray.capacity q = max (-7 + 1) 4 ∧
      ((-7 : Int) < 3 → SPSCQueueSoftArray.capacity q = 4)) ∧
    (SPSCQueue.construct (-7) : SPSCQueue Nat).cap_ = max (-7 + 1) 4 ∧
    ((-7 : Int) < 3 → (SPSCQueue.construct (-7) : SPSCQueue Nat).cap_ = 4) :=
  capacity_widening (-7) (by decide) (by decide) 4096

/-- C8 (`front()` result).  In every state of each variant `front()` is null
exactly when `head == tail`, and otherwise points at the slot of index `tail`; in
a state reached from a fresh queue by completed pushes and precondition-respecting
pops, when `head ≠ tail` that slot holds the oldest pushed value not yet popped
(the value of push number `pops ops`, counting from 0). -/
theorem front_result {α : Type} (V : Variant α) (hV : IsVariant V) (s : V.State) :
    (V.front s = none ↔ V.head s = V.tail s) ∧
    (V.head s ≠ V.tail s → V.front s = some (V.tail s)) ∧
    (∀ (q0 : V.State) (fuel : Nat) (ops : List (Op α)) (obs : List (Option α)),
      Fresh V q0 → run V fuel q0 ops = some (obs, s) → V.head s ≠ V.tail s →
      ∃ v, (pushed ops)[pops ops]? = some v ∧ V.slot s (V.tail s) = some v) := by
  obtain ⟨abs0, hs0⟩ := isVariant_sim hV
  have hfront : V.front s = if V.head s = V.tail s then none else some (V.tail s) := by
    rw [hs0.front_eq, hs0.head_eq, hs0.tail_eq]
    rfl
  refine ⟨?_, ?_, ?_⟩
  · rw [hfront]
    split_ifs with h <;> simp [h]
  · intro hne
    rw [hfront, if_neg hne]
  · intro q0 fuel ops obs hfresh hrun hne
    obtain ⟨abs, l, hs, hrep, happ, hlen⟩ := run_fresh hfresh hrun
    rw [hs.head_eq, hs.tail_eq] at hne
    rw [hs.slot_eq, hs.tail_eq]
    cases l with
    | nil =>
      exfalso
      obtain ⟨_, ⟨_, _⟩, ⟨_, _⟩, hx, -⟩ := hrep
      simp only [List.length_nil] at hx
      split_ifs at hx <;> omega
    | cons a l =>
      refine ⟨a, ?_, rep_tail_slot hrep⟩
      have h1 := congrArg (fun x => x[pops ops]?) happ
      simp only [List.map_cons] at h1
      rw [← hlen, List.getElem?_append_right (le_refl _)] at h1
      simp only [Nat.sub_self, List.getElem?_cons_zero, List.getElem?_map] at h1
      rw [hlen] at h1
      cases hg : (pushed ops)[pops ops]? with
      | none => simp [hg] at h1
      | some w =>
        simp only [hg, Option.map_some', Option.some.injEq] at h1
        rw [h1]

/-- Witness for C8: the fence queue with `Capacity = 4` after three pushes and two
pops; `front()` points at slot 2, which holds the third pushed value. -/
theorem front_result_witness :
    ∃ s, run (SPSCQueueFence.variant Nat 4) 1 SPSCQueueFence.construct
        [Op.push 7, Op.push 8, Op.push 9, Op.pop, Op.pop] = some ([some 7, some 8], s) ∧
      SPSCQueueFence.front s = some 2 ∧
      ∃ v, ([7, 8, 9] : List Nat)[2]? = some v ∧ s.buf_ s.tail_ = some v :=
  ⟨_, rfl, rfl,
    (front_result (SPSCQueueFence.variant Nat 4) (IsVariant.fence 4) _).2.2
      SPSCQueueFence.construct 1 [Op.push 7, Op.push 8, Op.push 9, Op.pop, Op.pop]
      [some 7, some 8] (Fresh.fence 4 4096 _ (by decide) (by decide) rfl) rfl (by decide)⟩

/-- C9 (`push` postcondition).  In a state with `0 ≤ head < C`, `C` an `int`, that
is not full (`(head + 1) mod C ≠ tail`), `push(v)` completes and returns true, the
slot of index old `head` then holds `v`, every other slot is unchanged, the new
`head` is `(old head + 1) mod C`, and `tail` and `C` are unchanged.  In no state
does `push` return false. -/
theorem push_postcondition {α : Type} (V : Variant α) (hV : IsVariant V) (s : V.State)
    (v : α) (hh0 : 0 ≤ V.head s) (hh1 : V.head s < V.cap s) (hint : V.cap s ≤ 2147483647)
    (hroom : (V.head s + 1) % V.cap s ≠ V.tail s) (fuel : Nat) (hf : 0 < fuel) :
    (∃ s', V.push fuel s v = some (true, s') ∧
      V.slot s' (V.head s) = some v ∧ (∀ j, j ≠ V.head s → V.slot s' j = V.slot s j) ∧
      V.head s' = (V.head s + 1) % V.cap s ∧ V.tail s' = V.tail s ∧ V.cap s' = V.cap s) ∧
    (∀ (t : V.State) (n : Nat) (w : α) (b : Bool) (t' : V.State),
      V.push n t w = some (b, t') → b = true) := by
  obtain ⟨abs, hs⟩ := isVariant_sim hV
  constructor
  · simp only [hs.head_eq, hs.cap_eq, hs.tail_eq] at hh0 hh1 hroom hint
    obtain ⟨q', hp, hb1, hb2, hh, ht, hc⟩ :=
      soft_push_post (abs s) v hh0 hh1 hint hroom fuel hf
    obtain ⟨s', hp', rfl⟩ := sim_push_reflect hs hp
    refine ⟨s', hp', ?_, ?_, ?_, ?_, ?_⟩
    · rw [hs.slot_eq, hs.head_eq]; exact hb1
    · intro j hj
      rw [hs.slot_eq, hs.slot_eq]
      exact hb2 j (by rw [← hs.head_eq]; exact hj)
    · rw [hs.head_eq, hs.head_eq, hs.cap_eq]; exact hh
    · rw [hs.tail_eq, hs.tail_eq]; exact ht
    · rw [hs.cap_eq, hs.cap_eq]; exact hc
  · intro t n w b t' hp
    have he := hs.push_eq n t w
    rw [hp] at he
    simp only [Option.map_some'] at he
    exact soft_push_true he.symm

/-- Witness for C9: the co-located queue with four slots, `head_ = 3`,
`tail_ = 1`: the push wraps `head_` to 0. -/
theorem push_postcondition_witness :
    (∃ s', SPSCQueueSoftArray.push 1
        { cap_ := 4, head_ := 3, tail_ := 1, buf_ := fun _ => (none : Option Nat) } 5
          = some (true, s') ∧
      s'.buf_ 3 = some 5 ∧ (∀ j, j ≠ 3 → s'.buf_ j = none) ∧
      s'.head_ = (3 + 1) % 4 ∧ s'.tail_ = 1 ∧ SPSCQueueSoftArray.capacity s' = 4) ∧
    (∀ (t : SPSCQueueSoftArray Nat) (n : Nat) (w : Nat) (b : Bool)
      (t' : SPSCQueueSoftArray Nat), SPSCQueueSoftArray.push n t w = some (b, t') → b = true) :=
  push_postcondition (SPSCQueueSoftArray.variant Nat) IsVariant.softArray
    { cap_ := 4, head_ := 3, tail_ := 1, buf_ := fun _ => none } 5
    (by decide) (by decide) (by decide) (by decide) 1 (by decide)

/-- C10 (`pop` postcondition): evaluation on the separate-allocation queue.
`SPSCQueue(3)` after three pushes, three pops and one more push is non-empty
(`front()` points at slot 3); `pop()` moves `tail_` from 3 to `(3 + 1) mod 4 = 0`
and empties slot 3, but `size()` goes from `2^64 - 3` to `0` instead of from 1
to 0. -/
theorem separate_pop_size_jump :
    (run (SPSCQueue.variant Nat) 1 (SPSCQueue.construct 3)
        [Op.push 1, Op.push 2, Op.push 3, Op.pop, Op.pop, Op.pop, Op.push 4]).map
      (fun r => (SPSCQueue.front r.2, r.2.buf_ 3, SPSCQueue.size r.2,
        (SPSCQueue.pop r.2).tail_, (SPSCQueue.pop r.2).buf_ 3,
        SPSCQueue.size (SPSCQueue.pop r.2)))
      = some (some 3, some 4, 18446744073709551613, 0, none, 0) := by
  decide

/-! ## Steps of `push` -/

theorem step_load_head {α : Type} {M : PushMachine α} (hM : IsPushMachine M) (v : α)
    (s : M.V.State) :
    M.step v (PushPc.load_head, s)
      = (PushPc.load_tail (M.V.head s)
          (if wrapInt32 (M.V.head s + 1) = M.V.cap s then 0 else wrapInt32 (M.V.head s + 1)),
         s) := by
  cases hM <;> rfl

theorem step_load_tail {α : Type} {M : PushMachine α} (hM : IsPushMachine M) (v : α)
    (h nh : Int) (s : M.V.State) :
    M.step v (PushPc.load_tail h nh, s)
      = if nh = M.V.tail s then (PushPc.load_tail h nh, s) else (PushPc.construct h nh, s) := by
  cases hM with
  | separate => rfl
  | softArray => rfl
  | fence Capacity =>
    show SPSCQueueFence.push_step v (PushPc.load_tail h nh, s) = _
    simp only [SPSCQueueFence.push_step]
    by_cases hx : nh = s.tail_
    · simp [hx]
    · simp [hx]

theorem step_construct {α : Type} {M : PushMachine α} (hM : IsPushMachine M) (v : α)
    (h nh : Int) (s : M.V.State) :
    (M.step v (PushPc.construct h nh, s)).1 = PushPc.store_head h nh ∧
    M.V.slot (M.step v (PushPc.construct h nh, s)).2
      = (fun i => if i = h then some v else M.V.slot s i) ∧
    M.V.head (M.step v (PushPc.construct h nh, s)).2 = M.V.head s ∧
    M.V.tail (M.step v (PushPc.construct h nh, s)).2 = M.V.tail s ∧
    M.V.cap (M.step v (PushPc.construct h nh, s)).2 = M.V.cap s := by
  cases hM <;> exact ⟨rfl, rfl, rfl, rfl, rfl⟩

theorem step_store_head {α : Type} {M : PushMachine α} (hM : IsPushMachine M) (v : α)
    (h nh : Int) (s : M.V.State) :
    (M.step v (PushPc.store_head h nh, s)).1 = PushPc.ret ∧
    M.V.slot (M.step v (PushPc.store_head h nh, s)).2 = M.V.slot s ∧
    M.V.head (M.step v (PushPc.store_head h nh, s)).2 = nh ∧
    M.V.tail (M.step v (PushPc.store_head h nh, s)).2 = M.V.tail s ∧
    M.V.cap (M.step v (PushPc.store_head h nh, s)).2 = M.V.cap s := by
  cases hM <;> exact ⟨rfl, rfl, rfl, rfl, rfl⟩

theorem step_ret {α : Type} {M : PushMachine α} (hM : IsPushMachine M) (v : α)
    (s : M.V.State) : M.step v (PushPc.ret, s) = (PushPc.ret, s) := by
  cases hM <;> rfl

theorem steps_ret {α : Type} {M : PushMachine α} (hM : IsPushMachine M) (v : α)
    (s : M.V.State) (n : Nat) : (M.step v)^[n] (PushPc.ret, s) = (PushPc.ret, s) := by
  induction n with
  | zero => rfl
  | succ n ih => rw [Function.iterate_succ_apply, step_ret hM, ih]

theorem steps_spin {α : Type} {M : PushMachine α} (hM : IsPushMachine M) (v : α)
    (h nh : Int) (s : M.V.State) (hfull : nh = M.V.tail s) (n : Nat) :
    (M.step v)^[n] (PushPc.load_tail h nh, s) = (PushPc.load_tail h nh, s) := by
  induction n with
  | zero => rfl
  | succ n ih => rw [Function.iterate_succ_apply, step_load_tail hM, if_pos hfull, ih]

theorem soft_push_wait_iff {α : Type} (q : SPSCQueueSoftArray α) (nh : Int) (fuel : Nat) :
    SPSCQueueSoftArray.push_wait q nh fuel = decide (0 < fuel ∧ nh ≠ q.tail_) := by
  by_cases hx : nh = q.tail_
  · rw [push_wait_spin q nh hx fuel]
    simp [hx]
  · rcases Nat.eq_zero_or_pos fuel with h0 | h0
    · subst h0
      simp [SPSCQueueSoftArray.push_wait]
    · rw [push_wait_exit q nh hx fuel h0]
      simp [hx, h0]

theorem push_char {α : Type} {M : PushMachine α} (hM : IsPushMachine M) (fuel : Nat)
    (q : M.V.State) (v : α) :
    M.V.push fuel q v =
      if 0 < fuel ∧
          (if wrapInt32 (M.V.head q + 1) = M.V.cap q then 0 else wrapInt32 (M.V.head q + 1))
            ≠ M.V.tail q
      then some (true,
        (M.step v (PushPc.store_head (M.V.head q)
          (if wrapInt32 (M.V.head q + 1) = M.V.cap q then 0 else wrapInt32 (M.V.head q + 1)),
          (M.step v (PushPc.construct (M.V.head q)
            (if wrapInt32 (M.V.head q + 1) = M.V.cap q then 0 else wrapInt32 (M.V.head q + 1)),
            q)).2)).2)
      else none := by
  cases hM with
  | separate =>
    show SPSCQueue.push fuel q v = _
    unfold SPSCQueue.push
    simp only [separate_push_wait, soft_push_wait_iff, decide_eq_true_eq]
    rfl
  | softArray =>
    show SPSCQueueSoftArray.push fuel q v = _
    unfold SPSCQueueSoftArray.push
    simp only [soft_push_wait_iff, decide_eq_true_eq]
    rfl
  | fence Capacity =>
    show SPSCQueueFence.push fuel q v = _
    unfold SPSCQueueFence.push
    have hw := fence_push_wait q
      (if wrapInt32 (q.head_ + 1) = wrapInt32 Capacity then 0 else wrapInt32 (q.head_ + 1)) fuel
    rw [soft_push_wait_iff] at hw
    simp only
    cases hc : SPSCQueueFence.push_wait q
      (if wrapInt32 (q.head_ + 1) = wrapInt32 Capacity then 0 else wrapInt32 (q.head_ + 1)) fuel
    · rw [hc] at hw
      simp only [Option.isSome_none] at hw
      have hn := of_decide_eq_false hw.symm
      exact (if_neg hn).symm
    · rw [hc] at hw
      simp only [Option.isSome_some] at hw
      have hn := of_decide_eq_true hw.symm
      exact (if_pos hn).symm

theorem step_construct_eq {α : Type} {M : PushMachine α} (hM : IsPushMachine M) (v : α)
    (h nh : Int) (s : M.V.State) :
    M.step v (PushPc.construct h nh, s)
      = (PushPc.store_head h nh, (M.step v (PushPc.construct h nh, s)).2) :=
  Prod.ext (step_construct hM v h nh s).1 rfl

theorem step_store_head_eq {α : Type} {M : PushMachine α} (hM : IsPushMachine M) (v : α)
    (h nh : Int) (s : M.V.State) :
    M.step v (PushPc.store_head h nh, s)
      = (PushPc.ret, (M.step v (PushPc.store_head h nh, s)).2) :=
  Prod.ext (step_store_head hM v h nh s).1 rfl

/-- The call-level `push` is the step function run to completion: `fuel` tests of
the wait loop are `fuel + 3` steps. -/
theorem push_eq_steps {α : Type} {M : PushMachine α} (hM : IsPushMachine M) (fuel : Nat)
    (q : M.V.State) (v : α) :
    M.V.push fuel q v =
      (if ((M.step v)^[fuel + 3] (PushPc.load_head, q)).1 = PushPc.ret
        then some (true, ((M.step v)^[fuel + 3] (PushPc.load_head, q)).2) else none) := by
  rw [push_char hM, Function.iterate_succ_apply, step_load_head hM]
  generalize (if wrapInt32 (M.V.head q + 1) = M.V.cap q then 0
      else wrapInt32 (M.V.head q + 1)) = nh
  by_cases hx : nh = M.V.tail q
  · rw [steps_spin hM v _ _ q hx]
    simp [hx]
  · cases fuel with
    | zero =>
      simp only [Nat.lt_irrefl, false_and, if_false, Nat.zero_add, Function.iterate_succ_apply,
        Function.iterate_zero, id_eq]
      rw [step_load_tail hM, if_neg hx, step_construct_eq hM]
      rw [if_neg (fun h => PushPc.noConfusion h)]
    | succ n =>
      rw [if_pos ⟨Nat.succ_pos n, hx⟩]
      rw [show n + 1 + 2 = n + 3 from rfl, Function.iterate_succ_apply,
        Function.iterate_succ_apply, Function.iterate_succ_apply, step_load_tail hM, if_neg hx,
        step_construct_eq hM, step_store_head_eq hM, steps_ret hM]
      simp

theorem next_index_mod (h cap : Int) (h0 : 0 ≤ h) (h1 : h < cap) (hint : cap ≤ 2147483647) :
    (if wrapInt32 (h + 1) = cap then 0 else wrapInt32 (h + 1)) = (h + 1) % cap := by
  rw [wrapInt32_of_range (h + 1) (by omega) (by omega)]
  split_ifs with hx
  · rw [hx]; simp
  · rw [Int.emod_eq_of_lt (by omega) (by omega)]

theorem pushExec_spin {α : Type} {M : PushMachine α} (hM : IsPushMachine M) (v : α)
    (q : M.V.State) (h0 : 0 ≤ M.V.head q) (h1 : M.V.head q < M.V.cap q)
    (hint : M.V.cap q ≤ 2147483647) (hfull : (M.V.head q + 1) % M.V.cap q = M.V.tail q)
    (env : List (M.V.State → M.V.State))
    (henv : ∀ e ∈ env, ∀ s, M.V.cap (e s) = M.V.cap s ∧ M.V.head (e s) = M.V.head s ∧
      M.V.tail (e s) = M.V.tail s) :
    ∀ (pc : PushPc) (s : M.V.State),
      (pc = PushPc.load_head ∨ pc = PushPc.load_tail (M.V.head q) (M.V.tail q)) →
      (M.V.cap s = M.V.cap q ∧ M.V.head s = M.V.head q ∧ M.V.tail s = M.V.tail q) →
      (pushExec M v env (pc, s)).2 = env.foldl (fun s e => e s) s ∧
      ((pushExec M v env (pc, s)).1 = PushPc.load_head ∨
        (pushExec M v env (pc, s)).1 = PushPc.load_tail (M.V.head q) (M.V.tail q)) := by
  induction env with
  | nil =>
    intro pc s hpc _
    exact ⟨rfl, hpc⟩
  | cons e es ih =>
    intro pc s hpc hs
    have he := henv e (List.mem_cons_self e es) s
    have hes : M.V.cap (e s) = M.V.cap q ∧ M.V.head (e s) = M.V.head q ∧
        M.V.tail (e s) = M.V.tail q :=
      ⟨he.1.trans hs.1, he.2.1.trans hs.2.1, he.2.2.trans hs.2.2⟩
    have hstep : M.step v (pc, e s) = (PushPc.load_tail (M.V.head q) (M.V.tail q), e s) := by
      rcases hpc with hpc | hpc
      · rw [hpc, step_load_head hM, hes.1, hes.2.1, next_index_mod _ _ h0 h1 hint, hfull]
      · rw [hpc, step_load_tail hM, if_pos hes.2.2.symm]
    have hunf : pushExec M v (e :: es) (pc, s) = pushExec M v es (M.step v (pc, e s)) := rfl
    rw [hunf, hstep]
    exact ih (fun e' he' => henv e' (List.mem_cons_of_mem e he')) _ (e s) (Or.inr rfl) hes

/-- C11 (`push` on a full queue never overwrites).  In a state with
`0 ≤ head < C` that is full (`(head + 1) mod C == tail`): the call never completes;
run step by step, with the other thread doing anything between the steps that
leaves `tail` (and the words it never writes, `head` and `C`) as they are, `push`
stays at its loop test and the shared state is exactly what the other thread made
of it.  In any state at all, a step enters the construct point only from a loop
test that has just read a `tail` different from `next_head`, and only the step at
the construct point changes a slot. -/
theorem push_full_never_overwrites {α : Type} (M : PushMachine α) (hM : IsPushMachine M)
    (q : M.V.State) (v : α) (h0 : 0 ≤ M.V.head q) (h1 : M.V.head q < M.V.cap q)
    (hint : M.V.cap q ≤ 2147483647) (hfull : (M.V.head q + 1) % M.V.cap q = M.V.tail q) :
    (∀ fuel, M.V.push fuel q v = none) ∧
    (∀ env : List (M.V.State → M.V.State),
      (∀ e ∈ env, ∀ s, M.V.cap (e s) = M.V.cap s ∧ M.V.head (e s) = M.V.head s ∧
        M.V.tail (e s) = M.V.tail s) →
      (pushExec M v env (PushPc.load_head, q)).2 = env.foldl (fun s e => e s) q ∧
      ((pushExec M v env (PushPc.load_head, q)).1 = PushPc.load_head ∨
        (pushExec M v env (PushPc.load_head, q)).1
          = PushPc.load_tail (M.V.head q) (M.V.tail q))) ∧
    (∀ (pc : PushPc) (s : M.V.State) (h nh : Int),
      (M.step v (pc, s)).1 = PushPc.construct h nh →
      pc = PushPc.load_tail h nh ∧ nh ≠ M.V.tail s) ∧
    (∀ (pc : PushPc) (s : M.V.State), M.V.slot (M.step v (pc, s)).2 ≠ M.V.slot s →
      ∃ h nh, pc = PushPc.construct h nh) := by
  refine ⟨?_, ?_, ?_, ?_⟩
  · intro fuel
    rw [push_char hM, next_index_mod _ _ h0 h1 hint, hfull]
    simp
  · intro env henv
    exact pushExec_spin hM v q h0 h1 hint hfull env henv PushPc.load_head q (Or.inl rfl)
      ⟨rfl, rfl, rfl⟩
  · intro pc s h nh hstep
    cases pc with
    | load_head =>
      rw [step_load_head hM] at hstep
      exact PushPc.noConfusion hstep
    | load_tail h' nh' =>
      rw [step_load_tail hM] at hstep
      by_cases hx : nh' = M.V.tail s
      · rw [if_pos hx] at hstep
        exact PushPc.noConfusion hstep
      · rw [if_neg hx] at hstep
        simp only [PushPc.construct.injEq] at hstep
        obtain ⟨rfl, rfl⟩ := hstep
        exact ⟨rfl, hx⟩
    | construct h' nh' =>
      rw [(step_construct hM v h' nh' s).1] at hstep
      exact PushPc.noConfusion hstep
    | store_head h' nh' =>
      rw [(step_store_head hM v h' nh' s).1] at hstep
      exact PushPc.noConfusion hstep
    | ret =>
      rw [step_ret hM] at hstep
      exact PushPc.noConfusion hstep
  · intro pc s hne
    cases pc with
    | load_head =>
      rw [step_load_head hM] at hne
      exact absurd rfl hne
    | load_tail h' nh' =>
      rw [step_load_tail hM] at hne
      split_ifs at hne <;> exact absurd rfl hne
    | construct h' nh' => exact ⟨h', nh', rfl⟩
    | store_head h' nh' => exact absurd (step_store_head hM v h' nh' s).2.1 hne
    | ret =>
      rw [step_ret hM] at hne
      exact absurd rfl hne

/-- Witness for C11: the fence queue with `Capacity = 4`, `head_ = 3`, `tail_ = 0`
(three elements held).  The other thread peeks three times; `push(9)` is still at
its loop test. -/
theorem push_full_never_overwrites_witness :
    ((3 : Int) + 1) % 4 = 0 ∧
    (∀ fuel, SPSCQueueFence.push fuel
      ({ head_ := 3, tail_ := 0, buf_ := fun _ => some 1 } : SPSCQueueFence Nat 4) 9 = none) ∧
    (pushExec ⟨SPSCQueueFence.variant Nat 4, SPSCQueueFence.push_step⟩ 9
      [fun s => s, fun s => s, fun s => s]
      (PushPc.load_head, { head_ := 3, tail_ := 0, buf_ := fun _ => some 1 })).1
        = PushPc.load_tail 3 0 :=
  ⟨by decide,
    (push_full_never_overwrites ⟨SPSCQueueFence.variant Nat 4, SPSCQueueFence.push_step⟩
      (IsPushMachine.fence 4) { head_ := 3, tail_ := 0, buf_ := fun _ => some 1 } 9
      (by decide) (by decide) (by decide) (by decide)).1,
    by decide⟩

/-! ## Calls: range of the cursors, frame, equivalence of the variants -/

theorem soft_push_inv {α : Type} {fuel : Nat} {q : SPSCQueueSoftArray α} {v : α} {b : Bool}
    {q' : SPSCQueueSoftArray α} (h : SPSCQueueSoftArray.push fuel q v = some (b, q')) :
    q'.cap_ = q.cap_ ∧ q'.tail_ = q.tail_ ∧
    q'.head_ = (if wrapInt32 (q.head_ + 1) = q.cap_ then 0 else wrapInt32 (q.head_ + 1)) ∧
    q'.buf_ = (fun i => if i = q.head_ then some v else q.buf_ i) := by
  unfold SPSCQueueSoftArray.push at h
  simp only at h
  split_ifs at h <;>
    (simp only [Option.some.injEq, Prod.mk.injEq] at h
     obtain ⟨-, rfl⟩ := h
     simp_all)

theorem soft_pop_buf {α : Type} (q : SPSCQueueSoftArray α) :
    (SPSCQueueSoftArray.pop q).buf_ = (fun i => if i = q.tail_ then none else q.buf_ i) :=
  rfl

theorem sim_push_some {α : Type} {V : Variant α} {abs : V.State → SPSCQueueSoftArray α}
    (hs : Sim V abs) {fuel : Nat} {s : V.State} {v : α} {b : Bool} {s' : V.State}
    (hp : V.push fuel s v = some (b, s')) :
    SPSCQueueSoftArray.push fuel (abs s) v = some (b, abs s') := by
  have he := hs.push_eq fuel s v
  rw [hp] at he
  exact he.symm

theorem exec_push_inv {α : Type} {V : Variant α} {fuel : Nat} {v : α} {s : V.State}
    {r : Result α} {s' : V.State} (h : exec V fuel (Call.push v) s = some (r, s')) :
    ∃ ok, V.push fuel s v = some (ok, s') ∧ r = Result.push ok := by
  simp only [exec] at h
  cases hp : V.push fuel s v with
  | none => simp [hp] at h
  | some x =>
    obtain ⟨ok, s1⟩ := x
    simp only [hp, Option.some.injEq, Prod.mk.injEq] at h
    exact ⟨ok, by rw [h.2], h.1.symm⟩

theorem exec_front_inv {α : Type} {V : Variant α} {fuel : Nat} {s : V.State}
    {r : Result α} {s' : V.State} (h : exec V fuel Call.front s = some (r, s')) :
    s' = s ∧ r = Result.front ((V.front s).map (fun p => (p, V.slot s p))) := by
  simp only [exec] at h
  cases hf : V.front s with
  | none =>
    simp only [hf, Option.some.injEq, Prod.mk.injEq] at h
    exact ⟨h.2.symm, by simp [h.1]⟩
  | some p =>
    simp only [hf, Option.some.injEq, Prod.mk.injEq] at h
    exact ⟨h.2.symm, by simp [h.1]⟩

/-- C12 (index-range invariant).  For each variant, a state with both cursors in
`[0, C)` (`C` an `int`) is taken by every completed `push`, `front`, `pop`, `size`
or `capacity` call to a state with both cursors in `[0, C)` and the same `C`; the
slot `push` constructs into is the one of index old `head`, the pointer `front()`
returns points at the slot of index `tail`, the slot `pop` destructs is the one of
index old `tail`, all of them inside `[0, C)`; and a fresh queue has both cursors in
`[0, C)`. -/
theorem index_range_invariant {α : Type} (V : Variant α) (hV : IsVariant V) (s : V.State)
    (hr : CursorsInRange V s) (hint : V.cap s ≤ 2147483647) (fuel : Nat) (c : Call α)
    (r : Result α) (s' : V.State) (hexec : exec V fuel c s = some (r, s')) :
    (CursorsInRange V s' ∧ V.cap s' = V.cap s) ∧
    (∀ v, c = Call.push v →
      V.slot s' = (fun i => if i = V.head s then some v else V.slot s i) ∧
      0 ≤ V.head s ∧ V.head s < V.cap s) ∧
    (∀ p x, r = Result.front (some (p, x)) → p = V.tail s ∧ 0 ≤ p ∧ p < V.cap s) ∧
    (c = Call.pop →
      V.slot s' = (fun i => if i = V.tail s then none else V.slot s i) ∧
      0 ≤ V.tail s ∧ V.tail s < V.cap s) ∧
    (∀ q0, Fresh V q0 → CursorsInRange V q0 ∧ V.cap q0 ≤ 2147483647) := by
  obtain ⟨abs, hs⟩ := isVariant_sim hV
  obtain ⟨⟨h0, h1⟩, ⟨t0, t1⟩⟩ := hr
  have hfresh : ∀ q0, Fresh V q0 → CursorsInRange V q0 ∧ V.cap q0 ≤ 2147483647 := by
    intro q0 hq0
    obtain ⟨abs0, hs0, hc, hh, ht, -⟩ := fresh_sim hq0
    unfold CursorsInRange
    rw [hs0.head_eq, hs0.tail_eq, hs0.cap_eq]
    exact ⟨⟨hh, ht⟩, hc⟩
  cases c with
  | push v =>
    obtain ⟨ok, hp, hres⟩ := exec_push_inv hexec
    obtain ⟨hc, ht, hh, hb⟩ := soft_push_inv (sim_push_some hs hp)
    simp only [hs.head_eq, hs.cap_eq] at h0 h1 hint
    rw [next_index_mod _ _ h0 h1 hint] at hh
    refine ⟨⟨⟨⟨?_, ?_⟩, ?_, ?_⟩, ?_⟩, ?_, ?_, ?_, hfresh⟩
    · rw [hs.head_eq, hh]; exact Int.emod_nonneg _ (by omega)
    · rw [hs.head_eq, hs.cap_eq, hh, hc]; exact Int.emod_lt_of_pos _ (by omega)
    · rw [hs.tail_eq, ht, ← hs.tail_eq]; exact t0
    · rw [hs.tail_eq, hs.cap_eq, ht, hc, ← hs.tail_eq, ← hs.cap_eq]; exact t1
    · rw [hs.cap_eq, hs.cap_eq, hc]
    · intro w hw
      cases hw
      refine ⟨?_, ?_, ?_⟩
      · rw [hs.slot_eq, hs.slot_eq, hs.head_eq, hb]
      · rw [hs.head_eq]; exact h0
      · rw [hs.head_eq, hs.cap_eq]; exact h1
    · intro p x hpx
      rw [hres] at hpx
      cases hpx
    · intro hc'
      cases hc'
  | front =>
    obtain ⟨rfl, hres⟩ := exec_front_inv hexec
    refine ⟨⟨⟨⟨h0, h1⟩, t0, t1⟩, rfl⟩, ?_, ?_, ?_, hfresh⟩
    · intro v hv
      cases hv
    · intro p x hpx
      rw [hres] at hpx
      simp only [Result.front.injEq] at hpx
      have hf : V.front s' = some p := by
        cases hfr : V.front s' with
        | none => simp [hfr] at hpx
        | some p' =>
          simp only [hfr, Option.map_some', Option.some.injEq, Prod.mk.injEq] at hpx
          rw [hpx.1]
      rw [hs.front_eq] at hf
      unfold SPSCQueueSoftArray.front at hf
      simp only at hf
      split_ifs at hf
      simp only [Option.some.injEq] at hf
      rw [← hs.tail_eq] at hf
      rw [← hf]
      exact ⟨rfl, t0, t1⟩
    · intro hc'
      cases hc'
  | pop =>
    simp only [exec, Option.some.injEq, Prod.mk.injEq] at hexec
    obtain ⟨hres, rfl⟩ := hexec
    simp only [hs.tail_eq, hs.cap_eq] at t0 t1 hint
    obtain ⟨-, -, ht, hh, hc⟩ := soft_pop_post (abs s) t0 t1 hint
    rw [← hs.pop_eq] at ht hh hc
    refine ⟨⟨⟨⟨?_, ?_⟩, ?_, ?_⟩, ?_⟩, ?_, ?_, ?_, hfresh⟩
    · rw [hs.head_eq, hh, ← hs.head_eq]; exact h0
    · rw [hs.head_eq, hs.cap_eq, hh, hc, ← hs.head_eq, ← hs.cap_eq]; exact h1
    · rw [hs.tail_eq, ht]; exact Int.emod_nonneg _ (by omega)
    · rw [hs.tail_eq, hs.cap_eq, ht, hc]; exact Int.emod_lt_of_pos _ (by omega)
    · rw [hs.cap_eq, hs.cap_eq, hc]
    · intro v hv
      cases hv
    · intro p x hpx
      rw [← hres] at hpx
      cases hpx
    · intro _
      refine ⟨?_, ?_, ?_⟩
      · rw [hs.slot_eq, hs.slot_eq, hs.pop_eq, hs.tail_eq]
        rfl
      · rw [hs.tail_eq]; exact t0
      · rw [hs.tail_eq, hs.cap_eq]; exact t1
  | size =>
    simp only [exec, Option.some.injEq, Prod.mk.injEq] at hexec
    obtain ⟨hres, rfl⟩ := hexec
    refine ⟨⟨⟨⟨h0, h1⟩, t0, t1⟩, rfl⟩, ?_, ?_, ?_, hfresh⟩
    · intro v hv
      cases hv
    · intro p x hpx
      rw [← hres] at hpx
      cases hpx
    · intro hc'
      cases hc'
  | capacity =>
    simp only [exec, Option.some.injEq, Prod.mk.injEq] at hexec
    obtain ⟨hres, rfl⟩ := hexec
    refine ⟨⟨⟨⟨h0, h1⟩, t0, t1⟩, rfl⟩, ?_, ?_, ?_, hfresh⟩
    · intro v hv
      cases hv
    · intro p x hpx
      rw [← hres] at hpx
      cases hpx
    · intro hc'
      cases hc'

/-- Witness for C12: the co-located queue with four slots, `head_ = 3`,
`tail_ = 1`, and the call `push(5)`, which wraps `head_` to 0. -/
theorem index_range_invariant_witness :
    ∃ s', exec (SPSCQueueSoftArray.variant Nat) 1 (Call.push 5)
        { cap_ := 4, head_ := 3, tail_ := 1, buf_ := fun _ => none }
          = some (Result.push true, s') ∧
      CursorsInRange (SPSCQueueSoftArray.variant Nat)
        { cap_ := 4, head_ := 3, tail_ := 1, buf_ := fun _ => none } ∧
      (CursorsInRange (SPSCQueueSoftArray.variant Nat) s' ∧ s'.cap_ = 4) ∧ s'.head_ = 0 :=
  ⟨_, rfl, ⟨⟨by decide, by decide⟩, by decide, by decide⟩,
    (index_range_invariant (SPSCQueueSoftArray.variant Nat) IsVariant.softArray
      { cap_ := 4, head_ := 3, tail_ := 1, buf_ := fun _ => none }
      ⟨⟨by decide, by decide⟩, by decide, by decide⟩ (by decide) 1 (Call.push 5)
      (Result.push true) _ rfl).1, rfl⟩

/-- C18 (cursor ownership).  In each variant a completed `push` leaves `tail` as it
was, `pop` leaves `head` as it was, and `front`, `size` and `capacity` leave both;
so a call that changes `head` is a `push` and a call that changes `tail` is a
`pop`. -/
theorem cursor_ownership {α : Type} (V : Variant α) (hV : IsVariant V) (fuel : Nat)
    (c : Call α) (s : V.State) (r : Result α) (s' : V.State)
    (hexec : exec V fuel c s = some (r, s')) :
    ((∃ v, c = Call.push v) → V.tail s' = V.tail s) ∧
    (c = Call.pop → V.head s' = V.head s) ∧
    (c = Call.front ∨ c = Call.size ∨ c = Call.capacity →
      V.head s' = V.head s ∧ V.tail s' = V.tail s) ∧
    (V.head s' ≠ V.head s → ∃ v, c = Call.push v) ∧
    (V.tail s' ≠ V.tail s → c = Call.pop) := by
  obtain ⟨abs, hs⟩ := isVariant_sim hV
  cases c with
  | push v =>
    obtain ⟨ok, hp, -⟩ := exec_push_inv hexec
    obtain ⟨-, ht, -, -⟩ := soft_push_inv (sim_push_some hs hp)
    have htail : V.tail s' = V.tail s := by rw [hs.tail_eq, hs.tail_eq, ht]
    refine ⟨fun _ => htail, ?_, ?_, fun _ => ⟨v, rfl⟩, fun h => absurd htail h⟩
    · intro hc
      cases hc
    · intro hc
      rcases hc with hc | hc | hc <;> cases hc
  | front =>
    obtain ⟨rfl, -⟩ := exec_front_inv hexec
    exact ⟨fun _ => rfl, fun _ => rfl, fun _ => ⟨rfl, rfl⟩, fun h => absurd rfl h,
      fun h => absurd rfl h⟩
  | pop =>
    simp only [exec, Option.some.injEq, Prod.mk.injEq] at hexec
    obtain ⟨-, rfl⟩ := hexec
    have hhead : V.head (V.pop s) = V.head s := by
      rw [hs.head_eq, hs.pop_eq, hs.head_eq]
      rfl
    refine ⟨?_, fun _ => hhead, ?_, fun h => absurd hhead h, fun _ => rfl⟩
    · intro hc
      obtain ⟨v, hc⟩ := hc
      cases hc
    · intro hc
      rcases hc with hc | hc | hc <;> cases hc
  | size =>
    simp only [exec, Option.some.injEq, Prod.mk.injEq] at hexec
    obtain ⟨-, rfl⟩ := hexec
    exact ⟨fun _ => rfl, fun _ => rfl, fun _ => ⟨rfl, rfl⟩, fun h => absurd rfl h,
      fun h => absurd rfl h⟩
  | capacity =>
    simp only [exec, Option.some.injEq, Prod.mk.injEq] at hexec
    obtain ⟨-, rfl⟩ := hexec
    exact ⟨fun _ => rfl, fun _ => rfl, fun _ => ⟨rfl, rfl⟩, fun h => absurd rfl h,
      fun h => absurd rfl h⟩

/-- Witness for C18: `pop()` on the separate-allocation queue with `head_ = 2`,
`tail_ = 0`. -/
theorem cursor_ownership_witness :
    ∃ s', exec (SPSCQueue.variant Nat) 1 Call.pop
        { cap_ := 4, head_ := 2, tail_ := 0, buf_ := fun _ => some 1 }
          = some (Result.pop, s') ∧
      s'.tail_ = 1 ∧ ((Call.pop : Call Nat) = Call.pop → s'.head_ = 2) :=
  ⟨_, rfl, rfl,
    (cursor_ownership (SPSCQueue.variant Nat) IsVariant.separate 1 Call.pop
      { cap_ := 4, head_ := 2, tail_ := 0, buf_ := fun _ => some 1 } Result.pop _ rfl).2.1⟩

/-- C19 (`front` is a non-destructive peek).  In every state of each variant a
`front()` call leaves `head`, `tail` and every slot as they were; a second
`front()` right after it returns the same result; `size()` is the same before and
after. -/
theorem front_peek {α : Type} (V : Variant α) (hV : IsVariant V) (fuel : Nat)
    (s : V.State) (r : Result α) (s' : V.State)
    (hexec : exec V fuel Call.front s = some (r, s')) :
    V.head s' = V.head s ∧ V.tail s' = V.tail s ∧ (∀ i, V.slot s' i = V.slot s i) ∧
    V.cap s' = V.cap s ∧
    (∃ s'', exec V fuel Call.front s' = some (r, s'')) ∧
    V.size s' = V.size s ∧
    (∃ p, r = Result.front p) := by
  have _hV := hV
  obtain ⟨rfl, hres⟩ := exec_front_inv hexec
  exact ⟨rfl, rfl, fun _ => rfl, rfl, ⟨s', hexec⟩, rfl, ⟨_, hres⟩⟩

/-- Witness for C19: the fence queue with `Capacity = 4`, `head_ = 2`,
`tail_ = 1`; `front()` points at slot 1. -/
theorem front_peek_witness :
    ∃ s', exec (SPSCQueueFence.variant Nat 4) 1 Call.front
        { head_ := 2, tail_ := 1, buf_ := fun i => if i = 1 then some 8 else none }
          = some (Result.front (some (1, some 8)), s') ∧
      s'.head_ = 2 ∧ s'.tail_ = 1 ∧ SPSCQueueFence.size s' = 1 ∧
      ∃ s'', exec (SPSCQueueFence.variant Nat 4) 1 Call.front s'
        = some (Result.front (some (1, some 8)), s'') :=
  ⟨_, rfl, rfl, rfl, by decide,
    (front_peek (SPSCQueueFence.variant Nat 4) (IsVariant.fence 4) 1
      { head_ := 2, tail_ := 1, buf_ := fun i => if i = 1 then some 8 else none }
      (Result.front (some (1, some 8))) _ rfl).2.2.2.2.1⟩

/-- C20 (a freshly created queue is empty).  Right after `SPSCQueue(cap)`, after a
successful `SPSCQueueSoftArray::create(cap)` and after a successful
`SPSCQueueFence<T, Capacity>::create()`, for every `cap` and `Capacity`:
`head_ == tail_ == 0`, `front()` is null and `size()` is 0. -/
theorem fresh_queue_empty {α : Type} (cap : Int) (raw : Nat) (Capacity : Nat) :
    ((SPSCQueue.construct cap : SPSCQueue α).head_ = 0 ∧
      (SPSCQueue.construct cap : SPSCQueue α).tail_ = 0 ∧
      SPSCQueue.front (SPSCQueue.construct cap : SPSCQueue α) = none ∧
      SPSCQueue.size (SPSCQueue.construct cap : SPSCQueue α) = 0) ∧
    (∃ q : SPSCQueueSoftArray α, SPSCQueueSoftArray.create (some raw) cap = some q ∧
      q.head_ = 0 ∧ q.tail_ = 0 ∧ SPSCQueueSoftArray.front q = none ∧
      SPSCQueueSoftArray.size q = 0) ∧
    (∃ q : SPSCQueueFence α Capacity, SPSCQueueFence.create (some raw) = some q ∧
      q.head_ = 0 ∧ q.tail_ = 0 ∧ SPSCQueueFence.front q = none ∧
      SPSCQueueFence.size q = 0) := by
  refine ⟨⟨rfl, rfl, rfl, ?_⟩, ⟨_, rfl, rfl, rfl, rfl, ?_⟩, ⟨_, rfl, rfl, rfl, rfl, ?_⟩⟩
  · simp [SPSCQueue.size, SPSCQueue.construct, wrapInt32, toSizeT]
  · simp [SPSCQueueSoftArray.size, SPSCQueueSoftArray.construct, wrapInt32, toSizeT]
  · simp [SPSCQueueFence.size, SPSCQueueFence.construct, wrapInt32, toSizeT]

/-- C15 (`destroy` on a null handle).  `SPSCQueueSoftArray::destroy(nullptr)` and
`SPSCQueueFence::destroy(nullptr)` return at once: no `front()`, no `pop()`, no
destructor call, no deallocation, whatever the bound on the drain loop. -/
theorem destroy_null {α : Type} (Capacity : Nat) (fuel : Nat) :
    SPSCQueueSoftArray.destroy fuel (none : Option (SPSCQueueSoftArray α)) = some [] ∧
    SPSCQueueFence.destroy fuel (none : Option (SPSCQueueFence α Capacity)) = some [] :=
  ⟨rfl, rfl⟩

theorem exec_sim {α : Type} {V : Variant α} {abs : V.State → SPSCQueueSoftArray α}
    (hs : Sim V abs) (fuel : Nat) (c : Call α) (s : V.State)
    (hsz : c ≠ Call.size ∨ ∀ t, V.size t = SPSCQueueSoftArray.size (abs t)) :
    (exec V fuel c s).map (fun x => (x.1, abs x.2))
      = exec (SPSCQueueSoftArray.variant α) fuel c (abs s) := by
  cases c with
  | push v =>
    have hp := hs.push_eq fuel s v
    simp only [exec]
    cases hv : V.push fuel s v with
    | none =>
      rw [hv] at hp
      simp only [Option.map_none'] at hp
      simp [← hp]
    | some x =>
      obtain ⟨ok, s1⟩ := x
      rw [hv] at hp
      simp only [Option.map_some'] at hp
      simp [← hp]
  | front =>
    simp only [exec]
    rw [hs.front_eq s, hs.slot_eq s]
    cases SPSCQueueSoftArray.front (abs s) <;> rfl
  | pop =>
    simp only [exec, Option.map_some']
    rw [hs.pop_eq s]
  | size =>
    rcases hsz with hne | heq
    · exact absurd rfl hne
    · simp only [exec, Option.map_some']
      rw [heq s]
  | capacity =>
    simp only [exec, Option.map_some']
    rw [hs.cap_eq s]
    rfl

theorem trace_sim {α : Type} {V : Variant α} {abs : V.State → SPSCQueueSoftArray α}
    (hs : Sim V abs) (fuel : Nat) (calls : List (Call α))
    (hsz : (∀ c ∈ calls, c ≠ Call.size) ∨ ∀ t, V.size t = SPSCQueueSoftArray.size (abs t)) :
    ∀ s : V.State, trace V fuel s calls
      = trace (SPSCQueueSoftArray.variant α) fuel (abs s) calls := by
  induction calls with
  | nil => intro s; rfl
  | cons c cs ih =>
    intro s
    have hc : c ≠ Call.size ∨ ∀ t, V.size t = SPSCQueueSoftArray.size (abs t) := by
      rcases hsz with h | h
      · exact Or.inl (h c (List.mem_cons_self c cs))
      · exact Or.inr h
    have hcs : (∀ c ∈ cs, c ≠ Call.size) ∨
        ∀ t, V.size t = SPSCQueueSoftArray.size (abs t) := by
      rcases hsz with h | h
      · exact Or.inl (fun c' hc' => h c' (List.mem_cons_of_mem c hc'))
      · exact Or.inr h
    have he := exec_sim hs fuel c s hc
    simp only [trace]
    cases hx : exec V fuel c s with
    | none =>
      rw [hx] at he
      simp only [Option.map_none'] at he
      simp [← he]
    | some x =>
      obtain ⟨r, s1⟩ := x
      rw [hx] at he
      simp only [Option.map_some'] at he
      simp only [← he]
      rw [ih hcs s1]

/-- C16, the claim as stated fails at `C = 2^31`, a value the `uint32_t` template
argument can take: `SPSCQueueFence<T, 2147483648>::capacity()` is
`static_cast<int>(2147483648) = -2147483648`, while the queue made by
`create(2147483647)`, and any queue made by `create`, has a `capacity()` of at
least 4. -/
theorem strategy_equivalence_counterexample :
    (∃ qs : SPSCQueueSoftArray Nat,
      SPSCQueueSoftArray.create (some 4096) (2147483648 - 1) = some qs ∧
      trace (SPSCQueueSoftArray.variant Nat) 1 qs [Call.capacity]
        ≠ trace (SPSCQueueFence.variant Nat 2147483648) 1 SPSCQueueFence.construct
            [Call.capacity]) ∧
    trace (SPSCQueueFence.variant Nat 2147483648) 1 SPSCQueueFence.construct [Call.capacity]
      = [some (Result.capacity (-2147483648))] ∧
    ¬ ∃ (cap : Int) (raw : Nat) (qs : SPSCQueueSoftArray Nat),
      SPSCQueueSoftArray.create (some raw) cap = some qs ∧
      trace (SPSCQueueSoftArray.variant Nat) 1 qs [Call.capacity]
        = trace (SPSCQueueFence.variant Nat 2147483648) 1 SPSCQueueFence.construct
            [Call.capacity] := by
  have hf : trace (SPSCQueueFence.variant Nat 2147483648) 1 SPSCQueueFence.construct
      [Call.capacity] = [some (Result.capacity (-2147483648))] := by decide
  have hno : ¬ ∃ (cap : Int) (raw : Nat) (qs : SPSCQueueSoftArray Nat),
      SPSCQueueSoftArray.create (some raw) cap = some qs ∧
      trace (SPSCQueueSoftArray.variant Nat) 1 qs [Call.capacity]
        = trace (SPSCQueueFence.variant Nat 2147483648) 1 SPSCQueueFence.construct
            [Call.capacity] := by
    rintro ⟨cap, raw, qs, hq, ht⟩
    obtain ⟨-, h4⟩ := rep_create hq
    rw [hf] at ht
    simp only [trace, exec, List.cons.injEq, Option.some.injEq, Result.capacity.injEq,
      and_true] at ht
    have : qs.cap_ = -2147483648 := ht
    omega
  have hcap : max (wrapInt32 (2147483648 - 1 + 1)) 4 = (4 : Int) := by decide
  have hcreate : SPSCQueueSoftArray.create (some 4096) (2147483648 - 1)
      = some (SPSCQueueSoftArray.construct 4 : SPSCQueueSoftArray Nat) := by
    simp only [SPSCQueueSoftArray.create, hcap]
  refine ⟨⟨SPSCQueueSoftArray.construct 4, hcreate, ?_⟩, hf, hno⟩
  intro heq
  exact hno ⟨2147483648 - 1, 4096, SPSCQueueSoftArray.construct 4, hcreate, heq⟩

/-- C16 as amended.  For `4 ≤ C ≤ 2^31 - 1`, the co-located queue made by
`create(C - 1)` and the fence queue with `Capacity = C` give the same results on
every sequence of `push`, `front`, `pop`, `size` and `capacity` calls: each call
completes on one exactly when it completes on the other, with the same result.  In
particular every run reads the same values on both, and when everything pushed has
been popped these are the pushed values in push order. -/
theorem strategy_equivalence {α : Type} (C : Nat) (h4 : 4 ≤ C) (hC : C ≤ 2147483647)
    (raw1 raw2 : Nat) (qs : SPSCQueueSoftArray α)
    (hqs : SPSCQueueSoftArray.create (some raw1) ((C : Int) - 1) = some qs)
    (qf : SPSCQueueFence α C) (hqf : SPSCQueueFence.create (some raw2) = some qf)
    (fuel : Nat) :
    (∀ calls : List (Call α),
      trace (SPSCQueueSoftArray.variant α) fuel qs calls
        = trace (SPSCQueueFence.variant α C) fuel qf calls) ∧
    (∀ ops : List (Op α),
      (run (SPSCQueueSoftArray.variant α) fuel qs ops).map Prod.fst
        = (run (SPSCQueueFence.variant α C) fuel qf ops).map Prod.fst) ∧
    (∀ (ops : List (Op α)) (obs : List (Option α)) (q : SPSCQueueFence α C),
      run (SPSCQueueFence.variant α C) fuel qf ops = some (obs, q) →
      pops ops = (pushed ops).length → obs = (pushed ops).map some) := by
  have hw : wrapInt32 (C : Int) = C := wrapInt32_of_range _ (by omega) (by omega)
  have hw2 : wrapInt32 ((C : Int) - 1 + 1) = C := by
    rw [show (C : Int) - 1 + 1 = C by omega]
    exact hw
  have habs : SPSCQueueFence.toSoft qf = qs := by
    have hmax : max (wrapInt32 ((C : Int) - 1 + 1)) 4 = (C : Int) := by
      rw [hw2]
      omega
    simp only [SPSCQueueFence.create, Option.some.injEq] at hqf
    simp only [SPSCQueueSoftArray.create, Option.some.injEq] at hqs
    rw [hmax] at hqs
    subst hqf
    subst hqs
    simp only [SPSCQueueFence.toSoft, SPSCQueueFence.construct, SPSCQueueSoftArray.construct,
      hw]
  refine ⟨?_, ?_, ?_⟩
  · intro calls
    rw [trace_sim (sim_fence α C) fuel calls (Or.inr (fun _ => rfl)) qf, habs]
  · intro ops
    have h := run_sim (sim_fence α C) fuel ops qf
    rw [habs] at h
    rw [← h]
    cases run (SPSCQueueFence.variant α C) fuel qf ops <;> rfl
  · intro ops obs q hrun hall
    obtain ⟨abs, l, -, -, happ, hlen⟩ :=
      run_fresh (Fresh.fence C raw2 qf (by omega) hC hqf) hrun
    have hl := congrArg List.length happ
    simp only [List.length_append, List.length_map, hlen, hall] at hl
    have hnil : l = [] := List.length_eq_zero.mp (by omega)
    rw [hnil] at happ
    simpa using happ

/-- Witness for the amended C16: `C = 4`; `create(3)` against
`SPSCQueueFence<T, 4>`, on a sequence with a blocked fifth push. -/
theorem strategy_equivalence_witness :
    trace (SPSCQueueSoftArray.variant Nat) 1 (SPSCQueueSoftArray.construct 4)
        [Call.capacity, Call.push 0, Call.push 1, Call.size, Call.front, Call.pop,
          Call.push 2, Call.push 3, Call.size, Call.push 4, Call.front]
      = [some (Result.capacity 4), some (Result.push true), some (Result.push true),
          some (Result.size 2), some (Result.front (some (0, some 0))), some Result.pop,
          some (Result.push true), some (Result.push true), some (Result.size 3), none] ∧
    trace (SPSCQueueSoftArray.variant Nat) 1 (SPSCQueueSoftArray.construct 4)
        [Call.capacity, Call.push 0, Call.push 1, Call.size, Call.front, Call.pop,
          Call.push 2, Call.push 3, Call.size, Call.push 4, Call.front]
      = trace (SPSCQueueFence.variant Nat 4) 1 SPSCQueueFence.construct
        [Call.capacity, Call.push 0, Call.push 1, Call.size, Call.front, Call.pop,
          Call.push 2, Call.push 3, Call.size, Call.push 4, Call.front] :=
  ⟨by decide,
    (strategy_equivalence 4 (by decide) (by decide) 4096 8192 (SPSCQueueSoftArray.construct 4)
      rfl SPSCQueueFence.construct rfl 1).1 _⟩

/-- C17 (storage-form equivalence).  For every requested capacity, the
separate-allocation queue `SPSCQueue(cap)` and the co-located queue made by
`create(cap)` give the same results on every sequence of `push`, `front` and `pop`
calls: the same pushes block, and every `front()` is null on both or points on both
at the slot of the same index holding the same value. -/
theorem storage_form_equivalence {α : Type} (cap : Int) (raw : Nat)
    (qs : SPSCQueueSoftArray α) (hqs : SPSCQueueSoftArray.create (some raw) cap = some qs)
    (fuel : Nat) (calls : List (Call α)) (hcalls : calls.all Call.isPushFrontPop = true) :
    trace (SPSCQueue.variant α) fuel (SPSCQueue.construct cap) calls
      = trace (SPSCQueueSoftArray.variant α) fuel qs calls := by
  have habs : SPSCQueue.toSoft (SPSCQueue.construct cap : SPSCQueue α) = qs := by
    simp only [SPSCQueueSoftArray.create, Option.some.injEq] at hqs
    subst hqs
    rfl
  rw [trace_sim (sim_separate α) fuel calls (Or.inl ?_) (SPSCQueue.construct cap), habs]
  intro c hc hsize
  rw [List.all_eq_true] at hcalls
  have := hcalls c hc
  rw [hsize] at this
  exact Bool.noConfusion this

/-- Witness for C17: the functionality test of `memory_layout_test.cc`, requested
capacity 1024: push 42, push 100, front, pop, front, pop. -/
theorem storage_form_equivalence_witness :
    trace (SPSCQueue.variant Nat) 1 (SPSCQueue.construct 1024)
        [Call.push 42, Call.push 100, Call.front, Call.pop, Call.front, Call.pop]
      = [some (Result.push true), some (Result.push true),
          some (Result.front (some (0, some 42))), some Result.pop,
          some (Result.front (some (1, some 100))), some Result.pop] ∧
    trace (SPSCQueue.variant Nat) 1 (SPSCQueue.construct 1024)
        [Call.push 42, Call.push 100, Call.front, Call.pop, Call.front, Call.pop]
      = trace (SPSCQueueSoftArray.variant Nat) 1 (SPSCQueueSoftArray.construct 1025)
        [Call.push 42, Call.push 100, Call.front, Call.pop, Call.front, Call.pop] :=
  ⟨by decide,
    storage_form_equivalence 1024 4096 (SPSCQueueSoftArray.construct 1025) rfl 1
      [Call.push 42, Call.push 100, Call.front, Call.pop, Call.front, Call.pop] (by decide)⟩

/-! ## Lifetimes of the elements -/

theorem emod_sub_range (a b c : Int) (ha0 : 0 ≤ a) (ha1 : a < c) (hb0 : 0 ≤ b) (hb1 : b < c) :
    (a - b) % c = if b ≤ a then a - b else a - b + c := by
  split_ifs with h
  · exact Int.emod_eq_of_lt (by omega) (by omega)
  · rw [← Int.add_emod_self, Int.emod_eq_of_lt (by omega) (by omega)]

theorem rep_slot_live {α : Type} {q : SPSCQueueSoftArray α} {l : List α} (h : Rep q l)
    (i : Int) : (q.buf_ i).isSome = true ↔ inLive q.cap_ q.tail_ q.head_ i := by
  obtain ⟨hc, ⟨h1, h2⟩, ⟨h3, h4⟩, hlen, hbuf⟩ := h
  unfold inLive
  rw [hbuf i]
  by_cases hr : 0 ≤ i ∧ i < q.cap_
  · obtain ⟨hr1, hr2⟩ := hr
    rw [if_pos ⟨hr1, hr2⟩, emod_sub_range i q.tail_ q.cap_ hr1 hr2 h3 h4,
      emod_sub_range q.head_ q.tail_ q.cap_ h1 h2 h3 h4]
    have hoff : (ringOff q.cap_ q.tail_ i : Int)
        = if q.tail_ ≤ i then i - q.tail_ else i - q.tail_ + q.cap_ := by
      unfold ringOff
      split_ifs <;> omega
    by_cases hk : ringOff q.cap_ q.tail_ i < l.length
    · rw [List.getElem?_eq_getElem hk]
      simp only [Option.isSome_some, true_iff]
      refine ⟨⟨hr1, hr2⟩, ?_⟩
      rw [← hoff]
      split_ifs at hlen ⊢ <;> omega
    · rw [List.getElem?_eq_none (by omega)]
      simp only [Option.isSome_none, Bool.false_eq_true, false_iff, not_and, not_lt]
      intro _
      rw [← hoff]
      split_ifs at hlen ⊢ <;> omega
  · rw [if_neg hr]
    simp only [Option.isSome_none, Bool.false_eq_true, false_iff, not_and]
    intro hr'
    exact absurd hr' hr

theorem lifeOk_congr (es : List LifeEvent) :
    ∀ (live live' : Int → Bool), (∀ i, live i = live' i) →
      lifeOk es live = lifeOk es live' ∧ ∀ i, lifeAfter es live i = lifeAfter es live' i := by
  induction es with
  | nil =>
    intro live live' h
    exact ⟨rfl, h⟩
  | cons e es ih =>
    intro live live' h
    cases e with
    | construct k =>
      have hi := ih (fun j => if j = k then true else live j)
        (fun j => if j = k then true else live' j) (fun j => by simp only [h j])
      simp only [lifeOk, lifeAfter, h k, hi.1]
      exact ⟨trivial, hi.2⟩
    | destruct k =>
      have hi := ih (fun j => if j = k then false else live j)
        (fun j => if j = k then false else live' j) (fun j => by simp only [h j])
      simp only [lifeOk, lifeAfter, h k, hi.1]
      exact ⟨trivial, hi.2⟩

theorem lifeOk_append (es es' : List LifeEvent) :
    ∀ live : Int → Bool,
      lifeOk (es ++ es') live = (lifeOk es live && lifeOk es' (lifeAfter es live)) ∧
      lifeAfter (es ++ es') live = lifeAfter es' (lifeAfter es live) := by
  induction es with
  | nil =>
    intro live
    exact ⟨by simp [lifeOk, lifeAfter], rfl⟩
  | cons e es ih =>
    intro live
    cases e with
    | construct k =>
      have hi := ih (fun j => if j = k then true else live j)
      constructor
      · show (!live k && lifeOk (es ++ es') (fun j => if j = k then true else live j)) = _
        rw [hi.1]
        simp only [lifeOk, lifeAfter, Bool.and_assoc]
      · exact hi.2
    | destruct k =>
      have hi := ih (fun j => if j = k then false else live j)
      constructor
      · show (live k && lifeOk (es ++ es') (fun j => if j = k then false else live j)) = _
        rw [hi.1]
        simp only [lifeOk, lifeAfter, Bool.and_assoc]
      · exact hi.2

theorem rep_head_raw {α : Type} {q : SPSCQueueSoftArray α} {l : List α} (h : Rep q l) :
    q.buf_ q.head_ = none := by
  have hoff := rep_head_slot h
  obtain ⟨-, ⟨h1, h2⟩, -, -, hbuf⟩ := h
  rw [hbuf q.head_, if_pos ⟨h1, h2⟩, hoff]
  exact List.getElem?_eq_none (le_refl _)

theorem run_life {α : Type} {V : Variant α} {abs : V.State → SPSCQueueSoftArray α}
    (hs : Sim V abs) (fuel : Nat) (ops : List (Op α)) :
    ∀ (s : V.State) (l : List α) (live : Int → Bool), Rep (abs s) l →
      (∀ i, live i = ((abs s).buf_ i).isSome) →
      ∀ (obs : List (Option α)) (q : V.State), run V fuel s ops = some (obs, q) →
        lifeOk (lifeLog V fuel s ops) live = true ∧
        ∀ i, lifeAfter (lifeLog V fuel s ops) live i = ((abs q).buf_ i).isSome := by
  induction ops with
  | nil =>
    intro s l live _ hlive obs q hr
    simp only [run, Option.some.injEq, Prod.mk.injEq] at hr
    obtain ⟨-, rfl⟩ := hr
    exact ⟨rfl, hlive⟩
  | cons op ops ih =>
    intro s l live hrep hlive obs q hr
    cases op with
    | push v =>
      simp only [run] at hr
      cases hv : V.push fuel s v with
      | none => simp [hv] at hr
      | some x =>
        obtain ⟨b, s1⟩ := x
        simp only [hv] at hr
        have hsoft := sim_push_some hs hv
        obtain ⟨-, hrep1, -, -, -⟩ := rep_push_some hrep hsoft
        obtain ⟨-, -, -, hbuf⟩ := soft_push_inv hsoft
        have hlive1 : ∀ i, (fun j => if j = V.head s then true else live j) i
            = ((abs s1).buf_ i).isSome := by
          intro i
          rw [hbuf, hs.head_eq]
          by_cases hi : i = (abs s).head_
          · simp [hi]
          · simp [hi, hlive i]
        obtain ⟨h1, h2⟩ := ih s1 (l ++ [v]) _ hrep1 hlive1 obs q hr
        have hraw : live (V.head s) = false := by
          rw [hlive, hs.head_eq, rep_head_raw hrep]
          rfl
        simp only [lifeLog, hv, lifeOk, lifeAfter, hraw, h1]
        exact ⟨rfl, h2⟩
    | front =>
      simp only [run] at hr
      simp only [lifeLog]
      exact ih s l live hrep hlive obs q hr
    | pop =>
      simp only [run] at hr
      cases hf : V.front s with
      | none => simp [hf] at hr
      | some p =>
        simp only [hf] at hr
        cases hrest : run V fuel (V.pop s) ops with
        | none => simp [hrest] at hr
        | some x =>
          obtain ⟨obs1, q1⟩ := x
          simp only [hrest, Option.some.injEq, Prod.mk.injEq] at hr
          obtain ⟨-, rfl⟩ := hr
          rw [hs.front_eq, rep_front hrep] at hf
          cases l with
          | nil => simp at hf
          | cons a l' =>
            have hrep1 := (rep_pop hrep).1
            rw [← hs.pop_eq] at hrep1
            have hlive1 : ∀ i, (fun j => if j = V.tail s then false else live j) i
                = ((abs (V.pop s)).buf_ i).isSome := by
              intro i
              rw [hs.pop_eq, soft_pop_buf, hs.tail_eq]
              by_cases hi : i = (abs s).tail_
              · simp [hi]
              · simp [hi, hlive i]
            obtain ⟨h1, h2⟩ := ih (V.pop s) l' _ hrep1 hlive1 obs1 q1 hrest
            have hlv : live (V.tail s) = true := by
              rw [hlive, hs.tail_eq, rep_tail_slot hrep]
              rfl
            have hf' : V.front s = some (abs s).tail_ := by
              rw [hs.front_eq, rep_front hrep]
              simp
            simp only [lifeLog, hf', lifeOk, lifeAfter, hlv, h1]
            exact ⟨rfl, h2⟩

/-- The part of the live-slot invariant that holds for all three variants: along
any completed, precondition-respecting run from a fresh queue, counting only the
constructions made by `push` and the destructions made by `pop`, every `push`
constructs into a slot holding no pushed element, every `pop` destructs a slot
holding one, and at the end the slots holding a pushed element are exactly those
of the cyclic interval `[tail, head)`. -/
theorem push_pop_lifetimes {α : Type} (V : Variant α) (q0 : V.State) (hfresh : Fresh V q0)
    (fuel : Nat) (ops : List (Op α)) (obs : List (Option α)) (q : V.State)
    (hrun : run V fuel q0 ops = some (obs, q)) :
    lifeOk (lifeLog V fuel q0 ops) (fun _ => false) = true ∧
    (∀ i, lifeAfter (lifeLog V fuel q0 ops) (fun _ => false) i = (V.slot q i).isSome) ∧
    (∀ i, (V.slot q i).isSome = true ↔ inLive (V.cap q) (V.tail q) (V.head q) i) := by
  obtain ⟨abs, hs, hrep0⟩ := fresh_sim hfresh
  have hlive0 : ∀ i, (fun _ : Int => false) i = ((abs q0).buf_ i).isSome := by
    intro i
    obtain ⟨-, -, -, -, hbuf⟩ := hrep0
    rw [hbuf i]
    split_ifs <;> simp
  obtain ⟨h1, h2⟩ := run_life hs fuel ops q0 [] _ hrep0 hlive0 obs q hrun
  obtain ⟨abs', l, hs', hrep, -, -⟩ := run_fresh hfresh hrun
  refine ⟨h1, ?_, ?_⟩
  · intro i
    rw [h2 i, hs.slot_eq]
  · intro i
    rw [hs'.slot_eq, hs'.cap_eq, hs'.tail_eq, hs'.head_eq]
    exact rep_slot_live hrep i

/-- C13 (live-slot invariant): evaluation on the fence queue, `Capacity = 4`, for an
element type with a constructor and a destructor.  The constructor of the queue
object default-initialises the member array `T buf_[Capacity]`: right after
`create()` each of the four slots holds a constructed element, although
`head == tail == 0` and the interval `[tail, head)` is empty; the first `push` then
constructs into slot 0 a second time with no destruction in between. -/
theorem fence_slot_constructed_twice :
    SPSCQueueFence.member_init 4
      = [LifeEvent.construct 0, LifeEvent.construct 1, LifeEvent.construct 2,
          LifeEvent.construct 3] ∧
    (List.range 4).all
      (fun (i : Nat) => lifeAfter (SPSCQueueFence.member_init 4) (fun _ => false) (i : Int))
      = true ∧
    ((SPSCQueueFence.construct : SPSCQueueFence Nat 4).head_ = 0 ∧
      (SPSCQueueFence.construct : SPSCQueueFence Nat 4).tail_ = 0) ∧
    (∀ i : Int, ¬ inLive 4 0 0 i) ∧
    lifeLog (SPSCQueueFence.variant Nat 4) 1 SPSCQueueFence.construct [Op.push 7]
      = [LifeEvent.construct 0] ∧
    lifeOk (SPSCQueueFence.member_init 4
        ++ lifeLog (SPSCQueueFence.variant Nat 4) 1 SPSCQueueFence.construct [Op.push 7])
      (fun _ => false) = false ∧
    lifeOk (SPSCQueueSoftArray.member_init
        ++ lifeLog (SPSCQueueSoftArray.variant Nat) 1 (SPSCQueueSoftArray.construct 4)
          [Op.push 7])
      (fun _ => false) = true := by
  refine ⟨by decide, by decide, ⟨rfl, rfl⟩, ?_, by decide, by decide, by decide⟩
  intro i h
  unfold inLive at h
  omega

theorem teardownLife_append {α : Type} (a b : List (DestroyEvent α)) :
    teardownLife (a ++ b) = teardownLife a ++ teardownLife b := by
  induction a with
  | nil => rfl
  | cons e es ih =>
    cases e <;> simp [teardownLife, ih]

theorem destructed_append {α : Type} (a b : List (DestroyEvent α)) :
    destructed (a ++ b) = destructed a ++ destructed b := by
  induction a with
  | nil => rfl
  | cons e es ih =>
    cases e <;> simp [destructed, ih]

theorem rep_nil_raw {α : Type} {q : SPSCQueueSoftArray α} (h : Rep q []) (i : Int) :
    (q.buf_ i).isSome = false := by
  obtain ⟨-, -, -, -, hbuf⟩ := h
  rw [hbuf i]
  split_ifs <;> simp

theorem drain_rep {α : Type} {V : Variant α} {abs : V.State → SPSCQueueSoftArray α}
    (hs : Sim V abs) (l : List α) :
    ∀ (s : V.State) (fuel : Nat) (live : Int → Bool), Rep (abs s) l →
      (∀ i, live i = ((abs s).buf_ i).isSome) → l.length < fuel →
      ∃ log s', drain V fuel s = some (log, s') ∧ destructed log = l.map some ∧
        lifeOk (teardownLife log) live = true ∧
        (∀ i, lifeAfter (teardownLife log) live i = false) ∧
        (teardownLife log).length = l.length ∧
        (∀ e ∈ log, (∃ p, e = DestroyEvent.front p) ∨ ∃ i x, e = DestroyEvent.pop i x) ∧
        Rep (abs s') [] := by
  induction l with
  | nil =>
    intro s fuel live hrep hlive hfuel
    obtain ⟨n, rfl⟩ : ∃ n, fuel = n + 1 := ⟨fuel - 1, by simp at hfuel; omega⟩
    have hf : V.front s = none := by
      rw [hs.front_eq, rep_front hrep]
      simp
    refine ⟨[DestroyEvent.front none], s, ?_, rfl, rfl, ?_, rfl, ?_, hrep⟩
    · simp only [drain, hf]
    · intro i
      show live i = false
      rw [hlive i, rep_nil_raw hrep i]
    · intro e he
      simp only [List.mem_singleton] at he
      exact Or.inl ⟨none, he⟩
  | cons a l ih =>
    intro s fuel live hrep hlive hfuel
    obtain ⟨n, rfl⟩ : ∃ n, fuel = n + 1 := ⟨fuel - 1, by simp at hfuel; omega⟩
    have hf : V.front s = some (abs s).tail_ := by
      rw [hs.front_eq, rep_front hrep]
      simp
    have hrep1 := (rep_pop hrep).1
    rw [← hs.pop_eq] at hrep1
    have hlive1 : ∀ i, (fun j => if j = V.tail s then false else live j) i
        = ((abs (V.pop s)).buf_ i).isSome := by
      intro i
      rw [hs.pop_eq, soft_pop_buf, hs.tail_eq]
      by_cases hi : i = (abs s).tail_
      · simp [hi]
      · simp [hi, hlive i]
    obtain ⟨log, s', hd, hdes, hok, hafter, hlen, hev, hrep'⟩ :=
      ih (V.pop s) n _ hrep1 hlive1 (by simp at hfuel; omega)
    have hlv : live (V.tail s) = true := by
      rw [hlive, hs.tail_eq, rep_tail_slot hrep]
      rfl
    refine ⟨DestroyEvent.front (some (abs s).tail_)
      :: DestroyEvent.pop (V.tail s) (V.slot s (V.tail s)) :: log, s', ?_, ?_, ?_, ?_, ?_, ?_,
      hrep'⟩
    · simp only [drain, hf, hd]
    · simp only [destructed, hdes, List.map_cons, hs.slot_eq, hs.tail_eq, rep_tail_slot hrep]
    · simp only [teardownLife, lifeOk, hlv, hok, Bool.and_self]
    · intro i
      simp only [teardownLife, lifeAfter]
      exact hafter i
    · simp only [teardownLife, List.length_cons, hlen]
    · intro e he
      simp only [List.mem_cons] at he
      rcases he with he | he | he
      · exact Or.inl ⟨_, he⟩
      · exact Or.inr ⟨_, _, he⟩
      · exact hev e he

theorem drain_of_run {α : Type} {V : Variant α} {q0 : V.State} (hfresh : Fresh V q0)
    {fuel : Nat} {ops : List (Op α)} {obs : List (Option α)} {q : V.State}
    (hrun : run V fuel q0 ops = some (obs, q)) (fuel' : Nat)
    (hfuel : (pushed ops).length - pops ops < fuel') :
    ∃ log s', drain V fuel' q = some (log, s') ∧
      destructed log = ((pushed ops).drop (pops ops)).map some ∧
      obs ++ destructed log = (pushed ops).map some ∧
      lifeOk (lifeLog V fuel q0 ops ++ teardownLife log) (fun _ => false) = true ∧
      (∀ i, lifeAfter (lifeLog V fuel q0 ops ++ teardownLife log) (fun _ => false) i = false) ∧
      (∀ e ∈ log, (∃ p, e = DestroyEvent.front p) ∨ ∃ i x, e = DestroyEvent.pop i x) ∧
      liveCount V s' = 0 := by
  obtain ⟨abs, hs, hrep0⟩ := fresh_sim hfresh
  have hr := run_sim hs fuel ops q0
  rw [hrun] at hr
  simp only [Option.map_some'] at hr
  obtain ⟨l, hrep, happ, hlen, -⟩ := run_rep fuel ops (abs q0) [] hrep0 obs (abs q) hr.symm
  simp only [List.nil_append] at happ
  have hl : (pushed ops).length = pops ops + l.length := by
    have := congrArg List.length happ
    simpa [hlen] using this.symm
  have hlive0 : ∀ i, (fun _ : Int => false) i = ((abs q0).buf_ i).isSome := by
    intro i
    rw [rep_nil_raw hrep0 i]
  obtain ⟨h1, h2⟩ := run_life hs fuel ops q0 [] _ hrep0 hlive0 obs q hrun
  obtain ⟨log, s', hd, hdes, hok, hafter, -, hev, hrep'⟩ :=
    drain_rep hs l q fuel' (lifeAfter (lifeLog V fuel q0 ops) (fun _ => false)) hrep h2
      (by omega)
  have hdrop : ((pushed ops).drop (pops ops)).map some = l.map some := by
    have := congrArg (List.drop (pops ops)) happ
    rw [List.drop_left' hlen] at this
    rw [← List.map_drop] at this
    exact this.symm
  refine ⟨log, s', hd, by rw [hdes, hdrop], by rw [hdes, happ], ?_, ?_, hev, ?_⟩
  · rw [(lifeOk_append _ _ _).1, h1, hok]
    rfl
  · intro i
    rw [(lifeOk_append _ _ _).2]
    exact hafter i
  · rw [sim_liveCount hs, rep_liveCount hrep']
    rfl

/-- Teardown of the co-located queue, the part of drain-on-destroy that holds: from
any state reached by a completed, precondition-respecting run, `destroy` (given
enough loop iterations) returns; its `pop()` calls destruct the elements still
held, each once, oldest first; together with the run every construction is
matched by exactly one later destruction; the release of the storage comes last. -/
theorem softArray_destroy_lifetimes {α : Type} (cap : Int) (raw : Nat)
    (q0 : SPSCQueueSoftArray α) (hq : SPSCQueueSoftArray.create (some raw) cap = some q0)
    (fuel : Nat) (ops : List (Op α)) (obs : List (Option α)) (q : SPSCQueueSoftArray α)
    (hrun : run (SPSCQueueSoftArray.variant α) fuel q0 ops = some (obs, q)) (fuel' : Nat)
    (hfuel : (pushed ops).length - pops ops < fuel') :
    ∃ log, SPSCQueueSoftArray.destroy fuel' (some q)
        = some (log ++ [DestroyEvent.destructor, DestroyEvent.deallocate]) ∧
      (∀ e ∈ log, (∃ p, e = DestroyEvent.front p) ∨ ∃ i x, e = DestroyEvent.pop i x) ∧
      destructed (log ++ [DestroyEvent.destructor, DestroyEvent.deallocate])
        = ((pushed ops).drop (pops ops)).map some ∧
      lifeOk (SPSCQueueSoftArray.member_init
          ++ lifeLog (SPSCQueueSoftArray.variant α) fuel q0 ops
          ++ teardownLife (log ++ [DestroyEvent.destructor, DestroyEvent.deallocate]))
        (fun _ => false) = true ∧
      ∀ i, lifeAfter (SPSCQueueSoftArray.member_init
          ++ lifeLog (SPSCQueueSoftArray.variant α) fuel q0 ops
          ++ teardownLife (log ++ [DestroyEvent.destructor, DestroyEvent.deallocate]))
        (fun _ => false) i = false := by
  obtain ⟨log, s', hd, hdes, -, hok, hafter, hev, -⟩ :=
    drain_of_run (Fresh.softArray cap raw q0 hq) hrun fuel' hfuel
  have htl : teardownLife (log ++ [DestroyEvent.destructor, DestroyEvent.deallocate])
      = teardownLife log := by
    rw [teardownLife_append]
    simp [teardownLife]
  refine ⟨log, ?_, hev, ?_, ?_, ?_⟩
  · simp only [SPSCQueueSoftArray.destroy, hd]
  · rw [destructed_append, hdes]
    simp [destructed]
  · rw [htl]
    exact hok
  · rw [htl]
    exact hafter

/-- Teardown of the separate-allocation queue, the part of drain-on-destroy that
holds: the same as for the co-located queue, for the destructor `~SPSCQueue()`. -/
theorem separate_destructor_lifetimes {α : Type} (cap : Int)
    (fuel : Nat) (ops : List (Op α)) (obs : List (Option α)) (q : SPSCQueue α)
    (hrun : run (SPSCQueue.variant α) fuel (SPSCQueue.construct cap) ops = some (obs, q))
    (fuel' : Nat) (hfuel : (pushed ops).length - pops ops < fuel') :
    ∃ log, SPSCQueue.destructor fuel' q = some (log ++ [DestroyEvent.deallocate]) ∧
      (∀ e ∈ log, (∃ p, e = DestroyEvent.front p) ∨ ∃ i x, e = DestroyEvent.pop i x) ∧
      destructed (log ++ [DestroyEvent.deallocate])
        = ((pushed ops).drop (pops ops)).map some ∧
      lifeOk (lifeLog (SPSCQueue.variant α) fuel (SPSCQueue.construct cap) ops
          ++ teardownLife (log ++ [DestroyEvent.deallocate]))
        (fun _ => false) = true ∧
      ∀ i, lifeAfter (lifeLog (SPSCQueue.variant α) fuel (SPSCQueue.construct cap) ops
          ++ teardownLife (log ++ [DestroyEvent.deallocate]))
        (fun _ => false) i = false := by
  obtain ⟨log, s', hd, hdes, -, hok, hafter, hev, -⟩ :=
    drain_of_run (Fresh.separate cap) hrun fuel' hfuel
  have htl : teardownLife (log ++ [DestroyEvent.deallocate]) = teardownLife log := by
    rw [teardownLife_append]
    simp [teardownLife]
  refine ⟨log, ?_, hev, ?_, ?_, ?_⟩
  · simp only [SPSCQueue.destructor, hd]
  · rw [destructed_append, hdes]
    simp [destructed]
  · rw [htl]
    exact hok
  · rw [htl]
    exact hafter

/-- C14 (drain on destroy): evaluation on the fence queue, `Capacity = 4`, for an
element type with a destructor.  After `create()`, `push(1)`, `push(2)`, the call
`destroy(queue)` drains the two live elements in FIFO order with `pop()`, then
`queue->~SPSCQueueFence()` destroys the member array `T buf_[4]`, running the
destructor of `T` on all four slots: slots 0 and 1, which held the two live
elements, are destructed twice each before `operator delete`; even if every slot
is taken to hold an element when `destroy` starts, the destructions of the teardown
break the lifetime discipline.  The same calls on the co-located queue destruct the
two elements once each. -/
theorem fence_destroy_destructs_twice :
    (run (SPSCQueueFence.variant Nat 4) 1 SPSCQueueFence.construct
        [Op.push 1, Op.push 2]).bind (fun r => SPSCQueueFence.destroy 3 (some r.2))
      = some [DestroyEvent.front (some 0), DestroyEvent.pop 0 (some 1),
          DestroyEvent.front (some 1), DestroyEvent.pop 1 (some 2), DestroyEvent.front none,
          DestroyEvent.destructor, DestroyEvent.member 3, DestroyEvent.member 2,
          DestroyEvent.member 1, DestroyEvent.member 0, DestroyEvent.deallocate] ∧
    teardownLife ([DestroyEvent.front (some 0), DestroyEvent.pop 0 (some 1),
          DestroyEvent.front (some 1), DestroyEvent.pop 1 (some 2), DestroyEvent.front none,
          DestroyEvent.destructor, DestroyEvent.member 3, DestroyEvent.member 2,
          DestroyEvent.member 1, DestroyEvent.member 0, DestroyEvent.deallocate]
          : List (DestroyEvent Nat))
      = [LifeEvent.destruct 0, LifeEvent.destruct 1, LifeEvent.destruct 3,
          LifeEvent.destruct 2, LifeEvent.destruct 1, LifeEvent.destruct 0] ∧
    lifeOk [LifeEvent.destruct 0, LifeEvent.destruct 1, LifeEvent.destruct 3,
          LifeEvent.destruct 2, LifeEvent.destruct 1, LifeEvent.destruct 0]
      (fun i => decide (0 ≤ i ∧ i < 4)) = false ∧
    (run (SPSCQueueSoftArray.variant Nat) 1 (SPSCQueueSoftArray.construct 4)
        [Op.push 1, Op.push 2]).bind (fun r => SPSCQueueSoftArray.destroy 3 (some r.2))
      = some [DestroyEvent.front (some 0), DestroyEvent.pop 0 (some 1),
          DestroyEvent.front (some 1), DestroyEvent.pop 1 (some 2), DestroyEvent.front none,
          DestroyEvent.destructor, DestroyEvent.deallocate] := by
  refine ⟨by decide, by decide, by decide, by decide⟩

/-! ## `front` between two `pop` calls -/

theorem soft_push_front {α : Type} {fuel : Nat} {q : SPSCQueueSoftArray α} {v : α} {b : Bool}
    {q' : SPSCQueueSoftArray α} (h : SPSCQueueSoftArray.push fuel q v = some (b, q'))
    {p : Int} (hf : SPSCQueueSoftArray.front q = some p) :
    SPSCQueueSoftArray.front q' = some p ∧ q'.buf_ p = q.buf_ p := by
  obtain ⟨-, ht, hh, hb⟩ := soft_push_inv h
  have hne : (if wrapInt32 (q.head_ + 1) = q.cap_ then 0 else wrapInt32 (q.head_ + 1))
      ≠ q.tail_ := by
    intro hx
    unfold SPSCQueueSoftArray.push at h
    simp only [soft_push_wait_iff, hx] at h
    simp at h
  unfold SPSCQueueSoftArray.front at hf ⊢
  simp only at hf ⊢
  by_cases he : q.head_ = q.tail_
  · rw [if_pos he] at hf
    cases hf
  · rw [if_neg he, Option.some.injEq] at hf
    subst hf
    rw [hh, ht, if_neg hne, hb]
    refine ⟨rfl, ?_⟩
    show (if q.tail_ = q.head_ then some v else q.buf_ q.tail_) = q.buf_ q.tail_
    rw [if_neg (fun hx => he hx.symm)]

theorem run_pushes_front {α : Type} {V : Variant α} {abs : V.State → SPSCQueueSoftArray α}
    (hs : Sim V abs) (fuel : Nat) (vs : List α) :
    ∀ (s : V.State) (p : Int) (obs : List (Option α)) (s' : V.State),
      V.front s = some p → run V fuel s (vs.map Op.push) = some (obs, s') →
      V.front s' = some p ∧ V.slot s' p = V.slot s p := by
  induction vs with
  | nil =>
    intro s p obs s' hf hrun
    simp only [List.map_nil, run, Option.some.injEq, Prod.mk.injEq] at hrun
    rw [← hrun.2]
    exact ⟨hf, rfl⟩
  | cons v vs ih =>
    intro s p obs s' hf hrun
    simp only [List.map_cons, run] at hrun
    cases hp : V.push fuel s v with
    | none => simp [hp] at hrun
    | some x =>
      obtain ⟨b, s1⟩ := x
      simp only [hp] at hrun
      have h1 := soft_push_front (sim_push_some hs hp) (by rw [← hs.front_eq]; exact hf)
      rw [← hs.front_eq, ← hs.slot_eq, ← hs.slot_eq] at h1
      obtain ⟨h2, h3⟩ := ih s1 p obs s' h1.1 hrun
      exact ⟨h2, h3.trans h1.2⟩

/-- C25 (`front()` stays valid until the next `pop`).  For each variant, in every
state where `front()` is non-null, after any number of `push` calls that complete
with no `pop` in between, `front()` returns the same slot index, the slot holds the
same content, and the `front()` call gives the same result as before the pushes. -/
theorem front_valid_until_pop {α : Type} (V : Variant α) (hV : IsVariant V) (s : V.State)
    (p : Int) (hfront : V.front s = some p) (fuel : Nat) (vs : List α)
    (obs : List (Option α)) (s' : V.State)
    (hrun : run V fuel s (vs.map Op.push) = some (obs, s')) :
    V.front s' = some p ∧ V.slot s' p = V.slot s p ∧
    (exec V fuel Call.front s').map Prod.fst = (exec V fuel Call.front s).map Prod.fst := by
  obtain ⟨abs, hs⟩ := isVariant_sim hV
  obtain ⟨h1, h2⟩ := run_pushes_front hs fuel vs s p obs s' hfront hrun
  refine ⟨h1, h2, ?_⟩
  simp only [exec, h1, hfront, h2]
  rfl

/-- Witness for C25: the fence queue with `Capacity = 4`, `head_ = 2`, `tail_ = 1`
(one element, `8`, in slot 1); two pushes complete, the second one wraps `head_` to
0, and `front()` still points at slot 1 holding `8`. -/
theorem front_valid_until_pop_witness :
    ∃ s', run (SPSCQueueFence.variant Nat 4) 1
        { head_ := 2, tail_ := 1, buf_ := fun i => if i = 1 then some 8 else none }
        ([5, 6].map Op.push) = some ([], s') ∧
      s'.head_ = 0 ∧ SPSCQueueFence.front s' = some 1 ∧ s'.buf_ 1 = some 8 :=
  ⟨_, rfl, rfl,
    (front_valid_until_pop (SPSCQueueFence.variant Nat 4) (IsVariant.fence 4)
      { head_ := 2, tail_ := 1, buf_ := fun i => if i = 1 then some 8 else none } 1 rfl 1
      [5, 6] [] _ rfl).1,
    (front_valid_until_pop (SPSCQueueFence.variant Nat 4) (IsVariant.fence 4)
      { head_ := 2, tail_ := 1, buf_ := fun i => if i = 1 then some 8 else none } 1 rfl 1
      [5, 6] [] _ rfl).2.1⟩

/-! ## The drain loop on any state with cursors in range -/

theorem drain_range {α : Type} {V : Variant α} {abs : V.State → SPSCQueueSoftArray α}
    (hs : Sim V abs) :
    ∀ (n : Nat) (s : V.State), (abs s).cap_ ≤ 2147483647 →
      0 ≤ (abs s).head_ → (abs s).head_ < (abs s).cap_ →
      0 ≤ (abs s).tail_ → (abs s).tail_ < (abs s).cap_ →
      ((abs s).head_ - (abs s).tail_) % (abs s).cap_ = n →
      ∀ fuel, (fuel ≤ n → drain V fuel s = none) ∧
        (n < fuel → ∃ log s', drain V fuel s = some (log, s') ∧ V.head s' = V.tail s' ∧
          V.head s' = V.head s ∧ (destructed log).length = n ∧ log.length = 2 * n + 1) := by
  intro n
  induction n with
  | zero =>
    intro s hint h0 h1 t0 t1 hn fuel
    have heq : (abs s).head_ = (abs s).tail_ := by
      by_cases hlt : (abs s).head_ < (abs s).tail_
      · rw [← Int.add_emod_self, Int.emod_eq_of_lt (by omega) (by omega)] at hn
        simp only [Nat.cast_zero] at hn
        omega
      · rw [Int.emod_eq_of_lt (by omega) (by omega)] at hn
        simp only [Nat.cast_zero] at hn
        omega
    have hf : V.front s = none := by
      rw [hs.front_eq]
      simp [SPSCQueueSoftArray.front, heq]
    constructor
    · intro hle
      have : fuel = 0 := by omega
      subst this
      rfl
    · intro hlt
      obtain ⟨f, rfl⟩ : ∃ f, fuel = f + 1 := ⟨fuel - 1, by omega⟩
      refine ⟨[DestroyEvent.front none], s, ?_, ?_, rfl, rfl, rfl⟩
      · simp only [drain, hf]
      · rw [hs.head_eq, hs.tail_eq, heq]
  | succ n ih =>
    intro s hint h0 h1 t0 t1 hn fuel
    have hne : (abs s).head_ ≠ (abs s).tail_ := by
      intro heq
      rw [heq, sub_self, Int.zero_emod] at hn
      simp only [Nat.cast_add, Nat.cast_one] at hn
      omega
    have hf : V.front s = some (V.tail s) := by
      rw [hs.front_eq, hs.tail_eq]
      simp [SPSCQueueSoftArray.front, hne]
    obtain ⟨-, -, ht, hh, hc⟩ := soft_pop_post (abs s) t0 t1 hint
    have hlt : 0 ≤ ((abs s).tail_ + 1) % (abs s).cap_ ∧
        ((abs s).tail_ + 1) % (abs s).cap_ < (abs s).cap_ :=
      ⟨Int.emod_nonneg _ (by omega), Int.emod_lt_of_pos _ (by omega)⟩
    have hsz := soft_pop_size (abs s) h0 h1 t0 t1 hint hne
    have s2 := soft_size_range (abs s) h0 h1 t0 t1 hint
    have s1 := soft_size_range (SPSCQueueSoftArray.pop (abs s)) (by rw [hh]; exact h0)
      (by rw [hh, hc]; exact h1) (by rw [ht]; exact hlt.1) (by rw [ht, hc]; exact hlt.2)
      (by rw [hc]; exact hint)
    have hn' : ((abs (V.pop s)).head_ - (abs (V.pop s)).tail_) % (abs (V.pop s)).cap_
        = (n : Int) := by
      rw [hs.pop_eq, ← s1]
      rw [hn] at s2
      have : (SPSCQueueSoftArray.size (SPSCQueueSoftArray.pop (abs s)) : Int) + 1
          = (SPSCQueueSoftArray.size (abs s) : Int) := by exact_mod_cast hsz
      simp only [Nat.cast_add, Nat.cast_one] at s2
      omega
    have hrec := ih (V.pop s) (by rw [hs.pop_eq, hc]; exact hint)
      (by rw [hs.pop_eq, hh]; exact h0) (by rw [hs.pop_eq, hh, hc]; exact h1)
      (by rw [hs.pop_eq, ht]; exact hlt.1) (by rw [hs.pop_eq, ht, hc]; exact hlt.2) hn'
    constructor
    · intro hle
      cases fuel with
      | zero => rfl
      | succ f =>
        simp only [drain, hf]
        rw [(hrec f).1 (by omega)]
    · intro hlt2
      obtain ⟨f, rfl⟩ : ∃ f, fuel = f + 1 := ⟨fuel - 1, by omega⟩
      obtain ⟨log, s', hd, he, hhd, hl1, hl2⟩ := (hrec f).2 (by omega)
      refine ⟨DestroyEvent.front (some (V.tail s))
        :: DestroyEvent.pop (V.tail s) (V.slot s (V.tail s)) :: log, s', ?_, he, ?_, ?_, ?_⟩
      · simp only [drain, hf]
        rw [hd]
      · rw [hhd, hs.head_eq, hs.pop_eq, hh, ← hs.head_eq]
      · simp only [destructed, List.length_cons, hl1]
      · simp only [List.length_cons, hl2]
        omega

/-- C28 (the drain loop terminates).  For each variant, from every state with both
cursors in `[0, C)` (`C` an `int`), reachable or not, the loop
`while (front()) pop();` of `destroy` and of `~SPSCQueue()` makes exactly
`(head - tail) mod C` calls of `pop()` and that many plus one tests of `front()`,
then exits: it does not finish within that many tests or fewer, it finishes within
any larger number, and it ends with `head == tail`, `front()` null and `head`
untouched. -/
theorem drain_terminates {α : Type} (V : Variant α) (hV : IsVariant V) (s : V.State)
    (hr : CursorsInRange V s) (hint : V.cap s ≤ 2147483647) (fuel : Nat) :
    (fuel ≤ ((V.head s - V.tail s) % V.cap s).toNat → drain V fuel s = none) ∧
    (((V.head s - V.tail s) % V.cap s).toNat < fuel →
      ∃ log s', drain V fuel s = some (log, s') ∧ V.head s' = V.tail s' ∧
        V.front s' = none ∧ V.head s' = V.head s ∧
        (destructed log).length = ((V.head s - V.tail s) % V.cap s).toNat ∧
        log.length = 2 * ((V.head s - V.tail s) % V.cap s).toNat + 1) := by
  obtain ⟨abs, hs⟩ := isVariant_sim hV
  obtain ⟨⟨h0, h1⟩, ⟨t0, t1⟩⟩ := hr
  rw [hs.cap_eq, hs.head_eq] at h1
  rw [hs.cap_eq, hs.tail_eq] at t1
  rw [hs.head_eq] at h0
  rw [hs.tail_eq] at t0
  rw [hs.cap_eq] at hint
  have hnn : 0 ≤ ((abs s).head_ - (abs s).tail_) % (abs s).cap_ :=
    Int.emod_nonneg _ (by omega)
  have hd := drain_range hs (((abs s).head_ - (abs s).tail_) % (abs s).cap_).toNat s hint
    h0 h1 t0 t1 (by rw [Int.toNat_of_nonneg hnn]) fuel
  rw [hs.cap_eq, hs.head_eq, hs.tail_eq]
  refine ⟨hd.1, fun hlt => ?_⟩
  obtain ⟨log, s', h1', h2, h3, h4, h5⟩ := hd.2 hlt
  refine ⟨log, s', h1', h2, ?_, ?_, h4, h5⟩
  · rw [hs.front_eq]
    rw [hs.head_eq, hs.tail_eq] at h2
    simp [SPSCQueueSoftArray.front, h2]
  · rw [h3, hs.head_eq]

/-- Witness for C28: the separate-allocation queue with `cap_ = 4`, `head_ = 1`,
`tail_ = 3` and raw slots (a state no run reaches): `(1 - 3) mod 4 = 2`
iterations, not done within two tests, done within three. -/
theorem drain_terminates_witness :
    drain (SPSCQueue.variant Nat) 2
      ({ cap_ := 4, head_ := 1, tail_ := 3, buf_ := fun _ => none } : SPSCQueue Nat) = none ∧
    ∃ log s', drain (SPSCQueue.variant Nat) 3
        ({ cap_ := 4, head_ := 1, tail_ := 3, buf_ := fun _ => none } : SPSCQueue Nat)
          = some (log, s') ∧
      s'.head_ = s'.tail_ ∧ SPSCQueue.front s' = none ∧ s'.head_ = 1 ∧
      (destructed log).length = 2 ∧ log.length = 5 :=
  ⟨(drain_terminates (SPSCQueue.variant Nat) IsVariant.separate
      { cap_ := 4, head_ := 1, tail_ := 3, buf_ := fun _ => none }
      ⟨⟨by decide, by decide⟩, ⟨by decide, by decide⟩⟩ (by decide) 2).1 (by decide),
    (drain_terminates (SPSCQueue.variant Nat) IsVariant.separate
      { cap_ := 4, head_ := 1, tail_ := 3, buf_ := fun _ => none }
      ⟨⟨by decide, by decide⟩, ⟨by decide, by decide⟩⟩ (by decide) 3).2 (by decide)⟩

/-! ## `pop` on an empty queue -/

theorem colocatedOrFence_sim {α : Type} {V : Variant α} (hV : IsColocatedOrFence V) :
    ∃ abs : V.State → SPSCQueueSoftArray α, Sim V abs ∧
      ∀ s, V.size s = SPSCQueueSoftArray.size (abs s) := by
  cases hV with
  | softArray => exact ⟨_, sim_softArray α, fun _ => rfl⟩
  | fence Capacity => exact ⟨_, sim_fence α Capacity, fun _ => rfl⟩

theorem soft_push_blocked {α : Type} (q : SPSCQueueSoftArray α) (v : α)
    (h0 : 0 ≤ q.head_) (h1 : q.head_ < q.cap_) (hint : q.cap_ ≤ 2147483647)
    (hfull : (q.head_ + 1) % q.cap_ = q.tail_) (fuel : Nat) :
    SPSCQueueSoftArray.push fuel q v = none := by
  unfold SPSCQueueSoftArray.push
  simp only [soft_push_wait_iff, next_index_mod _ _ h0 h1 hint, hfull]
  simp

theorem soft_pop_empty {α : Type} (q : SPSCQueueSoftArray α)
    (hempty : q.head_ = q.tail_) (t0 : 0 ≤ q.tail_) (t1 : q.tail_ < q.cap_)
    (hint : q.cap_ ≤ 2147483647) (h2 : 2 ≤ q.cap_) (v : α) :
    (SPSCQueueSoftArray.pop q).tail_ = (q.tail_ + 1) % q.cap_ ∧
    (SPSCQueueSoftArray.pop q).tail_ ≠ (SPSCQueueSoftArray.pop q).head_ ∧
    (SPSCQueueSoftArray.pop q).head_ = q.head_ ∧
    (SPSCQueueSoftArray.size (SPSCQueueSoftArray.pop q) : Int) = q.cap_ - 1 ∧
    SPSCQueueSoftArray.front (SPSCQueueSoftArray.pop q)
      = some (SPSCQueueSoftArray.pop q).tail_ ∧
    ∀ fuel, SPSCQueueSoftArray.push fuel (SPSCQueueSoftArray.pop q) v = none := by
  obtain ⟨-, -, ht, hh, hc⟩ := soft_pop_post q t0 t1 hint
  have hcases : (q.tail_ + 1) % q.cap_ = if q.tail_ + 1 = q.cap_ then 0 else q.tail_ + 1 := by
    split_ifs with hx
    · rw [hx]; simp
    · rw [Int.emod_eq_of_lt (by omega) (by omega)]
  have hlt : 0 ≤ (q.tail_ + 1) % q.cap_ ∧ (q.tail_ + 1) % q.cap_ < q.cap_ :=
    ⟨Int.emod_nonneg _ (by omega), Int.emod_lt_of_pos _ (by omega)⟩
  have hne : (q.tail_ + 1) % q.cap_ ≠ q.tail_ := by
    rw [hcases]
    split_ifs <;> omega
  have s1 := soft_size_range (SPSCQueueSoftArray.pop q) (by rw [hh, hempty]; exact t0)
    (by rw [hh, hc, hempty]; exact t1) (by rw [ht]; exact hlt.1) (by rw [ht, hc]; exact hlt.2)
    (by rw [hc]; exact hint)
  refine ⟨ht, ?_, hh, ?_, ?_, ?_⟩
  · rw [ht, hh, hempty]
    exact hne
  · rw [s1, hh, ht, hc, hempty, hcases]
    by_cases hx : q.tail_ + 1 = q.cap_
    · rw [if_pos hx, Int.emod_eq_of_lt (by omega) (by omega)]
      omega
    · rw [if_neg hx, ← Int.add_emod_self, Int.emod_eq_of_lt (by omega) (by omega)]
      omega
  · unfold SPSCQueueSoftArray.front
    simp only
    rw [if_neg]
    rw [hh, ht, hempty]
    exact fun hx => hne hx.symm
  · intro fuel
    apply soft_push_blocked
    · rw [hh, hempty]; exact t0
    · rw [hh, hc, hempty]; exact t1
    · rw [hc]; exact hint
    · rw [hh, hc, ht, hempty]

/-- C30, the claim as written fails for the fence queue with `Capacity = 1`: on the
fresh (empty) queue `pop()` leaves `tail_` at 0, equal to `head_`, and `front()`
is still null. -/
theorem pop_on_empty_counterexample :
    ∃ q : SPSCQueueFence Nat 1, SPSCQueueFence.create (some 4096) = some q ∧
      q.head_ = q.tail_ ∧
      (SPSCQueueFence.pop q).tail_ = (SPSCQueueFence.pop q).head_ ∧
      SPSCQueueFence.front (SPSCQueueFence.pop q) = none :=
  ⟨_, rfl, rfl, by decide, by decide⟩

/-- C30 (`pop` on an empty queue), with `C ≥ 2`.  For the co-located and the fence
queue, in every state with `head == tail` inside `[0, C)` and `2 ≤ C` (`C` an
`int`): the `pop()` call completes like any other; it stores `(tail + 1) mod C`
into `tail`, which is then different from `head`, and leaves `head` alone; after
it `size()` returns `C - 1`, `front()` is non-null and points at the slot of the new
`tail`, a slot that was outside the (empty) interval `[tail, head)` before the
`pop`; and the next `push` never completes. -/
theorem pop_on_empty {α : Type} (V : Variant α) (hV : IsColocatedOrFence V) (s : V.State)
    (hempty : V.head s = V.tail s) (t0 : 0 ≤ V.tail s) (t1 : V.tail s < V.cap s)
    (hint : V.cap s ≤ 2147483647) (h2 : 2 ≤ V.cap s) (v : α) (fuel : Nat) :
    exec V fuel Call.pop s = some (Result.pop, V.pop s) ∧
    V.tail (V.pop s) = (V.tail s + 1) % V.cap s ∧
    V.tail (V.pop s) ≠ V.head (V.pop s) ∧
    V.head (V.pop s) = V.head s ∧
    (V.size (V.pop s) : Int) = V.cap s - 1 ∧
    V.front (V.pop s) = some (V.tail (V.pop s)) ∧
    ¬ inLive (V.cap s) (V.tail s) (V.head s) (V.tail (V.pop s)) ∧
    ∀ n, V.push n (V.pop s) v = none := by
  obtain ⟨abs, hs, hsize⟩ := colocatedOrFence_sim hV
  rw [hs.head_eq, hs.tail_eq] at hempty
  rw [hs.tail_eq] at t0
  rw [hs.tail_eq, hs.cap_eq] at t1
  rw [hs.cap_eq] at hint h2
  obtain ⟨h1, h3, h4, h5, h6, h7⟩ := soft_pop_empty (abs s) hempty t0 t1 hint h2 v
  refine ⟨rfl, ?_, ?_, ?_, ?_, ?_, ?_, ?_⟩
  · rw [hs.tail_eq, hs.pop_eq, h1, hs.tail_eq, hs.cap_eq]
  · rw [hs.tail_eq, hs.head_eq, hs.pop_eq]
    exact h3
  · rw [hs.head_eq, hs.pop_eq, h4, hs.head_eq]
  · rw [hsize, hs.pop_eq, h5, hs.cap_eq]
  · rw [hs.front_eq, hs.pop_eq, h6, hs.tail_eq, hs.pop_eq]
  · intro hl
    have := hl.2
    rw [hs.head_eq, hs.tail_eq s, hempty, sub_self, Int.zero_emod] at this
    have hnn := Int.emod_nonneg (V.tail (V.pop s) - (abs s).tail_)
      (show V.cap s ≠ 0 by rw [hs.cap_eq]; omega)
    omega
  · intro n
    rw [sim_push_none hs, hs.pop_eq]
    exact h7 n

/-- Witness for C30: the co-located queue with `cap_ = 4` and `head_ = tail_ = 3`;
`pop()` wraps `tail_` to 0, `size()` is then 3 and `front()` points at slot 0. -/
theorem pop_on_empty_witness :
    (SPSCQueueSoftArray.pop
      ({ cap_ := 4, head_ := 3, tail_ := 3, buf_ := fun _ => none } : SPSCQueueSoftArray Nat)).tail_
        = 0 ∧
    (SPSCQueueSoftArray.size (SPSCQueueSoftArray.pop
      ({ cap_ := 4, head_ := 3, tail_ := 3, buf_ := fun _ => none } : SPSCQueueSoftArray Nat)) : Int)
        = 4 - 1 ∧
    SPSCQueueSoftArray.front (SPSCQueueSoftArray.pop
      ({ cap_ := 4, head_ := 3, tail_ := 3, buf_ := fun _ => none } : SPSCQueueSoftArray Nat))
        = some 0 ∧
    ∀ n, SPSCQueueSoftArray.push n (SPSCQueueSoftArray.pop
      ({ cap_ := 4, head_ := 3, tail_ := 3, buf_ := fun _ => none } : SPSCQueueSoftArray Nat)) 7
        = none :=
  have h := pop_on_empty (SPSCQueueSoftArray.variant Nat) IsColocatedOrFence.softArray
    { cap_ := 4, head_ := 3, tail_ := 3, buf_ := fun _ => none }
    rfl (by decide) (by decide) (by decide) (by decide) 7 1
  ⟨by decide, h.2.2.2.2.1, by decide, h.2.2.2.2.2.2.2⟩

/-! ## The fence queue: no widening, no floor -/

theorem pushed_map_push {α : Type} (vs : List α) : pushed (vs.map Op.push) = vs := by
  induction vs with
  | nil => rfl
  | cons v vs ih => simp only [List.map_cons, pushed, ih]

theorem pops_map_push {α : Type} (vs : List α) : pops (vs.map Op.push) = 0 := by
  induction vs with
  | nil => rfl
  | cons v vs ih => simp only [List.map_cons, pops, ih]

theorem sim_run_pushes {α : Type} {V : Variant α} {abs : V.State → SPSCQueueSoftArray α}
    (hs : Sim V abs) {q0 : V.State} (hrep0 : Rep (abs q0) []) (fuel : Nat) (vs : List α) :
    (0 < fuel → (vs.length : Int) + 1 ≤ V.cap q0 →
      ∃ s : V.State, run V fuel q0 (vs.map Op.push) = some ([], s) ∧ Rep (abs s) vs ∧
        V.cap s = V.cap q0) ∧
    (V.cap q0 ≤ (vs.length : Int) → run V fuel q0 (vs.map Op.push) = none) := by
  constructor
  · intro hf hlen
    rw [hs.cap_eq] at hlen
    obtain ⟨q', hr, hrep', hcap⟩ :=
      run_pushes fuel hf vs (abs q0) [] hrep0 (by simpa using hlen)
    have hsim := run_sim hs fuel (vs.map Op.push) q0
    rw [hr] at hsim
    cases hv : run V fuel q0 (vs.map Op.push) with
    | none => simp [hv] at hsim
    | some r =>
      obtain ⟨obs, s⟩ := r
      simp only [hv, Option.map_some', Option.some.injEq, Prod.mk.injEq] at hsim
      refine ⟨s, by rw [hsim.1], ?_, ?_⟩
      · rw [hsim.2]
        simpa using hrep'
      · rw [hs.cap_eq, hs.cap_eq, hsim.2, hcap]
  · intro hlen
    cases hv : run V fuel q0 (vs.map Op.push) with
    | none => rfl
    | some r =>
      exfalso
      obtain ⟨obs, s⟩ := r
      have hsim := run_sim hs fuel (vs.map Op.push) q0
      rw [hv] at hsim
      simp only [Option.map_some'] at hsim
      obtain ⟨l', hrep, happ, hobs, hcap⟩ :=
        run_rep fuel _ (abs q0) [] hrep0 obs (abs s) hsim.symm
      rw [pops_map_push] at hobs
      rw [pushed_map_push] at happ
      have hl := congrArg List.length happ
      simp only [List.length_append, List.length_map, hobs, zero_add, List.nil_append] at hl
      have hlt := rep_length_lt hrep
      rw [hs.cap_eq] at hlen
      rw [hcap] at hlt
      omega

theorem run_cap_one {α : Type} {V : Variant α} {abs : V.State → SPSCQueueSoftArray α}
    (hs : Sim V abs) (fuel : Nat) (s : V.State) (hrep : Rep (abs s) [])
    (hcap : (abs s).cap_ = 1) (ops : List (Op α)) :
    ∀ (obs : List (Option α)) (s' : V.State), run V fuel s ops = some (obs, s') →
      pushed ops = [] ∧ pops ops = 0 ∧ s' = s := by
  induction ops with
  | nil =>
    intro obs s' hr
    simp only [run, Option.some.injEq, Prod.mk.injEq] at hr
    exact ⟨rfl, rfl, hr.2.symm⟩
  | cons op ops ih =>
    intro obs s' hr
    cases op with
    | push v =>
      exfalso
      simp only [run] at hr
      have hb : V.push fuel s v = none := by
        rw [sim_push_none hs]
        exact rep_push_full hrep (by simp [hcap]) fuel v
      rw [hb] at hr
      cases hr
    | front =>
      simp only [run] at hr
      simpa [pushed, pops] using ih obs s' hr
    | pop =>
      exfalso
      simp only [run] at hr
      have hb : V.front s = none := by
        rw [hs.front_eq, rep_front hrep]
        rfl
      rw [hb] at hr
      cases hr

/-- C29, the claim as written fails at `Capacity = 2^31`, a value the `uint32_t`
template argument can take: `capacity()` is `static_cast<int>(2147483648)`, which
is `-2147483648` and not `Capacity`. -/
theorem fence_no_widening_counterexample :
    ∃ q : SPSCQueueFence Nat 2147483648, SPSCQueueFence.create (some 4096) = some q ∧
      SPSCQueueFence.capacity q = -2147483648 ∧
      SPSCQueueFence.capacity q ≠ ((2147483648 : Nat) : Int) :=
  ⟨_, rfl, by decide, by decide⟩

/-- C29 (the fence queue applies no widening and no floor), with
`Capacity ≤ 2^31 - 1`.  For every template argument `1 ≤ Capacity ≤ 2147483647`:
`capacity()` returns `Capacity`; on a fresh queue, with no pop, every sequence of
at most `Capacity - 1` pushes completes and brings `size()` to their number, after
exactly `Capacity - 1` of them the next push never completes, and no sequence of
`Capacity` or more pushes completes.  For `Capacity = 1` the first push on the fresh
queue never completes, and no run of calls from the fresh queue contains a
`push` or leaves a constructed element in the buffer. -/
theorem fence_no_widening {α : Type} (Capacity : Nat) (hpos : 1 ≤ Capacity)
    (hint : Capacity ≤ 2147483647) (raw : Nat) (q0 : SPSCQueueFence α Capacity)
    (hq : SPSCQueueFence.create (some raw) = some q0) :
    SPSCQueueFence.capacity q0 = (Capacity : Int) ∧
    (∀ (fuel : Nat) (vs : List α), 0 < fuel → vs.length + 1 ≤ Capacity →
      ∃ s, run (SPSCQueueFence.variant α Capacity) fuel q0 (vs.map Op.push) = some ([], s) ∧
        SPSCQueueFence.size s = vs.length ∧
        (vs.length + 1 = Capacity → ∀ n v, SPSCQueueFence.push n s v = none)) ∧
    (∀ (fuel : Nat) (vs : List α), Capacity ≤ vs.length →
      run (SPSCQueueFence.variant α Capacity) fuel q0 (vs.map Op.push) = none) ∧
    (Capacity = 1 →
      (∀ fuel v, SPSCQueueFence.push fuel q0 v = none) ∧
      ∀ fuel ops obs s, run (SPSCQueueFence.variant α Capacity) fuel q0 ops = some (obs, s) →
        pushed ops = [] ∧ liveCount (SPSCQueueFence.variant α Capacity) s = 0) := by
  have hw : wrapInt32 (Capacity : Int) = Capacity :=
    wrapInt32_of_range _ (by omega) (by omega)
  have hcap0 : (SPSCQueueFence.variant α Capacity).cap q0 = (Capacity : Int) := hw
  have hs := sim_fence α Capacity
  have hrep0 : Rep (SPSCQueueFence.toSoft q0) [] := by
    simp only [SPSCQueueFence.create, Option.some.injEq] at hq
    subst hq
    have he : SPSCQueueFence.toSoft (SPSCQueueFence.construct : SPSCQueueFence α Capacity)
        = SPSCQueueSoftArray.construct (wrapInt32 (Capacity : Int)) := rfl
    rw [he]
    exact rep_fresh (wrapInt32 (Capacity : Int)) (by omega) (by omega)
  refine ⟨hw, ?_, ?_, ?_⟩
  · intro fuel vs hf hlen
    obtain ⟨s, hr, hrep, hcap⟩ :=
      (sim_run_pushes hs hrep0 fuel vs).1 hf (by rw [hcap0]; exact_mod_cast hlen)
    have hsz : SPSCQueueFence.size s = SPSCQueueSoftArray.size (SPSCQueueFence.toSoft s) :=
      rfl
    refine ⟨s, hr, by rw [hsz]; exact rep_size hrep, ?_⟩
    intro hfull n v
    have hn := rep_push_full hrep (by
      show ((vs.length : Nat) : Int) + 1 = wrapInt32 (Capacity : Int)
      rw [hw]
      exact_mod_cast hfull) n v
    exact (sim_push_none hs n s v).mpr hn
  · intro fuel vs hlen
    exact (sim_run_pushes hs hrep0 fuel vs).2 (by rw [hcap0]; exact_mod_cast hlen)
  · intro h1
    have hc1 : (SPSCQueueFence.toSoft q0).cap_ = 1 := by
      show wrapInt32 (Capacity : Int) = 1
      rw [hw, h1]
      rfl
    constructor
    · intro fuel v
      exact (sim_push_none hs fuel q0 v).mpr (rep_push_full hrep0 (by simp [hc1]) fuel v)
    · intro fuel ops obs s hr
      obtain ⟨hp, -, rfl⟩ := run_cap_one hs fuel q0 hrep0 hc1 ops obs s hr
      refine ⟨hp, ?_⟩
      rw [sim_liveCount hs, rep_liveCount hrep0]
      rfl

/-- Witness for C29: `SPSCQueueFence<T, 4>`; `capacity()` is 4, three pushes
complete on the fresh queue, `size()` is then 3 and a fourth push never
completes. -/
theorem fence_no_widening_witness :
    SPSCQueueFence.capacity (SPSCQueueFence.construct : SPSCQueueFence Nat 4) = 4 ∧
    ∃ s, run (SPSCQueueFence.variant Nat 4) 1 SPSCQueueFence.construct
        ([1, 2, 3].map Op.push) = some ([], s) ∧
      SPSCQueueFence.size s = 3 ∧ ∀ n v, SPSCQueueFence.push n s v = none :=
  have h := fence_no_widening (α := Nat) 4 (by decide) (by decide) 4096
    SPSCQueueFence.construct rfl
  ⟨h.1,
    (h.2.1 1 [1, 2, 3] (by decide) (by decide)).elim
      (fun s hs => ⟨s, hs.1, hs.2.1, hs.2.2 rfl⟩)⟩

/-! ## Round trips on an empty queue -/

theorem rep_round_trip {α : Type} {q : SPSCQueueSoftArray α} (h : Rep q [])
    (h2 : 2 ≤ q.cap_) (fuel : Nat) (hf : 0 < fuel) (v : α) :
    ∃ q1, SPSCQueueSoftArray.push fuel q v = some (true, q1) ∧
      SPSCQueueSoftArray.front q1 = some q.tail_ ∧ q1.buf_ q.tail_ = some v ∧
      Rep (SPSCQueueSoftArray.pop q1) [] ∧ (SPSCQueueSoftArray.pop q1).cap_ = q.cap_ := by
  obtain ⟨q1, hp, hrep1, hcap, htail, -⟩ := rep_push h (by simpa using h2) fuel hf v
  simp only [List.nil_append] at hrep1
  refine ⟨q1, hp, ?_, ?_, (rep_pop hrep1).1, hcap⟩
  · rw [rep_front hrep1, htail]
    rfl
  · rw [← htail]
    exact rep_tail_slot hrep1

theorem rep_latency_test {α : Type} (fuel : Nat) (hf : 0 < fuel) (vs : List α) :
    ∀ q : SPSCQueueSoftArray α, Rep q [] → 2 ≤ q.cap_ →
      ∃ items q', latency_test (SPSCQueueSoftArray.variant α) fuel vs q = some (items, q') ∧
        items.map (Option.map Prod.snd) = vs.map (fun v => some (some v)) ∧
        Rep q' [] ∧ q'.cap_ = q.cap_ := by
  induction vs with
  | nil =>
    intro q h _
    exact ⟨[], q, rfl, rfl, h, rfl⟩
  | cons v vs ih =>
    intro q h h2
    obtain ⟨q1, hp, hfr, hb, hrep, hcap⟩ := rep_round_trip h h2 fuel hf v
    obtain ⟨items, q', hl, hitems, hrep', hcap'⟩ := ih _ hrep (by rw [hcap]; exact h2)
    refine ⟨some (q.tail_, q1.buf_ q.tail_) :: items, q', ?_, ?_, hrep', by rw [hcap', hcap]⟩
    · simp only [latency_test]
      rw [hp]
      simp only [hfr]
      rw [hl]
      rfl
    · simp only [List.map_cons, Option.map_some', hb, hitems]

/-- C26 (round trip on an empty queue).  Take any state of the co-located queue
reached from a freshly created one by completed pushes and precondition-respecting
pops in which `head == tail` (at any index, `C - 1` included).  For every value
`v`: `push(v)` completes; `front()` then is non-null, points at the slot of the old
`tail` and that slot holds `v`; `pop()` then leaves `head == tail`, `front()` null
and `size() == 0`.  And for every list of values the loop of `latency_test` goes
through all its rounds, each `front()` in it handing back the value just pushed,
and ends with `head == tail` and `size() == 0`. -/
theorem round_trip_on_empty {α : Type} (cap : Int) (raw : Nat) (q0 : SPSCQueueSoftArray α)
    (hq : SPSCQueueSoftArray.create (some raw) cap = some q0) (fuel0 : Nat)
    (ops : List (Op α)) (obs : List (Option α)) (s : SPSCQueueSoftArray α)
    (hreach : run (SPSCQueueSoftArray.variant α) fuel0 q0 ops = some (obs, s))
    (hempty : s.head_ = s.tail_) (fuel : Nat) (hf : 0 < fuel) :
    (∀ v : α, ∃ s1, SPSCQueueSoftArray.push fuel s v = some (true, s1) ∧
      SPSCQueueSoftArray.front s1 = some s.tail_ ∧ s1.buf_ s.tail_ = some v ∧
      (SPSCQueueSoftArray.pop s1).head_ = (SPSCQueueSoftArray.pop s1).tail_ ∧
      SPSCQueueSoftArray.front (SPSCQueueSoftArray.pop s1) = none ∧
      SPSCQueueSoftArray.size (SPSCQueueSoftArray.pop s1) = 0) ∧
    (∀ vs : List α, ∃ items s',
      latency_test (SPSCQueueSoftArray.variant α) fuel vs s = some (items, s') ∧
      items.map (Option.map Prod.snd) = vs.map (fun v => some (some v)) ∧
      s'.head_ = s'.tail_ ∧ SPSCQueueSoftArray.size s' = 0) := by
  obtain ⟨hrep0, h4⟩ := rep_create hq
  obtain ⟨l, hrep, -, -, hcap⟩ := run_rep fuel0 ops q0 [] hrep0 obs s hreach
  have hnil : l = [] := by
    have hlen := hrep.2.2.2.1
    rw [hempty] at hlen
    simp only [lt_irrefl, if_false, sub_self] at hlen
    exact List.length_eq_zero.mp (by exact_mod_cast hlen)
  subst hnil
  have hempty_of : ∀ q : SPSCQueueSoftArray α, Rep q [] →
      q.head_ = q.tail_ ∧ SPSCQueueSoftArray.front q = none ∧ SPSCQueueSoftArray.size q = 0 := by
    intro q hr
    refine ⟨?_, by rw [rep_front hr]; rfl, by rw [rep_size hr]; rfl⟩
    have hlen := hr.2.2.2.1
    simp only [List.length_nil, Nat.cast_zero] at hlen
    split_ifs at hlen with hx
    · have := hr.2.1
      have := hr.2.2.1
      omega
    · omega
  constructor
  · intro v
    obtain ⟨s1, hp, hfr, hb, hrep1, -⟩ := rep_round_trip hrep (by rw [hcap]; omega) fuel hf v
    obtain ⟨e1, e2, e3⟩ := hempty_of _ hrep1
    exact ⟨s1, hp, hfr, hb, e1, e2, e3⟩
  · intro vs
    obtain ⟨items, s', hl, hitems, hrep', -⟩ :=
      rep_latency_test fuel hf vs s hrep (by rw [hcap]; omega)
    obtain ⟨e1, -, e3⟩ := hempty_of _ hrep'
    exact ⟨items, s', hl, hitems, e1, e3⟩

/-- Witness for C26: `create(3)` (four slots), three push/pop rounds bring both
cursors to 3, the last index; the round trip of `9` from there wraps both cursors
to 0, and so do two rounds of the test loop started there. -/
theorem round_trip_on_empty_witness :
    ∃ s, run (SPSCQueueSoftArray.variant Nat) 1 (SPSCQueueSoftArray.construct 4)
        [Op.push 1, Op.pop, Op.push 2, Op.pop, Op.push 3, Op.pop]
          = some ([some 1, some 2, some 3], s) ∧
      s.head_ = 3 ∧ s.tail_ = 3 ∧
      (∃ s1, SPSCQueueSoftArray.push 1 s 9 = some (true, s1) ∧
        SPSCQueueSoftArray.front s1 = some s.tail_ ∧ s1.buf_ s.tail_ = some 9 ∧
        (SPSCQueueSoftArray.pop s1).head_ = (SPSCQueueSoftArray.pop s1).tail_ ∧
        SPSCQueueSoftArray.front (SPSCQueueSoftArray.pop s1) = none ∧
        SPSCQueueSoftArray.size (SPSCQueueSoftArray.pop s1) = 0) ∧
      ∃ items s', latency_test (SPSCQueueSoftArray.variant Nat) 1 [7, 8] s = some (items, s') ∧
        items.map (Option.map Prod.snd) = [some (some 7), some (some 8)] ∧
        s'.head_ = s'.tail_ ∧ SPSCQueueSoftArray.size s' = 0 :=
  ⟨_, rfl, rfl, rfl,
    (round_trip_on_empty 3 4096 (SPSCQueueSoftArray.construct 4) rfl 1
      [Op.push 1, Op.pop, Op.push 2, Op.pop, Op.push 3, Op.pop] [some 1, some 2, some 3] _ rfl
      rfl 1 (by decide)).1 9,
    (round_trip_on_empty 3 4096 (SPSCQueueSoftArray.construct 4) rfl 1
      [Op.push 1, Op.pop, Op.push 2, Op.pop, Op.push 3, Op.pop] [some 1, some 2, some 3] _ rfl
      rfl 1 (by decide)).2 [7, 8]⟩

/-! ## Steps of `front` and `pop`, and the two threads -/

theorem isTwoThreads_push {α : Type} {T : TwoThreads α} (hT : IsTwoThreads T) :
    IsPushMachine T.M := by
  cases hT with
  | separate => exact IsPushMachine.separate
  | softArray => exact IsPushMachine.softArray
  | fence Capacity => exact IsPushMachine.fence Capacity

theorem front_step_load_tail {α : Type} {T : TwoThreads α} (hT : IsTwoThreads T)
    (s : T.M.V.State) :
    T.front_step (FrontPc.load_tail, s) = (FrontPc.load_head (T.M.V.tail s), s) := by
  cases hT <;> rfl

theorem front_step_load_head {α : Type} {T : TwoThreads α} (hT : IsTwoThreads T) (t : Int)
    (s : T.M.V.State) :
    T.front_step (FrontPc.load_head t, s)
      = if T.M.V.head s = t then (FrontPc.ret none, s) else (FrontPc.ret (some t), s) := by
  cases hT <;> rfl

theorem front_step_ret {α : Type} {T : TwoThreads α} (hT : IsTwoThreads T) (p : Option Int)
    (s : T.M.V.State) : T.front_step (FrontPc.ret p, s) = (FrontPc.ret p, s) := by
  cases hT <;> rfl

theorem pop_step_load_tail {α : Type} {T : TwoThreads α} (hT : IsTwoThreads T)
    (s : T.M.V.State) :
    T.pop_step (PopPc.load_tail, s)
      = (PopPc.destruct (T.M.V.tail s)
          (if wrapInt32 (T.M.V.tail s + 1) = T.M.V.cap s then 0
            else wrapInt32 (T.M.V.tail s + 1)), s) := by
  cases hT <;> rfl

theorem pop_step_destruct {α : Type} {T : TwoThreads α} (hT : IsTwoThreads T) (t nt : Int)
    (s : T.M.V.State) :
    (T.pop_step (PopPc.destruct t nt, s)).1 = PopPc.store_tail t nt ∧
    T.M.V.slot (T.pop_step (PopPc.destruct t nt, s)).2
      = (fun i => if i = t then none else T.M.V.slot s i) ∧
    T.M.V.head (T.pop_step (PopPc.destruct t nt, s)).2 = T.M.V.head s ∧
    T.M.V.tail (T.pop_step (PopPc.destruct t nt, s)).2 = T.M.V.tail s ∧
    T.M.V.cap (T.pop_step (PopPc.destruct t nt, s)).2 = T.M.V.cap s := by
  cases hT <;> exact ⟨rfl, rfl, rfl, rfl, rfl⟩

theorem pop_step_store_tail {α : Type} {T : TwoThreads α} (hT : IsTwoThreads T) (t nt : Int)
    (s : T.M.V.State) :
    (T.pop_step (PopPc.store_tail t nt, s)).1 = PopPc.ret ∧
    T.M.V.slot (T.pop_step (PopPc.store_tail t nt, s)).2 = T.M.V.slot s ∧
    T.M.V.head (T.pop_step (PopPc.store_tail t nt, s)).2 = T.M.V.head s ∧
    T.M.V.tail (T.pop_step (PopPc.store_tail t nt, s)).2 = nt ∧
    T.M.V.cap (T.pop_step (PopPc.store_tail t nt, s)).2 = T.M.V.cap s := by
  cases hT <;> exact ⟨rfl, rfl, rfl, rfl, rfl⟩

theorem pop_step_ret {α : Type} {T : TwoThreads α} (hT : IsTwoThreads T)
    (s : T.M.V.State) : T.pop_step (PopPc.ret, s) = (PopPc.ret, s) := by
  cases hT <;> rfl

theorem front_eq_steps {α : Type} {T : TwoThreads α} (hT : IsTwoThreads T)
    (s : T.M.V.State) :
    T.front_step^[2] (FrontPc.load_tail, s) = (FrontPc.ret (T.M.V.front s), s) := by
  rw [Function.iterate_succ_apply, Function.iterate_succ_apply, Function.iterate_zero_apply,
    front_step_load_tail hT, front_step_load_head hT]
  cases hT with
  | separate =>
    show (if s.head_ = s.tail_ then (FrontPc.ret none, s) else (FrontPc.ret (some s.tail_), s))
      = (FrontPc.ret (if s.head_ = s.tail_ then none else some s.tail_), s)
    by_cases hx : s.head_ = s.tail_
    · rw [if_pos hx, if_pos hx]
    · rw [if_neg hx, if_neg hx]
  | softArray =>
    show (if s.head_ = s.tail_ then (FrontPc.ret none, s) else (FrontPc.ret (some s.tail_), s))
      = (FrontPc.ret (if s.head_ = s.tail_ then none else some s.tail_), s)
    by_cases hx : s.head_ = s.tail_
    · rw [if_pos hx, if_pos hx]
    · rw [if_neg hx, if_neg hx]
  | fence Capacity =>
    show (if s.head_ = s.tail_ then (FrontPc.ret none, s) else (FrontPc.ret (some s.tail_), s))
      = (FrontPc.ret (if s.head_ = s.tail_ then none else some s.tail_), s)
    by_cases hx : s.head_ = s.tail_
    · rw [if_pos hx, if_pos hx]
    · rw [if_neg hx, if_neg hx]

theorem pop_eq_steps {α : Type} {T : TwoThreads α} (hT : IsTwoThreads T)
    (s : T.M.V.State) :
    T.pop_step^[3] (PopPc.load_tail, s) = (PopPc.ret, T.M.V.pop s) := by
  cases hT <;> rfl

theorem nextIndex_range (C i : Int) (h0 : 0 ≤ i) (h1 : i < C) :
    0 ≤ nextIndex C i ∧ nextIndex C i < C := by
  unfold nextIndex
  split_ifs <;> omega

theorem nextIndex_ne (C a b : Int) (a0 : 0 ≤ a) (a1 : a < C) (b0 : 0 ≤ b)
    (hne : a ≠ b) : nextIndex C a ≠ nextIndex C b := by
  unfold nextIndex
  split_ifs <;> omega

theorem wrap_nextIndex (C i : Int) (h0 : 0 ≤ i) (h1 : i < C) (hint : C ≤ 2147483647) :
    (if wrapInt32 (i + 1) = C then 0 else wrapInt32 (i + 1)) = nextIndex C i := by
  rw [wrapInt32_of_range (i + 1) (by omega) (by omega)]
  rfl

theorem consumerInv_head (C head head' tail : Int) (hne : head' ≠ tail) (pc : ConsumerPc)
    (h : ConsumerInv C head tail pc) : ConsumerInv C head' tail pc := by
  cases pc with
  | in_front f =>
    cases f with
    | load_tail => exact h
    | load_head t => exact h
    | ret p =>
      cases p with
      | none => exact h
      | some p => exact ⟨h.1, hne⟩
  | read p => exact ⟨h.1, hne⟩
  | in_pop f =>
    cases f with
    | load_tail => exact hne
    | destruct t nt => exact ⟨h.1, h.2.1, hne⟩
    | store_tail t nt => exact ⟨h.1, h.2.1, hne⟩
    | ret => exact h

theorem producerInv_tail (C head tail : Int) (h0 : 0 ≤ head) (h1 : head < C)
    (t0 : 0 ≤ tail) (hne : head ≠ tail) (pc : PushPc)
    (h : ProducerInv C head tail pc) : ProducerInv C head (nextIndex C tail) pc := by
  cases pc with
  | load_head => exact h
  | load_tail a b => exact h
  | construct a b =>
    exact ⟨h.1, h.2.1, by rw [h.2.1]; exact nextIndex_ne C head tail h0 h1 t0 hne⟩
  | store_head a b =>
    exact ⟨h.1, h.2.1, by rw [h.2.1]; exact nextIndex_ne C head tail h0 h1 t0 hne⟩
  | ret => exact h

theorem producer_inv {α : Type} {T : TwoThreads α} (hT : IsTwoThreads T)
    (c : Config α T.M.V.State) (h : ThreadsInv T c) : ThreadsInv T (T.producer c) := by
  obtain ⟨ppc, todo, cpc, got, q⟩ := c
  obtain ⟨hint, ⟨⟨h0, h1⟩, ⟨t0, t1⟩⟩, hp, hc, htd⟩ := h
  have hM := isTwoThreads_push hT
  cases todo with
  | nil => exact ⟨hint, ⟨⟨h0, h1⟩, ⟨t0, t1⟩⟩, hp, hc, htd⟩
  | cons v rest =>
    have hne : v :: rest ≠ [] := List.cons_ne_nil v rest
    cases ppc with
    | ret => exact ⟨hint, ⟨⟨h0, h1⟩, ⟨t0, t1⟩⟩, trivial, hc, Or.inl rfl⟩
    | load_head =>
      have e : T.producer ⟨PushPc.load_head, v :: rest, cpc, got, q⟩
          = ⟨(T.M.step v (PushPc.load_head, q)).1, v :: rest, cpc, got,
              (T.M.step v (PushPc.load_head, q)).2⟩ := rfl
      rw [e, step_load_head hM]
      exact ⟨hint, ⟨⟨h0, h1⟩, ⟨t0, t1⟩⟩, ⟨rfl, wrap_nextIndex _ _ h0 h1 hint⟩, hc,
        Or.inr hne⟩
    | load_tail a b =>
      have e : T.producer ⟨PushPc.load_tail a b, v :: rest, cpc, got, q⟩
          = ⟨(T.M.step v (PushPc.load_tail a b, q)).1, v :: rest, cpc, got,
              (T.M.step v (PushPc.load_tail a b, q)).2⟩ := rfl
      rw [e, step_load_tail hM]
      by_cases hx : b = T.M.V.tail q
      · rw [if_pos hx]
        exact ⟨hint, ⟨⟨h0, h1⟩, ⟨t0, t1⟩⟩, hp, hc, Or.inr hne⟩
      · rw [if_neg hx]
        exact ⟨hint, ⟨⟨h0, h1⟩, ⟨t0, t1⟩⟩, ⟨hp.1, hp.2, hx⟩, hc, Or.inr hne⟩
    | construct a b =>
      have e : T.producer ⟨PushPc.construct a b, v :: rest, cpc, got, q⟩
          = ⟨(T.M.step v (PushPc.construct a b, q)).1, v :: rest, cpc, got,
              (T.M.step v (PushPc.construct a b, q)).2⟩ := rfl
      obtain ⟨s1, -, s3, s4, s5⟩ := step_construct hM v a b q
      rw [e]
      unfold ThreadsInv CursorsInRange
      simp only [s1, s3, s4, s5]
      exact ⟨hint, ⟨⟨h0, h1⟩, ⟨t0, t1⟩⟩, hp, hc, Or.inr hne⟩
    | store_head a b =>
      have e : T.producer ⟨PushPc.store_head a b, v :: rest, cpc, got, q⟩
          = ⟨(T.M.step v (PushPc.store_head a b, q)).1, v :: rest, cpc, got,
              (T.M.step v (PushPc.store_head a b, q)).2⟩ := rfl
      obtain ⟨s1, -, s3, s4, s5⟩ := step_store_head hM v a b q
      rw [e]
      unfold ThreadsInv CursorsInRange
      simp only [s1, s3, s4, s5]
      have hb := nextIndex_range _ _ h0 h1
      rw [← hp.2.1] at hb
      exact ⟨hint, ⟨hb, ⟨t0, t1⟩⟩, trivial, consumerInv_head _ _ _ _ hp.2.2 cpc hc,
        Or.inr hne⟩

theorem consumer_inv {α : Type} {T : TwoThreads α} (hT : IsTwoThreads T)
    (c : Config α T.M.V.State) (h : ThreadsInv T c) : ThreadsInv T (T.consumer c) := by
  obtain ⟨ppc, todo, cpc, got, q⟩ := c
  obtain ⟨hint, ⟨⟨h0, h1⟩, ⟨t0, t1⟩⟩, hp, hc, htd⟩ := h
  cases cpc with
  | in_front f =>
    cases f with
    | load_tail =>
      have e : T.consumer ⟨ppc, todo, ConsumerPc.in_front FrontPc.load_tail, got, q⟩
          = ⟨ppc, todo, ConsumerPc.in_front (T.front_step (FrontPc.load_tail, q)).1, got,
              (T.front_step (FrontPc.load_tail, q)).2⟩ := rfl
      rw [e, front_step_load_tail hT]
      exact ⟨hint, ⟨⟨h0, h1⟩, ⟨t0, t1⟩⟩, hp, rfl, htd⟩
    | load_head t =>
      have e : T.consumer ⟨ppc, todo, ConsumerPc.in_front (FrontPc.load_head t), got, q⟩
          = ⟨ppc, todo, ConsumerPc.in_front (T.front_step (FrontPc.load_head t, q)).1, got,
              (T.front_step (FrontPc.load_head t, q)).2⟩ := rfl
      rw [e, front_step_load_head hT]
      have ht : t = T.M.V.tail q := hc
      by_cases hx : T.M.V.head q = t
      · rw [if_pos hx]
        exact ⟨hint, ⟨⟨h0, h1⟩, ⟨t0, t1⟩⟩, hp, trivial, htd⟩
      · rw [if_neg hx]
        exact ⟨hint, ⟨⟨h0, h1⟩, ⟨t0, t1⟩⟩, hp, ⟨ht, by rw [← ht]; exact hx⟩, htd⟩
    | ret p =>
      cases p with
      | none => exact ⟨hint, ⟨⟨h0, h1⟩, ⟨t0, t1⟩⟩, hp, trivial, htd⟩
      | some p => exact ⟨hint, ⟨⟨h0, h1⟩, ⟨t0, t1⟩⟩, hp, hc, htd⟩
  | read p => exact ⟨hint, ⟨⟨h0, h1⟩, ⟨t0, t1⟩⟩, hp, hc.2, htd⟩
  | in_pop f =>
    cases f with
    | load_tail =>
      have e : T.consumer ⟨ppc, todo, ConsumerPc.in_pop PopPc.load_tail, got, q⟩
          = ⟨ppc, todo, ConsumerPc.in_pop (T.pop_step (PopPc.load_tail, q)).1, got,
              (T.pop_step (PopPc.load_tail, q)).2⟩ := rfl
      rw [e, pop_step_load_tail hT]
      exact ⟨hint, ⟨⟨h0, h1⟩, ⟨t0, t1⟩⟩, hp, ⟨rfl, wrap_nextIndex _ _ t0 t1 hint, hc⟩, htd⟩
    | destruct t nt =>
      have e : T.consumer ⟨ppc, todo, ConsumerPc.in_pop (PopPc.destruct t nt), got, q⟩
          = ⟨ppc, todo, ConsumerPc.in_pop (T.pop_step (PopPc.destruct t nt, q)).1, got,
              (T.pop_step (PopPc.destruct t nt, q)).2⟩ := rfl
      obtain ⟨s1, -, s3, s4, s5⟩ := pop_step_destruct hT t nt q
      rw [e]
      unfold ThreadsInv CursorsInRange
      simp only [s1, s3, s4, s5]
      exact ⟨hint, ⟨⟨h0, h1⟩, ⟨t0, t1⟩⟩, hp, hc, htd⟩
    | store_tail t nt =>
      have e : T.consumer ⟨ppc, todo, ConsumerPc.in_pop (PopPc.store_tail t nt), got, q⟩
          = ⟨ppc, todo, ConsumerPc.in_pop (T.pop_step (PopPc.store_tail t nt, q)).1, got,
              (T.pop_step (PopPc.store_tail t nt, q)).2⟩ := rfl
      obtain ⟨s1, -, s3, s4, s5⟩ := pop_step_store_tail hT t nt q
      rw [e]
      unfold ThreadsInv CursorsInRange
      simp only [s1, s3, s4, s5]
      have hb := nextIndex_range _ _ t0 t1
      have hc' : t = T.M.V.tail q ∧ nt = nextIndex (T.M.V.cap q) (T.M.V.tail q) ∧
          T.M.V.head q ≠ T.M.V.tail q := hc
      rw [hc'.2.1]
      exact ⟨hint, ⟨⟨h0, h1⟩, hb⟩,
        producerInv_tail _ _ _ h0 h1 t0 hc'.2.2 ppc hp, trivial, htd⟩
    | ret => exact ⟨hint, ⟨⟨h0, h1⟩, ⟨t0, t1⟩⟩, hp, trivial, htd⟩

theorem exec_inv {α : Type} {T : TwoThreads α} (hT : IsTwoThreads T) (sched : List Thread) :
    ∀ c : Config α T.M.V.State, ThreadsInv T c → ThreadsInv T (T.exec sched c) := by
  induction sched with
  | nil => exact fun _ h => h
  | cons t ts ih =>
    intro c h
    cases t with
    | producer => exact ih _ (producer_inv hT c h)
    | consumer => exact ih _ (consumer_inv hT c h)

/-! ## What a step of each thread does to the slots -/

theorem producer_construct {α : Type} {T : TwoThreads α} (hT : IsTwoThreads T) (h nh : Int)
    (v : α) (rest : List α) (cpc : ConsumerPc) (got : List (Option α)) (q : T.M.V.State) :
    T.M.V.slot (T.producer ⟨PushPc.construct h nh, v :: rest, cpc, got, q⟩).q
      = (fun i => if i = h then some v else T.M.V.slot q i) :=
  (step_construct (isTwoThreads_push hT) v h nh q).2.1

theorem producer_no_write {α : Type} {T : TwoThreads α} (hT : IsTwoThreads T)
    (c : Config α T.M.V.State) (hne : ∀ h nh, c.ppc ≠ PushPc.construct h nh) :
    T.M.V.slot (T.producer c).q = T.M.V.slot c.q := by
  obtain ⟨ppc, todo, cpc, got, q⟩ := c
  have hM := isTwoThreads_push hT
  cases todo with
  | nil => rfl
  | cons v rest =>
    cases ppc with
    | ret => rfl
    | load_head =>
      have e : T.producer ⟨PushPc.load_head, v :: rest, cpc, got, q⟩
          = ⟨(T.M.step v (PushPc.load_head, q)).1, v :: rest, cpc, got,
              (T.M.step v (PushPc.load_head, q)).2⟩ := rfl
      rw [e, step_load_head hM]
    | load_tail a b =>
      have e : T.producer ⟨PushPc.load_tail a b, v :: rest, cpc, got, q⟩
          = ⟨(T.M.step v (PushPc.load_tail a b, q)).1, v :: rest, cpc, got,
              (T.M.step v (PushPc.load_tail a b, q)).2⟩ := rfl
      rw [e, step_load_tail hM]
      split_ifs <;> rfl
    | construct a b => exact absurd rfl (hne a b)
    | store_head a b => exact (step_store_head hM v a b q).2.1

theorem consumer_destruct {α : Type} {T : TwoThreads α} (hT : IsTwoThreads T) (t nt : Int)
    (ppc : PushPc) (todo : List α) (got : List (Option α)) (q : T.M.V.State) :
    T.M.V.slot (T.consumer ⟨ppc, todo, ConsumerPc.in_pop (PopPc.destruct t nt), got, q⟩).q
      = (fun i => if i = t then none else T.M.V.slot q i) :=
  (pop_step_destruct hT t nt q).2.1

theorem consumer_no_write {α : Type} {T : TwoThreads α} (hT : IsTwoThreads T)
    (c : Config α T.M.V.State)
    (hne : ∀ t nt, c.cpc ≠ ConsumerPc.in_pop (PopPc.destruct t nt)) :
    T.M.V.slot (T.consumer c).q = T.M.V.slot c.q := by
  obtain ⟨ppc, todo, cpc, got, q⟩ := c
  cases cpc with
  | in_front f =>
    cases f with
    | load_tail =>
      have e : T.consumer ⟨ppc, todo, ConsumerPc.in_front FrontPc.load_tail, got, q⟩
          = ⟨ppc, todo, ConsumerPc.in_front (T.front_step (FrontPc.load_tail, q)).1, got,
              (T.front_step (FrontPc.load_tail, q)).2⟩ := rfl
      rw [e, front_step_load_tail hT]
    | load_head t =>
      have e : T.consumer ⟨ppc, todo, ConsumerPc.in_front (FrontPc.load_head t), got, q⟩
          = ⟨ppc, todo, ConsumerPc.in_front (T.front_step (FrontPc.load_head t, q)).1, got,
              (T.front_step (FrontPc.load_head t, q)).2⟩ := rfl
      rw [e, front_step_load_head hT]
      split_ifs <;> rfl
    | ret p =>
      cases p with
      | none => rfl
      | some p => rfl
  | read p => rfl
  | in_pop f =>
    cases f with
    | load_tail =>
      have e : T.consumer ⟨ppc, todo, ConsumerPc.in_pop PopPc.load_tail, got, q⟩
          = ⟨ppc, todo, ConsumerPc.in_pop (T.pop_step (PopPc.load_tail, q)).1, got,
              (T.pop_step (PopPc.load_tail, q)).2⟩ := rfl
      rw [e, pop_step_load_tail hT]
    | destruct t nt => exact absurd rfl (hne t nt)
    | store_tail t nt => exact (pop_step_store_tail hT t nt q).2.1
    | ret => rfl

theorem inLive_tail (C tail head : Int) (h0 : 0 ≤ head) (h1 : head < C) (t0 : 0 ≤ tail)
    (t1 : tail < C) (hne : head ≠ tail) : inLive C tail head tail := by
  refine ⟨⟨t0, t1⟩, ?_⟩
  rw [sub_self, Int.zero_emod]
  by_cases hlt : head < tail
  · rw [← Int.add_emod_self, Int.emod_eq_of_lt (by omega) (by omega)]
    omega
  · rw [Int.emod_eq_of_lt (by omega) (by omega)]
    omega

theorem not_inLive_head (C tail head : Int) : ¬ inLive C tail head head :=
  fun h => lt_irrefl _ h.2

theorem producer_writes_head {α : Type} {T : TwoThreads α} (hT : IsTwoThreads T)
    (c : Config α T.M.V.State) (hinv : ThreadsInv T c) (i : Int)
    (hi : i ≠ T.M.V.head c.q) : T.M.V.slot (T.producer c).q i = T.M.V.slot c.q i := by
  obtain ⟨ppc, todo, cpc, got, q⟩ := c
  obtain ⟨-, -, hp, -, -⟩ := hinv
  cases ppc with
  | construct a b =>
    cases todo with
    | nil => rfl
    | cons v rest =>
      rw [producer_construct hT]
      have ha : a = T.M.V.head q := hp.1
      show (if i = a then some v else T.M.V.slot q i) = T.M.V.slot q i
      rw [if_neg (by rw [ha]; exact hi)]
  | load_head => rw [producer_no_write hT _ (fun h nh e => PushPc.noConfusion e)]
  | load_tail a b => rw [producer_no_write hT _ (fun h nh e => PushPc.noConfusion e)]
  | store_head a b => rw [producer_no_write hT _ (fun h nh e => PushPc.noConfusion e)]
  | ret => rw [producer_no_write hT _ (fun h nh e => PushPc.noConfusion e)]

theorem consumer_writes_tail {α : Type} {T : TwoThreads α} (hT : IsTwoThreads T)
    (c : Config α T.M.V.State) (hinv : ThreadsInv T c) (i : Int)
    (hi : T.M.V.slot (T.consumer c).q i ≠ T.M.V.slot c.q i) :
    i = T.M.V.tail c.q ∧ T.M.V.head c.q ≠ T.M.V.tail c.q := by
  by_cases hd : ∃ t nt, c.cpc = ConsumerPc.in_pop (PopPc.destruct t nt)
  · obtain ⟨t, nt, hd⟩ := hd
    obtain ⟨ppc, todo, cpc, got, q⟩ := c
    have hd' : cpc = ConsumerPc.in_pop (PopPc.destruct t nt) := hd
    subst hd'
    obtain ⟨-, -, -, hc, -⟩ := hinv
    have hc' : t = T.M.V.tail q ∧ nt = nextIndex (T.M.V.cap q) (T.M.V.tail q) ∧
        T.M.V.head q ≠ T.M.V.tail q := hc
    rw [consumer_destruct hT] at hi
    refine ⟨?_, hc'.2.2⟩
    by_contra hne
    apply hi
    show (if i = t then none else T.M.V.slot q i) = T.M.V.slot q i
    rw [if_neg (by rw [hc'.1]; exact hne)]
  · exfalso
    apply hi
    rw [consumer_no_write hT c (fun t nt e => hd ⟨t, nt, e⟩)]

/-- C21 (no slot is touched by both roles).  For each variant, start a producer
thread pushing any list of values and a consumer thread running
`front()` / read of `*data` / `pop()` on any state with both cursors in `[0, C)`
(`C` an `int`), and let them make their loads and stores in any order whatever.
At every moment reached:

* when the producer is at its construct point for slot `h`, `h` is inside `[0, C)`
  and outside the cyclic interval `[tail, head)`, and its step writes the pushed
  value into slot `h` and into no other slot;
* no step of the producer changes a slot inside `[tail, head)`, and away from the
  construct point its step changes no slot at all;
* when the consumer is about to read `*data`, the slot `data` points to is inside
  `[tail, head)`, and its step reads the content of that slot;
* when the consumer is at the destruct point of `pop()` for slot `t`, `t` is inside
  `[tail, head)`, and its step empties slot `t` and no other slot;
* no step of the consumer changes a slot outside `[tail, head)`, and away from the
  destruct point its step changes no slot at all;
* a slot the consumer holds a pointer to, is about to read or is about to destruct
  is left as it is by the step of the producer, and is not the slot the producer is
  about to construct into. -/
theorem slot_roles_disjoint {α : Type} (T : TwoThreads α) (hT : IsTwoThreads T)
    (q0 : T.M.V.State) (hr : CursorsInRange T.M.V q0) (hint : T.M.V.cap q0 ≤ 2147483647)
    (vs : List α) (sched : List Thread) (c : Config α T.M.V.State)
    (hc : c = T.exec sched (T.init vs q0)) :
    (∀ h nh, c.ppc = PushPc.construct h nh →
      (0 ≤ h ∧ h < T.M.V.cap c.q) ∧
      ¬ inLive (T.M.V.cap c.q) (T.M.V.tail c.q) (T.M.V.head c.q) h ∧
      ∃ v rest, c.todo = v :: rest ∧
        T.M.V.slot (T.producer c).q = (fun i => if i = h then some v else T.M.V.slot c.q i)) ∧
    (∀ i, inLive (T.M.V.cap c.q) (T.M.V.tail c.q) (T.M.V.head c.q) i →
      T.M.V.slot (T.producer c).q i = T.M.V.slot c.q i) ∧
    ((∀ h nh, c.ppc ≠ PushPc.construct h nh) →
      T.M.V.slot (T.producer c).q = T.M.V.slot c.q) ∧
    (∀ p, c.cpc = ConsumerPc.read p →
      inLive (T.M.V.cap c.q) (T.M.V.tail c.q) (T.M.V.head c.q) p ∧
      (T.consumer c).got = c.got ++ [T.M.V.slot c.q p]) ∧
    (∀ t nt, c.cpc = ConsumerPc.in_pop (PopPc.destruct t nt) →
      inLive (T.M.V.cap c.q) (T.M.V.tail c.q) (T.M.V.head c.q) t ∧
      T.M.V.slot (T.consumer c).q = (fun i => if i = t then none else T.M.V.slot c.q i)) ∧
    (∀ i, ¬ inLive (T.M.V.cap c.q) (T.M.V.tail c.q) (T.M.V.head c.q) i →
      T.M.V.slot (T.consumer c).q i = T.M.V.slot c.q i) ∧
    ((∀ t nt, c.cpc ≠ ConsumerPc.in_pop (PopPc.destruct t nt)) →
      T.M.V.slot (T.consumer c).q = T.M.V.slot c.q) ∧
    (∀ p, (c.cpc = ConsumerPc.in_front (FrontPc.ret (some p)) ∨ c.cpc = ConsumerPc.read p ∨
        ∃ nt, c.cpc = ConsumerPc.in_pop (PopPc.destruct p nt)) →
      T.M.V.slot (T.producer c).q p = T.M.V.slot c.q p ∧
      ∀ h nh, c.ppc = PushPc.construct h nh → h ≠ p) := by
  have hwrite : ∀ (h nh : Int) (v : α) (rest : List α) (cpc : ConsumerPc)
      (got : List (Option α)) (q : T.M.V.State),
      T.M.V.slot (T.producer ⟨PushPc.construct h nh, v :: rest, cpc, got, q⟩).q
        = (fun i => if i = h then some v else T.M.V.slot q i) := by
    cases hT <;> exact fun _ _ _ _ _ _ _ => rfl
  have hempty : ∀ (t nt : Int) (ppc : PushPc) (todo : List α) (got : List (Option α))
      (q : T.M.V.State),
      T.M.V.slot (T.consumer ⟨ppc, todo, ConsumerPc.in_pop (PopPc.destruct t nt), got, q⟩).q
        = (fun i => if i = t then none else T.M.V.slot q i) := by
    cases hT <;> exact fun _ _ _ _ _ _ => rfl
  have hinit : ThreadsInv T (T.init vs q0) := ⟨hint, hr, trivial, trivial, Or.inl rfl⟩
  have hinv := exec_inv hT sched _ hinit
  rw [← hc] at hinv
  have hpw := producer_writes_head hT c hinv
  have hcw := consumer_writes_tail hT c hinv
  have hpn := producer_no_write hT c
  have hcn := consumer_no_write hT c
  clear hc
  obtain ⟨ppc, todo, cpc, got, q⟩ := c
  obtain ⟨-, ⟨⟨h0, h1⟩, ⟨t0, t1⟩⟩, hp, hci, htd⟩ := hinv
  have hp' : ProducerInv (T.M.V.cap q) (T.M.V.head q) (T.M.V.tail q) ppc := hp
  have hc' : ConsumerInv (T.M.V.cap q) (T.M.V.head q) (T.M.V.tail q) cpc := hci
  have htd' : ppc = PushPc.load_head ∨ todo ≠ [] := htd
  have hprod : ∀ h nh, ppc = PushPc.construct h nh → h = T.M.V.head q := by
    intro h nh he
    rw [he] at hp'
    exact hp'.1
  have hcons : ∀ p, (cpc = ConsumerPc.in_front (FrontPc.ret (some p)) ∨
      cpc = ConsumerPc.read p ∨ ∃ nt, cpc = ConsumerPc.in_pop (PopPc.destruct p nt)) →
      p = T.M.V.tail q ∧ T.M.V.head q ≠ T.M.V.tail q := by
    intro p he
    rcases he with he | he | ⟨nt, he⟩
    · rw [he] at hc'
      exact hc'
    · rw [he] at hc'
      exact hc'
    · rw [he] at hc'
      exact ⟨hc'.1, hc'.2.2⟩
  refine ⟨?_, ?_, hpn, ?_, ?_, ?_, hcn, ?_⟩
  · intro h nh he
    have he' : ppc = PushPc.construct h nh := he
    have hh := hprod h nh he'
    subst he'
    refine ⟨by rw [hh]; exact ⟨h0, h1⟩, by rw [hh]; exact not_inLive_head _ _ _, ?_⟩
    rcases htd' with hx | hx
    · exact PushPc.noConfusion hx
    · cases todo with
      | nil => exact absurd rfl hx
      | cons v rest => exact ⟨v, rest, rfl, hwrite h nh v rest cpc got q⟩
  · intro i hl
    apply hpw
    intro hx
    have hl' : inLive (T.M.V.cap q) (T.M.V.tail q) (T.M.V.head q) i := hl
    rw [hx] at hl'
    exact not_inLive_head _ _ _ hl'
  · intro p he
    have he' : cpc = ConsumerPc.read p := he
    obtain ⟨e1, e2⟩ := hcons p (Or.inr (Or.inl he'))
    subst he'
    refine ⟨?_, rfl⟩
    show inLive (T.M.V.cap q) (T.M.V.tail q) (T.M.V.head q) p
    rw [e1]
    exact inLive_tail _ _ _ h0 h1 t0 t1 e2
  · intro t nt he
    have he' : cpc = ConsumerPc.in_pop (PopPc.destruct t nt) := he
    obtain ⟨e1, e2⟩ := hcons t (Or.inr (Or.inr ⟨nt, he'⟩))
    subst he'
    refine ⟨?_, hempty t nt ppc todo got q⟩
    show inLive (T.M.V.cap q) (T.M.V.tail q) (T.M.V.head q) t
    rw [e1]
    exact inLive_tail _ _ _ h0 h1 t0 t1 e2
  · intro i hl
    by_contra hne
    obtain ⟨e1, e2⟩ := hcw i hne
    apply hl
    show inLive (T.M.V.cap q) (T.M.V.tail q) (T.M.V.head q) i
    have e1' : i = T.M.V.tail q := e1
    rw [e1']
    exact inLive_tail _ _ _ h0 h1 t0 t1 e2
  · intro p hp2
    obtain ⟨e1, e2⟩ := hcons p hp2
    refine ⟨hpw p (by rw [e1]; exact fun hx => e2 hx.symm), ?_⟩
    intro h nh he
    rw [hprod h nh he, e1]
    exact e2

/-- Witness for C21: the co-located queue with four slots, fresh.  The producer
runs `push(7)` to its end (four steps), the consumer goes through `front()` and
finds `data != nullptr` (three steps), the producer goes on to the construct point
of `push(8)` (three steps).  With `head_ = 1`, `tail_ = 0`, the producer is about to
construct into slot 1 while the consumer is about to read slot 0: the step of the
producer puts `8` into slot 1 and leaves the `7` of slot 0, the step of the consumer
reads that `7`. -/
theorem slot_roles_disjoint_witness :
    (TwoThreads.exec ⟨⟨SPSCQueueSoftArray.variant Nat, SPSCQueueSoftArray.push_step⟩,
        SPSCQueueSoftArray.front_step, SPSCQueueSoftArray.pop_step⟩
      [Thread.producer, Thread.producer, Thread.producer, Thread.producer,
       Thread.consumer, Thread.consumer, Thread.consumer,
       Thread.producer, Thread.producer, Thread.producer]
      (TwoThreads.init _ [7, 8] (SPSCQueueSoftArray.construct 4))).ppc = PushPc.construct 1 2 ∧
    (TwoThreads.exec ⟨⟨SPSCQueueSoftArray.variant Nat, SPSCQueueSoftArray.push_step⟩,
        SPSCQueueSoftArray.front_step, SPSCQueueSoftArray.pop_step⟩
      [Thread.producer, Thread.producer, Thread.producer, Thread.producer,
       Thread.consumer, Thread.consumer, Thread.consumer,
       Thread.producer, Thread.producer, Thread.producer]
      (TwoThreads.init _ [7, 8] (SPSCQueueSoftArray.construct 4))).cpc = ConsumerPc.read 0 ∧
    ¬ inLive 4 0 1 1 ∧ inLive 4 0 1 0 ∧
    (TwoThreads.producer ⟨⟨SPSCQueueSoftArray.variant Nat, SPSCQueueSoftArray.push_step⟩,
        SPSCQueueSoftArray.front_step, SPSCQueueSoftArray.pop_step⟩
      (TwoThreads.exec ⟨⟨SPSCQueueSoftArray.variant Nat, SPSCQueueSoftArray.push_step⟩,
          SPSCQueueSoftArray.front_step, SPSCQueueSoftArray.pop_step⟩
        [Thread.producer, Thread.producer, Thread.producer, Thread.producer,
         Thread.consumer, Thread.consumer, Thread.consumer,
         Thread.producer, Thread.producer, Thread.producer]
        (TwoThreads.init _ [7, 8] (SPSCQueueSoftArray.construct 4)))).q.buf_ 1 = some 8 ∧
    (TwoThreads.producer ⟨⟨SPSCQueueSoftArray.variant Nat, SPSCQueueSoftArray.push_step⟩,
        SPSCQueueSoftArray.front_step, SPSCQueueSoftArray.pop_step⟩
      (TwoThreads.exec ⟨⟨SPSCQueueSoftArray.variant Nat, SPSCQueueSoftArray.push_step⟩,
          SPSCQueueSoftArray.front_step, SPSCQueueSoftArray.pop_step⟩
        [Thread.producer, Thread.producer, Thread.producer, Thread.producer,
         Thread.consumer, Thread.consumer, Thread.consumer,
         Thread.producer, Thread.producer, Thread.producer]
        (TwoThreads.init _ [7, 8] (SPSCQueueSoftArray.construct 4)))).q.buf_ 0 = some 7 ∧
    (TwoThreads.consumer ⟨⟨SPSCQueueSoftArray.variant Nat, SPSCQueueSoftArray.push_step⟩,
        SPSCQueueSoftArray.front_step, SPSCQueueSoftArray.pop_step⟩
      (TwoThreads.exec ⟨⟨SPSCQueueSoftArray.variant Nat, SPSCQueueSoftArray.push_step⟩,
          SPSCQueueSoftArray.front_step, SPSCQueueSoftArray.pop_step⟩
        [Thread.producer, Thread.producer, Thread.producer, Thread.producer,
         Thread.consumer, Thread.consumer, Thread.consumer,
         Thread.producer, Thread.producer, Thread.producer]
        (TwoThreads.init _ [7, 8] (SPSCQueueSoftArray.construct 4)))).got = [some 7] :=
  have h := slot_roles_disjoint
    ⟨⟨SPSCQueueSoftArray.variant Nat, SPSCQueueSoftArray.push_step⟩,
      SPSCQueueSoftArray.front_step, SPSCQueueSoftArray.pop_step⟩
    IsTwoThreads.softArray (SPSCQueueSoftArray.construct 4)
    ⟨⟨by decide, by decide⟩, ⟨by decide, by decide⟩⟩ (by decide) [7, 8]
    [Thread.producer, Thread.producer, Thread.producer, Thread.producer,
     Thread.consumer, Thread.consumer, Thread.consumer,
     Thread.producer, Thread.producer, Thread.producer] _ rfl
  ⟨by decide, by decide, (h.1 1 2 (by decide)).2.1, (h.2.2.2.1 0 (by decide)).1,
    by decide, (h.2.2.2.2.2.2.2 0 (Or.inr (Or.inl (by decide)))).1,
    (h.2.2.2.1 0 (by decide)).2⟩

/-! ## Allocation failure -/

/-- C24 (allocation failure), what the code does.  When the allocation fails,
`operator new` throws `std::bad_alloc` inside a `noexcept` function: the call of
`SPSCQueueSoftArray::create`, of `SPSCQueueFence::create` and of the constructor
`SPSCQueue(cap)` each end in `std::terminate()`, for every `cap` and `Capacity`.
No outcome of the allocation makes `create` return a null handle (the branch
`if (!raw_memory) return nullptr;` is never taken), and whenever the allocation
succeeds a queue is made. -/
theorem allocation_failure_terminates {α : Type} (cap : Int) (Capacity : Nat) :
    (SPSCQueueSoftArray.create_call Allocation.bad_alloc cap :
      Noexcept (Option (SPSCQueueSoftArray α))) = Noexcept.terminate ∧
    (SPSCQueueFence.create_call Allocation.bad_alloc :
      Noexcept (Option (SPSCQueueFence α Capacity))) = Noexcept.terminate ∧
    (SPSCQueue.construct_call Allocation.bad_alloc cap : Noexcept (SPSCQueue α))
      = Noexcept.terminate ∧
    (∀ a : Allocation, (SPSCQueueSoftArray.create_call a cap :
      Noexcept (Option (SPSCQueueSoftArray α))) ≠ Noexcept.returns none) ∧
    (∀ a : Allocation, (SPSCQueueFence.create_call a :
      Noexcept (Option (SPSCQueueFence α Capacity))) ≠ Noexcept.returns none) ∧
    (∀ addr : Nat, ∃ q : SPSCQueueSoftArray α,
      SPSCQueueSoftArray.create_call (Allocation.block addr) cap
        = Noexcept.returns (some q)) := by
  refine ⟨rfl, rfl, rfl, ?_, ?_, fun addr => ⟨_, rfl⟩⟩
  · intro a h
    cases a with
    | block addr =>
      simp only [SPSCQueueSoftArray.create_call, SPSCQueueSoftArray.create,
        Noexcept.returns.injEq] at h
      cases h
    | bad_alloc => cases h
  · intro a h
    cases a with
    | block addr =>
      simp only [SPSCQueueFence.create_call, SPSCQueueFence.create,
        Noexcept.returns.injEq] at h
      cases h
    | bad_alloc => cases h

end Spsc
